import Mathlib

/-!
# blowcbc: a Blowfish variant with a CBC layer

Shallow embedding of `cipher-block.go` and `cipher-slice.go`.

* `uint32` values are natural numbers, additions and left shifts are reduced
  modulo `2 ^ 32` explicitly; bytes are natural numbers below `256`.
* Go arrays and slices are lists.  Every operation that can stop with a
  run-time panic (index or slice bound out of range, `make` with a negative
  size) returns an `Option`; `none` is the panic.
* The `length` arguments of the CBC functions are Go `int`s and are integers
  here.  Loop counters and cursors that start at a non-negative constant and
  only grow are natural numbers.
* The package-level seed tables `p`, `s0`, `s1`, `s2`, `s3` are declared in a
  file of constants outside `cipher-block.go` and `cipher-slice.go`; they are
  the parameter `Tables` of every function that reads them.
-/

namespace Blowcbc

/-! ## Data model -/

/-- The package-level seed tables `p`, `s0`, `s1`, `s2`, `s3`. -/
structure Tables where
  p : List Nat
  s0 : List Nat
  s1 : List Nat
  s2 : List Nat
  s3 : List Nat
  deriving DecidableEq

/-- The Go struct `Cipher`: `p [268]uint32`, `s0, s1, s2, s3 [256]uint32`,
`round int`, `IV [8]byte`.  The round count is only ever set to a
non-negative constant and is a natural number here. -/
structure Cipher where
  p : List Nat
  s0 : List Nat
  s1 : List Nat
  s2 : List Nat
  s3 : List Nat
  round : Nat
  IV : List Nat
  deriving DecidableEq

/-- The Go type `KeySizeError int`: the offending key length. -/
abbrev KeySizeError := Int

/-- The zero value of the struct (`var result Cipher`). -/
def Cipher.zero : Cipher :=
  { p := List.replicate 268 0
    s0 := List.replicate 256 0
    s1 := List.replicate 256 0
    s2 := List.replicate 256 0
    s3 := List.replicate 256 0
    round := 0
    IV := List.replicate 8 0 }

/-- Every entry of the list is a `uint32`. -/
def Words (a : List Nat) : Prop := ∀ x ∈ a, x < 2 ^ 32

/-- Every entry of the list is a `byte`. -/
def Bytes (a : List Nat) : Prop := ∀ x ∈ a, x < 256

/-- The seed tables have the shape the code relies on: four substitution
tables of 256 words and a subkey seed array of words. -/
structure Tables.WF (T : Tables) : Prop where
  p_words : Words T.p
  s0_len : T.s0.length = 256
  s1_len : T.s1.length = 256
  s2_len : T.s2.length = 256
  s3_len : T.s3.length = 256
  s0_words : Words T.s0
  s1_words : Words T.s1
  s2_words : Words T.s2
  s3_words : Words T.s3

/-- The value is a value of the Go type `Cipher`: the arrays have their
declared sizes and element types. -/
structure Cipher.WF (c : Cipher) : Prop where
  p_len : c.p.length = 268
  s0_len : c.s0.length = 256
  s1_len : c.s1.length = 256
  s2_len : c.s2.length = 256
  s3_len : c.s3.length = 256
  iv_len : c.IV.length = 8
  p_words : Words c.p
  s0_words : Words c.s0
  s1_words : Words c.s1
  s2_words : Words c.s2
  s3_words : Words c.s3
  iv_bytes : Bytes c.IV

/-! ## Go primitives -/

/-- The conversion `byte(x)` of a `uint32`. -/
def byte (x : Nat) : Nat := x % 256

/-- Reading `a[i]` with an `int` index. -/
def index (a : List Nat) (i : Int) : Option Nat :=
  if 0 ≤ i then a[i.toNat]? else none

/-- The assignment `a[i] = v` with a natural index. -/
def store (a : List Nat) (i : Nat) (v : Nat) : Option (List Nat) :=
  if i < a.length then some (a.set i v) else none

/-- The assignment `a[i] = v` with an `int` index. -/
def storeInt (a : List Nat) (i : Int) (v : Nat) : Option (List Nat) :=
  if 0 ≤ i then store a i.toNat v else none

/-- The builtin `copy(dst, src)` on arrays: the first `min (len dst) (len src)`
elements of `dst` are replaced. -/
def copy (dst src : List Nat) : List Nat :=
  src.take dst.length ++ dst.drop src.length

/-- The allocation `make([]byte, n)`. -/
def make (n : Int) : Option (List Nat) :=
  if 0 ≤ n then some (List.replicate n.toNat 0) else none

/-- The slice expression `a[lo:hi]` on a slice whose capacity is its length. -/
def slice (a : List Nat) (lo hi : Int) : Option (List Nat) :=
  if 0 ≤ lo ∧ lo ≤ hi ∧ hi ≤ a.length then
    some ((a.drop lo.toNat).take (hi.toNat - lo.toNat))
  else none

/-- Writing the bytes `b` through the subslice `a[lo:lo+len b]`. -/
def blit (a : List Nat) (lo : Nat) (b : List Nat) : List Nat :=
  a.take lo ++ b ++ a.drop (lo + b.length)

/-! ## cipher-block.go -/

/-- The four-step loop of `getNextWord`: `k` steps are left, `w` is the word
read so far and `j` the cursor. -/
def getNextWordLoop (b : List Nat) : Nat → Nat → Nat → Option (Nat × Nat)
  | 0, w, j => some (w, j)
  | k + 1, w, j =>
    match b[j]? with
    | none => none
    | some x =>
      getNextWordLoop b k (((w <<< 8) % 2 ^ 32) ||| x)
        (if j + 1 ≥ b.length then 0 else j + 1)

/-- The function `getNextWord(b, pos)`: the next big-endian word read
circularly from `b`, and the updated position. -/
def getNextWord (b : List Nat) (pos : Nat) : Option (Nat × Nat) :=
  getNextWordLoop b 4 0 pos

/-- The function `round(a, b, n, c)`.  In Go `+` and `^` have the same
precedence and associate to the left. -/
def round (a b : Nat) (n : Nat) (c : Cipher) : Option Nat :=
  match c.s0[byte (b >>> 24)]?, c.s1[byte (b >>> 16)]?, c.s2[byte (b >>> 8)]?,
      c.s3[byte b]?, c.p[n]? with
  | some x0, some x1, some x2, some x3, some pn =>
    some ((((((x0 + x1) % 2 ^ 32) ^^^ x2) + x3) % 2 ^ 32 ^^^ pn) ^^^ a)
  | _, _, _, _, _ => none

/-- The loop of `encryptBlock`: `k` iterations are left, the counter is `i`
(it advances by 2) and the state is `(xl, xr)`. -/
def encryptLoop (c : Cipher) : Nat → Nat → Nat × Nat → Option (Nat × Nat)
  | 0, _, s => some s
  | k + 1, i, (xl, xr) =>
    match round xr xl (i + 1) c with
    | none => none
    | some xr1 =>
      match round xl xr1 (i + 2) c with
      | none => none
      | some xl1 => encryptLoop c k (i + 2) (xl1, xr1)

/-- The function `encryptBlock(l, r, c)`.  The loop `for i := 0; i < c.round;
i += 2` runs `(c.round + 1) / 2` times.  The final XOR reads the package-level
seed array `p`, not `c.p`. -/
def encryptBlock (T : Tables) (l r : Nat) (c : Cipher) : Option (Nat × Nat) :=
  match c.p[0]? with
  | none => none
  | some p0 =>
    match encryptLoop c ((c.round + 1) / 2) 0 (l ^^^ p0, r) with
    | none => none
    | some (xl, xr) =>
      match T.p[c.round + 1]? with
      | none => none
      | some pe => some (xr ^^^ pe, xl)

/-- The loop of `decryptBlock`: `k` iterations are left, the counter is `i`
(it decreases by 2 and is positive inside the body). -/
def decryptLoop (c : Cipher) : Nat → Nat → Nat × Nat → Option (Nat × Nat)
  | 0, _, s => some s
  | k + 1, i, (xl, xr) =>
    match round xr xl i c with
    | none => none
    | some xr1 =>
      match round xl xr1 (i - 1) c with
      | none => none
      | some xl1 => decryptLoop c k (i - 2) (xl1, xr1)

/-- The function `decryptBlock(l, r, c)`.  The loop `for i := c.round; i > 0;
i -= 2` runs `(c.round + 1) / 2` times. -/
def decryptBlock (l r : Nat) (c : Cipher) : Option (Nat × Nat) :=
  match c.p[c.round + 1]? with
  | none => none
  | some pe =>
    match decryptLoop c ((c.round + 1) / 2) c.round (l ^^^ pe, r) with
    | none => none
    | some (xl, xr) =>
      match c.p[0]? with
      | none => none
      | some p0 => some (xr ^^^ p0, xl)

/-- The arrays of a `Cipher` that the key schedule fills. -/
inductive Field where
  | p
  | s0
  | s1
  | s2
  | s3
  deriving DecidableEq

/-- The array `c.f`. -/
def Cipher.get (c : Cipher) : Field → List Nat
  | .p => c.p
  | .s0 => c.s0
  | .s1 => c.s1
  | .s2 => c.s2
  | .s3 => c.s3

/-- The cipher with the array `c.f` replaced. -/
def Cipher.put (c : Cipher) (f : Field) (a : List Nat) : Cipher :=
  match f with
  | .p => { c with p := a }
  | .s0 => { c with s0 := a }
  | .s1 => { c with s1 := a }
  | .s2 => { c with s2 := a }
  | .s3 => { c with s3 := a }

/-- The first loop of `ExpandKey` and of `expandKeyWithSalt`,
`c.p[i] ^= (next key word)`: `k` iterations are left, `i` is the counter and
`j` the key cursor.  In `ExpandKey` the body of `getNextWord` is written out
inline. -/
def xorKeyLoop (key : List Nat) : Nat → Nat → Nat → List Nat → Option (List Nat)
  | 0, _, _, a => some a
  | k + 1, i, j, a =>
    match getNextWord key j with
    | none => none
    | some (d, j1) =>
      match a[i]? with
      | none => none
      | some x => xorKeyLoop key k (i + 1) j1 (a.set i (x ^^^ d))

/-- One of the five filling loops of `ExpandKey`,
`l, r = encryptBlock(l, r, c); c.f[i], c.f[i+1] = l, r`: `k` iterations are
left, `i` is the counter (it advances by 2). -/
def fillLoop (T : Tables) (f : Field) :
    Nat → Nat → Nat × Nat → Cipher → Option ((Nat × Nat) × Cipher)
  | 0, _, lr, c => some (lr, c)
  | k + 1, i, (l, r), c =>
    match encryptBlock T l r c with
    | none => none
    | some (l1, r1) =>
      match store (c.get f) i l1 with
      | none => none
      | some a1 =>
        match store a1 (i + 1) r1 with
        | none => none
        | some a2 => fillLoop T f k (i + 2) (l1, r1) (c.put f a2)

/-- The function `ExpandKey(key, c)`. -/
def ExpandKey (T : Tables) (key : List Nat) (c : Cipher) : Option Cipher :=
  match xorKeyLoop key 18 0 0 c.p with
  | none => none
  | some a =>
    match fillLoop T .p 9 0 (0, 0) { c with p := a } with
    | none => none
    | some (lr0, c0) =>
      match fillLoop T .s0 128 0 lr0 c0 with
      | none => none
      | some (lr1, c1) =>
        match fillLoop T .s1 128 0 lr1 c1 with
        | none => none
        | some (lr2, c2) =>
          match fillLoop T .s2 128 0 lr2 c2 with
          | none => none
          | some (lr3, c3) =>
            match fillLoop T .s3 128 0 lr3 c3 with
            | none => none
            | some (_, c4) => some c4

/-- One of the five filling loops of `expandKeyWithSalt`: before each
encryption the two words in flight are XORed with the next two salt words;
`j` is the salt cursor. -/
def saltedFillLoop (T : Tables) (salt : List Nat) (f : Field) :
    Nat → Nat → Nat → Nat × Nat → Cipher → Option ((Nat × Nat × Nat) × Cipher)
  | 0, _, j, (l, r), c => some ((j, l, r), c)
  | k + 1, i, j, (l, r), c =>
    match getNextWord salt j with
    | none => none
    | some (w1, j1) =>
      match getNextWord salt j1 with
      | none => none
      | some (w2, j2) =>
        match encryptBlock T (l ^^^ w1) (r ^^^ w2) c with
        | none => none
        | some (l1, r1) =>
          match store (c.get f) i l1 with
          | none => none
          | some a1 =>
            match store a1 (i + 1) r1 with
            | none => none
            | some a2 => saltedFillLoop T salt f k (i + 2) j2 (l1, r1) (c.put f a2)

/-- The function `expandKeyWithSalt(key, salt, c)`. -/
def expandKeyWithSalt (T : Tables) (key salt : List Nat) (c : Cipher) : Option Cipher :=
  match xorKeyLoop key 18 0 0 c.p with
  | none => none
  | some a =>
    match saltedFillLoop T salt .p 9 0 0 (0, 0) { c with p := a } with
    | none => none
    | some ((j0, lr0), c0) =>
      match saltedFillLoop T salt .s0 128 0 j0 lr0 c0 with
      | none => none
      | some ((j1, lr1), c1) =>
        match saltedFillLoop T salt .s1 128 0 j1 lr1 c1 with
        | none => none
        | some ((j2, lr2), c2) =>
          match saltedFillLoop T salt .s2 128 0 j2 lr2 c2 with
          | none => none
          | some ((j3, lr3), c3) =>
            match saltedFillLoop T salt .s3 128 0 j3 lr3 c3 with
            | none => none
            | some (_, c4) => some c4

/-! ## cipher-slice.go: construction and single blocks -/

/-- The function `initCipher(c, round)`. -/
def initCipher (T : Tables) (c : Cipher) (round : Nat) : Cipher :=
  { c with
    p := copy c.p T.p
    s0 := copy c.s0 T.s0
    s1 := copy c.s1 T.s1
    s2 := copy c.s2 T.s2
    s3 := copy c.s3 T.s3
    round := round }

/-- The function `NewCipher(key)`: `.error k` is the result
`(nil, KeySizeError(k))` and `.ok c` the result `(&c, nil)`. -/
def NewCipher (T : Tables) (key : List Nat) : Option (Except KeySizeError Cipher) :=
  if key.length < 1 ∨ key.length > 56 then some (.error key.length)
  else (ExpandKey T key (initCipher T Cipher.zero 16)).map .ok

/-- The function `NewSaltedCipher(key, salt)`. -/
def NewSaltedCipher (T : Tables) (key salt : List Nat) : Option (Except KeySizeError Cipher) :=
  if salt.length = 0 then NewCipher T key
  else if key.length < 1 then some (.error key.length)
  else (expandKeyWithSalt T key salt (initCipher T Cipher.zero 16)).map .ok

/-- The big-endian word `uint32(b0)<<24 | uint32(b1)<<16 | uint32(b2)<<8 |
uint32(b3)`. -/
def word (b0 b1 b2 b3 : Nat) : Nat :=
  ((b0 <<< 24) % 2 ^ 32) ||| ((b1 <<< 16) % 2 ^ 32) ||| ((b2 <<< 8) % 2 ^ 32) ||| b3

/-- The eight bytes written to `dst` by `EncryptBlock` and `DecryptBlock`. -/
def unpack (l r : Nat) : List Nat :=
  [byte (l >>> 24), byte (l >>> 16), byte (l >>> 8), byte l,
   byte (r >>> 24), byte (r >>> 16), byte (r >>> 8), byte r]

/-- The two words read from `src` by `EncryptBlock` and `DecryptBlock`. -/
def pack (src : List Nat) : Option (Nat × Nat) :=
  match src with
  | b0 :: b1 :: b2 :: b3 :: b4 :: b5 :: b6 :: b7 :: _ =>
    some (word b0 b1 b2 b3, word b4 b5 b6 b7)
  | _ => none

/-- The method `(c *Cipher) EncryptBlock(dst, src)`: the new contents of
`dst`.  Both slices need at least 8 bytes. -/
def EncryptBlock (T : Tables) (c : Cipher) (dst src : List Nat) : Option (List Nat) :=
  match pack src with
  | none => none
  | some (l, r) =>
    match encryptBlock T l r c with
    | none => none
    | some (l1, r1) => if 8 ≤ dst.length then some (blit dst 0 (unpack l1 r1)) else none

/-- The method `(c *Cipher) DecryptBlock(dst, src)`: the new contents of
`dst`. -/
def DecryptBlock (c : Cipher) (dst src : List Nat) : Option (List Nat) :=
  match pack src with
  | none => none
  | some (l, r) =>
    match decryptBlock l r c with
    | none => none
    | some (l1, r1) => if 8 ≤ dst.length then some (blit dst 0 (unpack l1 r1)) else none

/-! ## cipher-slice.go: padding and the CBC layer -/

/-- A copying loop `for i := ...; i++ { dst[dof+i] = src[sof+i] }`: `n`
iterations are left and `i` is the counter. -/
def copyLoop (src : List Nat) (sof dof : Nat) : Nat → Nat → List Nat → Option (List Nat)
  | 0, _, dst => some dst
  | n + 1, i, dst =>
    match src[sof + i]? with
    | none => none
    | some x =>
      match store dst (dof + i) x with
      | none => none
      | some dst1 => copyLoop src sof dof n (i + 1) dst1

/-- The padding loop of `padDataEn`,
`for i := length + 8; i < paddedLength; i++ { outData[i] = outData[length-1+8] ^ 0xCC }`:
`n` iterations are left and `i` is the counter. -/
def padLoop (length : Int) : Nat → Int → List Nat → Option (List Nat)
  | 0, _, out => some out
  | n + 1, i, out =>
    match index out (length - 1 + 8) with
    | none => none
    | some x =>
      match storeInt out i (x ^^^ 0xCC) with
      | none => none
      | some out1 => padLoop length n (i + 1) out1

/-- The value of `paddedLength` in `padDataEn`.  On two's complement integers
`length & 7` is the remainder of `length` modulo 8 in `[0, 8)`. -/
def paddedLengthEn (length : Int) : Int :=
  if length % 8 = 0 then 16 + length else 16 + (length + 8 - length % 8)

/-- The function `padDataEn(data, length)`. -/
def padDataEn (data : List Nat) (length : Int) : Option (List Nat × Int) :=
  match make (paddedLengthEn length) with
  | none => none
  | some out0 =>
    match copyLoop data 0 8 length.toNat 0 out0 with
    | none => none
    | some out1 =>
      match padLoop length (paddedLengthEn length - (length + 8)).toNat (length + 8) out1 with
      | none => none
      | some out2 => some (out2, paddedLengthEn length)

/-- The outcome of the call `rand.Read(c.IV[:])`: the contents of `c.IV`
after the call, the byte count and whether an error is reported. -/
structure RandRead where
  iv : List Nat
  n : Int
  err : Bool
  deriving DecidableEq

/-- The inner loop of `EnCrypt_CBC`,
`for k := 0; k < 8; k++ { outData[i+k] ^= outData[k+i-8] }`; the block offset
`i` is at least 8. -/
def chainXorLoop (i : Nat) : Nat → Nat → List Nat → Option (List Nat)
  | 0, _, out => some out
  | n + 1, k, out =>
    match out[i + k]?, out[k + i - 8]? with
    | some x, some y => chainXorLoop i n (k + 1) (out.set (i + k) (x ^^^ y))
    | _, _ => none

/-- The block loop of `EnCrypt_CBC`, `for i := 8; i < newlength; i += 8`: `n`
iterations are left and `i` is the counter. -/
def encryptChainLoop (T : Tables) (c : Cipher) : Nat → Nat → List Nat → Option (List Nat)
  | 0, _, out => some out
  | n + 1, i, out =>
    match chainXorLoop i 8 0 out with
    | none => none
    | some out1 =>
      match slice out1 i (i + 8) with
      | none => none
      | some blk =>
        match EncryptBlock T c blk blk with
        | none => none
        | some enc => encryptChainLoop T c n (i + 8) (blit out1 i enc)

/-- The number of iterations of `for i := 8; i < newlength; i += 8`. -/
def blockCount (newlength : Int) : Nat := ((newlength - 1) / 8).toNat

/-- The method `(c *Cipher) EnCrypt_CBC(data, length)` for a given outcome of
the random read: the returned buffer and length, and the cipher after the
call. -/
def EnCrypt_CBC (T : Tables) (rd : RandRead) (c : Cipher) (data : List Nat) (length : Int) :
    Option (List Nat × Int × Cipher) :=
  let c1 : Cipher := { c with IV := rd.iv }
  if rd.n ≠ 8 ∧ rd.err = true then some (data, length, c1)
  else
    match padDataEn data length with
    | none => none
    | some (out0, newlength) =>
      match copyLoop c1.IV 0 0 8 0 out0 with
      | none => none
      | some out1 =>
        match encryptChainLoop T c1 (blockCount newlength) 8 out1 with
        | none => none
        | some out2 => some (out2, newlength, c1)

/-- The function `padDataDe(data, length)`; the `nil` slice is the empty
list and `length & 7` is the remainder of `length` modulo 8.  The padding loop
runs from `length` to `paddedLength = length` and has no iteration. -/
def padDataDe (data : List Nat) (length : Int) : Option (List Nat × Int) :=
  if length % 8 ≠ 0 then some ([], 0)
  else
    match make length with
    | none => none
    | some out0 =>
      match copyLoop data 0 0 length.toNat 0 out0 with
      | none => none
      | some out1 => some (out1, length)

/-- The loop of `findPaddingEnd`, `for data[i-1] == data[length-1] { i-- }`:
`i` decreases until the bytes differ or the index `i-1` leaves the slice. -/
def findPaddingLoop (data : List Nat) (length : Int) : Nat → Int → Option Int
  | 0, _ => none
  | n + 1, i =>
    match index data (i - 1), index data (length - 1) with
    | some x, some y => if x = y then findPaddingLoop data length n (i - 1) else some i
    | _, _ => none

/-- The function `findPaddingEnd(data, length)`.  The loop body runs at most
`length` times before the index `i-1` becomes negative. -/
def findPaddingEnd (data : List Nat) (length : Int) : Option Int :=
  findPaddingLoop data length (length.toNat + 1) length

/-- The second inner loop of `DeCrypt_CBC`,
`for k := 0; k < 8; k++ { outData[i+k] ^= c.IV[k]; c.IV[k] = nextIV[k] }`:
the state is `(outData, c.IV)`. -/
def unchainLoop (nextIV : List Nat) (i : Nat) :
    Nat → Nat → List Nat × List Nat → Option (List Nat × List Nat)
  | 0, _, s => some s
  | n + 1, k, (out, iv) =>
    match out[i + k]?, iv[k]?, nextIV[k]? with
    | some x, some y, some z => unchainLoop nextIV i n (k + 1) (out.set (i + k) (x ^^^ y), iv.set k z)
    | _, _, _ => none

/-- The block loop of `DeCrypt_CBC`, `for i := 8; i < newlength; i += 8`: the
state is `(outData, c.IV, nextIV)`. -/
def decryptChainLoop (c : Cipher) :
    Nat → Nat → List Nat × List Nat × List Nat → Option (List Nat × List Nat × List Nat)
  | 0, _, s => some s
  | n + 1, i, (out, iv, nextIV) =>
    match copyLoop out i 0 8 0 nextIV with
    | none => none
    | some nextIV1 =>
      match slice out i (i + 8) with
      | none => none
      | some blk =>
        match DecryptBlock c blk blk with
        | none => none
        | some dec =>
          match unchainLoop nextIV1 i 8 0 (blit out i dec, iv) with
          | none => none
          | some (out1, iv1) => decryptChainLoop c n (i + 8) (out1, iv1, nextIV1)

/-- The method `(c *Cipher) DeCrypt_CBC(data, length)`: the returned slice and
length, and the cipher after the call. -/
def DeCrypt_CBC (c : Cipher) (data : List Nat) (length : Int) :
    Option (List Nat × Int × Cipher) :=
  match padDataDe data length with
  | none => none
  | some (out0, newlength) =>
    match copyLoop out0 0 0 8 0 c.IV with
    | none => none
    | some iv0 =>
      match decryptChainLoop c (blockCount newlength) 8 (out0, iv0, List.replicate 8 0) with
      | none => none
      | some (out1, iv1, _) =>
        match findPaddingEnd out1 newlength with
        | none => none
        | some e =>
          match slice out1 8 (e - 8 + 8) with
          | none => none
          | some res => some (res, e - 8, { c with IV := iv1 })

/-! ## The values computed when no array access fails

The functions of this section are total: an entry that is missing from a list
is read as 0.  The lemmas of the development show that the functions of the
embedding return these values whenever the arrays have their declared
sizes and the subkey indices are in range. -/

/-- The word `((s0[b>>24] + s1[b>>16]) ^ s2[b>>8]) + s3[b]` formed in `round`. -/
def feistel (c : Cipher) (b : Nat) : Nat :=
  ((((c.s0.getD (byte (b >>> 24)) 0 + c.s1.getD (byte (b >>> 16)) 0) % 2 ^ 32) ^^^
    c.s2.getD (byte (b >>> 8)) 0) + c.s3.getD (byte b) 0) % 2 ^ 32

/-- The value of `round(a, b, n, c)`. -/
def roundVal (a b n : Nat) (c : Cipher) : Nat :=
  (feistel c b ^^^ c.p.getD n 0) ^^^ a

/-- One iteration of the loop of `encryptBlock` at counter `i`. -/
def encStep (c : Cipher) (i : Nat) (s : Nat × Nat) : Nat × Nat :=
  (roundVal s.1 (roundVal s.2 s.1 (i + 1) c) (i + 2) c, roundVal s.2 s.1 (i + 1) c)

/-- One iteration of the loop of `decryptBlock` at counter `i`. -/
def decStep (c : Cipher) (i : Nat) (s : Nat × Nat) : Nat × Nat :=
  (roundVal s.1 (roundVal s.2 s.1 i c) (i - 1) c, roundVal s.2 s.1 i c)

/-- The state after `k` iterations of the loop of `encryptBlock` from
counter `i`. -/
def encIter (c : Cipher) : Nat → Nat → Nat × Nat → Nat × Nat
  | 0, _, s => s
  | k + 1, i, s => encIter c k (i + 2) (encStep c i s)

/-- The state after `k` iterations of the loop of `decryptBlock` from
counter `i`. -/
def decIter (c : Cipher) : Nat → Nat → Nat × Nat → Nat × Nat
  | 0, _, s => s
  | k + 1, i, s => decIter c k (i - 2) (decStep c i s)

/-- The value of `encryptBlock(l, r, c)`. -/
def encryptVal (T : Tables) (l r : Nat) (c : Cipher) : Nat × Nat :=
  let s := encIter c ((c.round + 1) / 2) 0 (l ^^^ c.p.getD 0 0, r)
  (s.2 ^^^ T.p.getD (c.round + 1) 0, s.1)

/-- The value of `decryptBlock(l, r, c)`. -/
def decryptVal (l r : Nat) (c : Cipher) : Nat × Nat :=
  let s := decIter c ((c.round + 1) / 2) c.round (l ^^^ c.p.getD (c.round + 1) 0, r)
  (s.2 ^^^ c.p.getD 0 0, s.1)

/-- The subkey indices used by the block transforms exist, in the instance
array `c.p` (268 entries) and in the seed array. -/
def RoundOk (T : Tables) (c : Cipher) : Prop :=
  c.round + 1 < 268 ∧ c.round + 1 < T.p.length

/-- A pair of `uint32` values. -/
def WordPair (s : Nat × Nat) : Prop := s.1 < 2 ^ 32 ∧ s.2 < 2 ^ 32

/-- The preimage of `(a, b)` under `encryptBlock`. -/
def encryptPre (T : Tables) (a b : Nat) (c : Cipher) : Nat × Nat :=
  let s := (decIter c ((c.round + 1) / 2) (0 + 2 * ((c.round + 1) / 2))
    (a ^^^ T.p.getD (c.round + 1) 0, b)).swap
  (s.1 ^^^ c.p.getD 0 0, s.2)

/-- What a filling loop of the key schedule guarantees about the cipher `c1` it
returns from `c`: only the array `f` is written. -/
structure FillPost (f : Field) (c c1 : Cipher) : Prop where
  wf : c1.WF
  round : c1.round = c.round
  iv : c1.IV = c.IV
  other : ∀ g, g ≠ f → c1.get g = c.get g

/-! ## A concrete seed table -/

instance (a : List Nat) : Decidable (Words a) := by
  unfold Words
  infer_instance

instance (a : List Nat) : Decidable (Bytes a) := by
  unfold Bytes
  infer_instance

/-- Modelled from the spec: the package-level seed tables `p`, `s0`, `s1`,
`s2`, `s3` are declared in a file that is not among the sources; the spec
describes them as immutable seed constants derived from fixed mathematical
constants, a subkey seed array of at least 18 entries and four substitution
tables of 256 words.  These are the published Blowfish constants, the
hexadecimal digits of the fractional part of pi: 18 subkey seeds followed by
the four substitution tables.  The general theorems take the tables as a
parameter; this instance serves where a concrete table is evaluated. -/
def blowfishTables : Tables :=
  { p := [
    0x243f6a88, 0x85a308d3, 0x13198a2e, 0x03707344, 0xa4093822, 0x299f31d0,
    0x082efa98, 0xec4e6c89, 0x452821e6, 0x38d01377, 0xbe5466cf, 0x34e90c6c,
    0xc0ac29b7, 0xc97c50dd, 0x3f84d5b5, 0xb5470917, 0x9216d5d9, 0x8979fb1b]
    s0 := [
    0xd1310ba6, 0x98dfb5ac, 0x2ffd72db, 0xd01adfb7, 0xb8e1afed, 0x6a267e96,
    0xba7c9045, 0xf12c7f99, 0x24a19947, 0xb3916cf7, 0x0801f2e2, 0x858efc16,
    0x636920d8, 0x71574e69, 0xa458fea3, 0xf4933d7e, 0x0d95748f, 0x728eb658,
    0x718bcd58, 0x82154aee, 0x7b54a41d, 0xc25a59b5, 0x9c30d539, 0x2af26013,
    0xc5d1b023, 0x286085f0, 0xca417918, 0xb8db38ef, 0x8e79dcb0, 0x603a180e,
    0x6c9e0e8b, 0xb01e8a3e, 0xd71577c1, 0xbd314b27, 0x78af2fda, 0x55605c60,
    0xe65525f3, 0xaa55ab94, 0x57489862, 0x63e81440, 0x55ca396a, 0x2aab10b6,
    0xb4cc5c34, 0x1141e8ce, 0xa15486af, 0x7c72e993, 0xb3ee1411, 0x636fbc2a,
    0x2ba9c55d, 0x741831f6, 0xce5c3e16, 0x9b87931e, 0xafd6ba33, 0x6c24cf5c,
    0x7a325381, 0x28958677, 0x3b8f4898, 0x6b4bb9af, 0xc4bfe81b, 0x66282193,
    0x61d809cc, 0xfb21a991, 0x487cac60, 0x5dec8032, 0xef845d5d, 0xe98575b1,
    0xdc262302, 0xeb651b88, 0x23893e81, 0xd396acc5, 0x0f6d6ff3, 0x83f44239,
    0x2e0b4482, 0xa4842004, 0x69c8f04a, 0x9e1f9b5e, 0x21c66842, 0xf6e96c9a,
    0x670c9c61, 0xabd388f0, 0x6a51a0d2, 0xd8542f68, 0x960fa728, 0xab5133a3,
    0x6eef0b6c, 0x137a3be4, 0xba3bf050, 0x7efb2a98, 0xa1f1651d, 0x39af0176,
    0x66ca593e, 0x82430e88, 0x8cee8619, 0x456f9fb4, 0x7d84a5c3, 0x3b8b5ebe,
    0xe06f75d8, 0x85c12073, 0x401a449f, 0x56c16aa6, 0x4ed3aa62, 0x363f7706,
    0x1bfedf72, 0x429b023d, 0x37d0d724, 0xd00a1248, 0xdb0fead3, 0x49f1c09b,
    0x075372c9, 0x80991b7b, 0x25d479d8, 0xf6e8def7, 0xe3fe501a, 0xb6794c3b,
    0x976ce0bd, 0x04c006ba, 0xc1a94fb6, 0x409f60c4, 0x5e5c9ec2, 0x196a2463,
    0x68fb6faf, 0x3e6c53b5, 0x1339b2eb, 0x3b52ec6f, 0x6dfc511f, 0x9b30952c,
    0xcc814544, 0xaf5ebd09, 0xbee3d004, 0xde334afd, 0x660f2807, 0x192e4bb3,
    0xc0cba857, 0x45c8740f, 0xd20b5f39, 0xb9d3fbdb, 0x5579c0bd, 0x1a60320a,
    0xd6a100c6, 0x402c7279, 0x679f25fe, 0xfb1fa3cc, 0x8ea5e9f8, 0xdb3222f8,
    0x3c7516df, 0xfd616b15, 0x2f501ec8, 0xad0552ab, 0x323db5fa, 0xfd238760,
    0x53317b48, 0x3e00df82, 0x9e5c57bb, 0xca6f8ca0, 0x1a87562e, 0xdf1769db,
    0xd542a8f6, 0x287effc3, 0xac6732c6, 0x8c4f5573, 0x695b27b0, 0xbbca58c8,
    0xe1ffa35d, 0xb8f011a0, 0x10fa3d98, 0xfd2183b8, 0x4afcb56c, 0x2dd1d35b,
    0x9a53e479, 0xb6f84565, 0xd28e49bc, 0x4bfb9790, 0xe1ddf2da, 0xa4cb7e33,
    0x62fb1341, 0xcee4c6e8, 0xef20cada, 0x36774c01, 0xd07e9efe, 0x2bf11fb4,
    0x95dbda4d, 0xae909198, 0xeaad8e71, 0x6b93d5a0, 0xd08ed1d0, 0xafc725e0,
    0x8e3c5b2f, 0x8e7594b7, 0x8ff6e2fb, 0xf2122b64, 0x8888b812, 0x900df01c,
    0x4fad5ea0, 0x688fc31c, 0xd1cff191, 0xb3a8c1ad, 0x2f2f2218, 0xbe0e1777,
    0xea752dfe, 0x8b021fa1, 0xe5a0cc0f, 0xb56f74e8, 0x18acf3d6, 0xce89e299,
    0xb4a84fe0, 0xfd13e0b7, 0x7cc43b81, 0xd2ada8d9, 0x165fa266, 0x80957705,
    0x93cc7314, 0x211a1477, 0xe6ad2065, 0x77b5fa86, 0xc75442f5, 0xfb9d35cf,
    0xebcdaf0c, 0x7b3e89a0, 0xd6411bd3, 0xae1e7e49, 0x00250e2d, 0x2071b35e,
    0x226800bb, 0x57b8e0af, 0x2464369b, 0xf009b91e, 0x5563911d, 0x59dfa6aa,
    0x78c14389, 0xd95a537f, 0x207d5ba2, 0x02e5b9c5, 0x83260376, 0x6295cfa9,
    0x11c81968, 0x4e734a41, 0xb3472dca, 0x7b14a94a, 0x1b510052, 0x9a532915,
    0xd60f573f, 0xbc9bc6e4, 0x2b60a476, 0x81e67400, 0x08ba6fb5, 0x571be91f,
    0xf296ec6b, 0x2a0dd915, 0xb6636521, 0xe7b9f9b6, 0xff34052e, 0xc5855664,
    0x53b02d5d, 0xa99f8fa1, 0x08ba4799, 0x6e85076a]
    s1 := [
    0x4b7a70e9, 0xb5b32944, 0xdb75092e, 0xc4192623, 0xad6ea6b0, 0x49a7df7d,
    0x9cee60b8, 0x8fedb266, 0xecaa8c71, 0x699a17ff, 0x5664526c, 0xc2b19ee1,
    0x193602a5, 0x75094c29, 0xa0591340, 0xe4183a3e, 0x3f54989a, 0x5b429d65,
    0x6b8fe4d6, 0x99f73fd6, 0xa1d29c07, 0xefe830f5, 0x4d2d38e6, 0xf0255dc1,
    0x4cdd2086, 0x8470eb26, 0x6382e9c6, 0x021ecc5e, 0x09686b3f, 0x3ebaefc9,
    0x3c971814, 0x6b6a70a1, 0x687f3584, 0x52a0e286, 0xb79c5305, 0xaa500737,
    0x3e07841c, 0x7fdeae5c, 0x8e7d44ec, 0x5716f2b8, 0xb03ada37, 0xf0500c0d,
    0xf01c1f04, 0x0200b3ff, 0xae0cf51a, 0x3cb574b2, 0x25837a58, 0xdc0921bd,
    0xd19113f9, 0x7ca92ff6, 0x94324773, 0x22f54701, 0x3ae5e581, 0x37c2dadc,
    0xc8b57634, 0x9af3dda7, 0xa9446146, 0x0fd0030e, 0xecc8c73e, 0xa4751e41,
    0xe238cd99, 0x3bea0e2f, 0x3280bba1, 0x183eb331, 0x4e548b38, 0x4f6db908,
    0x6f420d03, 0xf60a04bf, 0x2cb81290, 0x24977c79, 0x5679b072, 0xbcaf89af,
    0xde9a771f, 0xd9930810, 0xb38bae12, 0xdccf3f2e, 0x5512721f, 0x2e6b7124,
    0x501adde6, 0x9f84cd87, 0x7a584718, 0x7408da17, 0xbc9f9abc, 0xe94b7d8c,
    0xec7aec3a, 0xdb851dfa, 0x63094366, 0xc464c3d2, 0xef1c1847, 0x3215d908,
    0xdd433b37, 0x24c2ba16, 0x12a14d43, 0x2a65c451, 0x50940002, 0x133ae4dd,
    0x71dff89e, 0x10314e55, 0x81ac77d6, 0x5f11199b, 0x043556f1, 0xd7a3c76b,
    0x3c11183b, 0x5924a509, 0xf28fe6ed, 0x97f1fbfa, 0x9ebabf2c, 0x1e153c6e,
    0x86e34570, 0xeae96fb1, 0x860e5e0a, 0x5a3e2ab3, 0x771fe71c, 0x4e3d06fa,
    0x2965dcb9, 0x99e71d0f, 0x803e89d6, 0x5266c825, 0x2e4cc978, 0x9c10b36a,
    0xc6150eba, 0x94e2ea78, 0xa5fc3c53, 0x1e0a2df4, 0xf2f74ea7, 0x361d2b3d,
    0x1939260f, 0x19c27960, 0x5223a708, 0xf71312b6, 0xebadfe6e, 0xeac31f66,
    0xe3bc4595, 0xa67bc883, 0xb17f37d1, 0x018cff28, 0xc332ddef, 0xbe6c5aa5,
    0x65582185, 0x68ab9802, 0xeecea50f, 0xdb2f953b, 0x2aef7dad, 0x5b6e2f84,
    0x1521b628, 0x29076170, 0xecdd4775, 0x619f1510, 0x13cca830, 0xeb61bd96,
    0x0334fe1e, 0xaa0363cf, 0xb5735c90, 0x4c70a239, 0xd59e9e0b, 0xcbaade14,
    0xeecc86bc, 0x60622ca7, 0x9cab5cab, 0xb2f3846e, 0x648b1eaf, 0x19bdf0ca,
    0xa02369b9, 0x655abb50, 0x40685a32, 0x3c2ab4b3, 0x319ee9d5, 0xc021b8f7,
    0x9b540b19, 0x875fa099, 0x95f7997e, 0x623d7da8, 0xf837889a, 0x97e32d77,
    0x11ed935f, 0x16681281, 0x0e358829, 0xc7e61fd6, 0x96dedfa1, 0x7858ba99,
    0x57f584a5, 0x1b227263, 0x9b83c3ff, 0x1ac24696, 0xcdb30aeb, 0x532e3054,
    0x8fd948e4, 0x6dbc3128, 0x58ebf2ef, 0x34c6ffea, 0xfe28ed61, 0xee7c3c73,
    0x5d4a14d9, 0xe864b7e3, 0x42105d14, 0x203e13e0, 0x45eee2b6, 0xa3aaabea,
    0xdb6c4f15, 0xfacb4fd0, 0xc742f442, 0xef6abbb5, 0x654f3b1d, 0x41cd2105,
    0xd81e799e, 0x86854dc7, 0xe44b476a, 0x3d816250, 0xcf62a1f2, 0x5b8d2646,
    0xfc8883a0, 0xc1c7b6a3, 0x7f1524c3, 0x69cb7492, 0x47848a0b, 0x5692b285,
    0x095bbf00, 0xad19489d, 0x1462b174, 0x23820e00, 0x58428d2a, 0x0c55f5ea,
    0x1dadf43e, 0x233f7061, 0x3372f092, 0x8d937e41, 0xd65fecf1, 0x6c223bdb,
    0x7cde3759, 0xcbee7460, 0x4085f2a7, 0xce77326e, 0xa6078084, 0x19f8509e,
    0xe8efd855, 0x61d99735, 0xa969a7aa, 0xc50c06c2, 0x5a04abfc, 0x800bcadc,
    0x9e447a2e, 0xc3453484, 0xfdd56705, 0x0e1e9ec9, 0xdb73dbd3, 0x105588cd,
    0x675fda79, 0xe3674340, 0xc5c43465, 0x713e38d8, 0x3d28f89e, 0xf16dff20,
    0x153e21e7, 0x8fb03d4a, 0xe6e39f2b, 0xdb83adf7]
    s2 := [
    0xe93d5a68, 0x948140f7, 0xf64c261c, 0x94692934, 0x411520f7, 0x7602d4f7,
    0xbcf46b2e, 0xd4a20068, 0xd4082471, 0x3320f46a, 0x43b7d4b7, 0x500061af,
    0x1e39f62e, 0x97244546, 0x14214f74, 0xbf8b8840, 0x4d95fc1d, 0x96b591af,
    0x70f4ddd3, 0x66a02f45, 0xbfbc09ec, 0x03bd9785, 0x7fac6dd0, 0x31cb8504,
    0x96eb27b3, 0x55fd3941, 0xda2547e6, 0xabca0a9a, 0x28507825, 0x530429f4,
    0x0a2c86da, 0xe9b66dfb, 0x68dc1462, 0xd7486900, 0x680ec0a4, 0x27a18dee,
    0x4f3ffea2, 0xe887ad8c, 0xb58ce006, 0x7af4d6b6, 0xaace1e7c, 0xd3375fec,
    0xce78a399, 0x406b2a42, 0x20fe9e35, 0xd9f385b9, 0xee39d7ab, 0x3b124e8b,
    0x1dc9faf7, 0x4b6d1856, 0x26a36631, 0xeae397b2, 0x3a6efa74, 0xdd5b4332,
    0x6841e7f7, 0xca7820fb, 0xfb0af54e, 0xd8feb397, 0x454056ac, 0xba489527,
    0x55533a3a, 0x20838d87, 0xfe6ba9b7, 0xd096954b, 0x55a867bc, 0xa1159a58,
    0xcca92963, 0x99e1db33, 0xa62a4a56, 0x3f3125f9, 0x5ef47e1c, 0x9029317c,
    0xfdf8e802, 0x04272f70, 0x80bb155c, 0x05282ce3, 0x95c11548, 0xe4c66d22,
    0x48c1133f, 0xc70f86dc, 0x07f9c9ee, 0x41041f0f, 0x404779a4, 0x5d886e17,
    0x325f51eb, 0xd59bc0d1, 0xf2bcc18f, 0x41113564, 0x257b7834, 0x602a9c60,
    0xdff8e8a3, 0x1f636c1b, 0x0e12b4c2, 0x02e1329e, 0xaf664fd1, 0xcad18115,
    0x6b2395e0, 0x333e92e1, 0x3b240b62, 0xeebeb922, 0x85b2a20e, 0xe6ba0d99,
    0xde720c8c, 0x2da2f728, 0xd0127845, 0x95b794fd, 0x647d0862, 0xe7ccf5f0,
    0x5449a36f, 0x877d48fa, 0xc39dfd27, 0xf33e8d1e, 0x0a476341, 0x992eff74,
    0x3a6f6eab, 0xf4f8fd37, 0xa812dc60, 0xa1ebddf8, 0x991be14c, 0xdb6e6b0d,
    0xc67b5510, 0x6d672c37, 0x2765d43b, 0xdcd0e804, 0xf1290dc7, 0xcc00ffa3,
    0xb5390f92, 0x690fed0b, 0x667b9ffb, 0xcedb7d9c, 0xa091cf0b, 0xd9155ea3,
    0xbb132f88, 0x515bad24, 0x7b9479bf, 0x763bd6eb, 0x37392eb3, 0xcc115979,
    0x8026e297, 0xf42e312d, 0x6842ada7, 0xc66a2b3b, 0x12754ccc, 0x782ef11c,
    0x6a124237, 0xb79251e7, 0x06a1bbe6, 0x4bfb6350, 0x1a6b1018, 0x11caedfa,
    0x3d25bdd8, 0xe2e1c3c9, 0x44421659, 0x0a121386, 0xd90cec6e, 0xd5abea2a,
    0x64af674e, 0xda86a85f, 0xbebfe988, 0x64e4c3fe, 0x9dbc8057, 0xf0f7c086,
    0x60787bf8, 0x6003604d, 0xd1fd8346, 0xf6381fb0, 0x7745ae04, 0xd736fccc,
    0x83426b33, 0xf01eab71, 0xb0804187, 0x3c005e5f, 0x77a057be, 0xbde8ae24,
    0x55464299, 0xbf582e61, 0x4e58f48f, 0xf2ddfda2, 0xf474ef38, 0x8789bdc2,
    0x5366f9c3, 0xc8b38e74, 0xb475f255, 0x46fcd9b9, 0x7aeb2661, 0x8b1ddf84,
    0x846a0e79, 0x915f95e2, 0x466e598e, 0x20b45770, 0x8cd55591, 0xc902de4c,
    0xb90bace1, 0xbb8205d0, 0x11a86248, 0x7574a99e, 0xb77f19b6, 0xe0a9dc09,
    0x662d09a1, 0xc4324633, 0xe85a1f02, 0x09f0be8c, 0x4a99a025, 0x1d6efe10,
    0x1ab93d1d, 0x0ba5a4df, 0xa186f20f, 0x2868f169, 0xdcb7da83, 0x573906fe,
    0xa1e2ce9b, 0x4fcd7f52, 0x50115e01, 0xa70683fa, 0xa002b5c4, 0x0de6d027,
    0x9af88c27, 0x773f8641, 0xc3604c06, 0x61a806b5, 0xf0177a28, 0xc0f586e0,
    0x006058aa, 0x30dc7d62, 0x11e69ed7, 0x2338ea63, 0x53c2dd94, 0xc2c21634,
    0xbbcbee56, 0x90bcb6de, 0xebfc7da1, 0xce591d76, 0x6f05e409, 0x4b7c0188,
    0x39720a3d, 0x7c927c24, 0x86e3725f, 0x724d9db9, 0x1ac15bb4, 0xd39eb8fc,
    0xed545578, 0x08fca5b5, 0xd83d7cd3, 0x4dad0fc4, 0x1e50ef5e, 0xb161e6f8,
    0xa28514d9, 0x6c51133c, 0x6fd5c7e7, 0x56e14ec4, 0x362abfce, 0xddc6c837,
    0xd79a3234, 0x92638212, 0x670efa8e, 0x406000e0]
    s3 := [
    0x3a39ce37, 0xd3faf5cf, 0xabc27737, 0x5ac52d1b, 0x5cb0679e, 0x4fa33742,
    0xd3822740, 0x99bc9bbe, 0xd5118e9d, 0xbf0f7315, 0xd62d1c7e, 0xc700c47b,
    0xb78c1b6b, 0x21a19045, 0xb26eb1be, 0x6a366eb4, 0x5748ab2f, 0xbc946e79,
    0xc6a376d2, 0x6549c2c8, 0x530ff8ee, 0x468dde7d, 0xd5730a1d, 0x4cd04dc6,
    0x2939bbdb, 0xa9ba4650, 0xac9526e8, 0xbe5ee304, 0xa1fad5f0, 0x6a2d519a,
    0x63ef8ce2, 0x9a86ee22, 0xc089c2b8, 0x43242ef6, 0xa51e03aa, 0x9cf2d0a4,
    0x83c061ba, 0x9be96a4d, 0x8fe51550, 0xba645bd6, 0x2826a2f9, 0xa73a3ae1,
    0x4ba99586, 0xef5562e9, 0xc72fefd3, 0xf752f7da, 0x3f046f69, 0x77fa0a59,
    0x80e4a915, 0x87b08601, 0x9b09e6ad, 0x3b3ee593, 0xe990fd5a, 0x9e34d797,
    0x2cf0b7d9, 0x022b8b51, 0x96d5ac3a, 0x017da67d, 0xd1cf3ed6, 0x7c7d2d28,
    0x1f9f25cf, 0xadf2b89b, 0x5ad6b472, 0x5a88f54c, 0xe029ac71, 0xe019a5e6,
    0x47b0acfd, 0xed93fa9b, 0xe8d3c48d, 0x283b57cc, 0xf8d56629, 0x79132e28,
    0x785f0191, 0xed756055, 0xf7960e44, 0xe3d35e8c, 0x15056dd4, 0x88f46dba,
    0x03a16125, 0x0564f0bd, 0xc3eb9e15, 0x3c9057a2, 0x97271aec, 0xa93a072a,
    0x1b3f6d9b, 0x1e6321f5, 0xf59c66fb, 0x26dcf319, 0x7533d928, 0xb155fdf5,
    0x03563482, 0x8aba3cbb, 0x28517711, 0xc20ad9f8, 0xabcc5167, 0xccad925f,
    0x4de81751, 0x3830dc8e, 0x379d5862, 0x9320f991, 0xea7a90c2, 0xfb3e7bce,
    0x5121ce64, 0x774fbe32, 0xa8b6e37e, 0xc3293d46, 0x48de5369, 0x6413e680,
    0xa2ae0810, 0xdd6db224, 0x69852dfd, 0x09072166, 0xb39a460a, 0x6445c0dd,
    0x586cdecf, 0x1c20c8ae, 0x5bbef7dd, 0x1b588d40, 0xccd2017f, 0x6bb4e3bb,
    0xdda26a7e, 0x3a59ff45, 0x3e350a44, 0xbcb4cdd5, 0x72eacea8, 0xfa6484bb,
    0x8d6612ae, 0xbf3c6f47, 0xd29be463, 0x542f5d9e, 0xaec2771b, 0xf64e6370,
    0x740e0d8d, 0xe75b1357, 0xf8721671, 0xaf537d5d, 0x4040cb08, 0x4eb4e2cc,
    0x34d2466a, 0x0115af84, 0xe1b00428, 0x95983a1d, 0x06b89fb4, 0xce6ea048,
    0x6f3f3b82, 0x3520ab82, 0x011a1d4b, 0x277227f8, 0x611560b1, 0xe7933fdc,
    0xbb3a792b, 0x344525bd, 0xa08839e1, 0x51ce794b, 0x2f32c9b7, 0xa01fbac9,
    0xe01cc87e, 0xbcc7d1f6, 0xcf0111c3, 0xa1e8aac7, 0x1a908749, 0xd44fbd9a,
    0xd0dadecb, 0xd50ada38, 0x0339c32a, 0xc6913667, 0x8df9317c, 0xe0b12b4f,
    0xf79e59b7, 0x43f5bb3a, 0xf2d519ff, 0x27d9459c, 0xbf97222c, 0x15e6fc2a,
    0x0f91fc71, 0x9b941525, 0xfae59361, 0xceb69ceb, 0xc2a86459, 0x12baa8d1,
    0xb6c1075e, 0xe3056a0c, 0x10d25065, 0xcb03a442, 0xe0ec6e0e, 0x1698db3b,
    0x4c98a0be, 0x3278e964, 0x9f1f9532, 0xe0d392df, 0xd3a0342b, 0x8971f21e,
    0x1b0a7441, 0x4ba3348c, 0xc5be7120, 0xc37632d8, 0xdf359f8d, 0x9b992f2e,
    0xe60b6f47, 0x0fe3f11d, 0xe54cda54, 0x1edad891, 0xce6279cf, 0xcd3e7e6f,
    0x1618b166, 0xfd2c1d05, 0x848fd2c5, 0xf6fb2299, 0xf523f357, 0xa6327623,
    0x93a83531, 0x56cccd02, 0xacf08162, 0x5a75ebb5, 0x6e163697, 0x88d273cc,
    0xde966292, 0x81b949d0, 0x4c50901b, 0x71c65614, 0xe6c6c7bd, 0x327a140a,
    0x45e1d006, 0xc3f27b9a, 0xc9aa53fd, 0x62a80f00, 0xbb25bfe2, 0x35bdd2f6,
    0x71126905, 0xb2040222, 0xb6cbcf7c, 0xcd769c2b, 0x53113ec0, 0x1640e3d3,
    0x38abbd60, 0x2547adf0, 0xba38209c, 0xf746ce76, 0x77afa1c5, 0x20756060,
    0x85cbfe4e, 0x8ae88dd8, 0x7aaaf9b0, 0x4cf9aa7e, 0x1948c25c, 0x02fb8a8c,
    0x01c36ae4, 0xd6ebe1f9, 0x90d4f869, 0xa65cdea0, 0x3f09252d, 0xc208e69f,
    0xb74e6132, 0xce77e25b, 0x578fdfe3, 0x3ac372e6]
  }

/-! ## Blocks of a buffer -/

/-- The 8-byte block `a[o : o+8]` of a buffer. -/
def block (a : List Nat) (o : Nat) : List Nat := (a.drop o).take 8

/-- The bytewise XOR of two blocks. -/
def xorBytes (a b : List Nat) : List Nat := List.zipWith (· ^^^ ·) a b

/-- The bytes that `EncryptBlock` writes for the source block `blk`, when no
access fails. -/
def encBytes (T : Tables) (c : Cipher) (blk : List Nat) : List Nat :=
  match pack blk with
  | some (l, r) => unpack (encryptVal T l r c).1 (encryptVal T l r c).2
  | none => []

/-- The bytes that `DecryptBlock` writes for the source block `blk`, when no
access fails. -/
def decBytes (c : Cipher) (blk : List Nat) : List Nat :=
  match pack blk with
  | some (l, r) => unpack (decryptVal l r c).1 (decryptVal l r c).2
  | none => []

/-- Two cipher states with the same key material: the same subkeys,
substitution tables and round count (the IV field may differ). -/
def SameKey (c1 c : Cipher) : Prop :=
  c1.p = c.p ∧ c1.s0 = c.s0 ∧ c1.s1 = c.s1 ∧ c1.s2 = c.s2 ∧ c1.s3 = c.s3 ∧ c1.round = c.round

/-- On pairs of `uint32` words, `encryptBlock` under the cipher `c` is a
bijection: it returns a word pair for every word pair, sends distinct pairs to
distinct results, and every word pair is the result for some word pair. -/
def BijectiveOnWords (T : Tables) (c : Cipher) : Prop :=
  (∀ l r, l < 2 ^ 32 → r < 2 ^ 32 →
    ∃ a b, a < 2 ^ 32 ∧ b < 2 ^ 32 ∧ encryptBlock T l r c = some (a, b)) ∧
  (∀ l r l1 r1, encryptBlock T l r c = encryptBlock T l1 r1 c → l = l1 ∧ r = r1) ∧
  (∀ a b, a < 2 ^ 32 → b < 2 ^ 32 →
    ∃ l r, l < 2 ^ 32 ∧ r < 2 ^ 32 ∧ encryptBlock T l r c = some (a, b))

/-! ## Evaluating the subkey phase of the key schedule

The functions of this section compute the same values as the embedding above;
they are written so that the kernel evaluates them quickly on concrete
tables: the table lookup is written with the recursors, and every
intermediate word is evaluated before it is used. -/

/-- The entry `a[i]`, or 0 past the end of the list. -/
def lookup (a : List Nat) : Nat → Nat :=
  List.rec (fun _ => 0) (fun h _ ih n => Nat.casesOn n h (fun m => ih m)) a

/-- The continuation `k` applied to `n`, after `n` has been evaluated. -/
def force {α : Type} (n : Nat) (k : Nat → α) : α :=
  Nat.casesOn n (k 0) (fun m => k (m + 1))

/-- The value of `round(a, b, n, c)`, as `roundVal`. -/
def roundFast (a b n : Nat) (c : Cipher) : Nat :=
  ((((((lookup c.s0 (byte (b >>> 24)) + lookup c.s1 (byte (b >>> 16))) % 2 ^ 32) ^^^
    lookup c.s2 (byte (b >>> 8))) + lookup c.s3 (byte b)) % 2 ^ 32) ^^^ lookup c.p n) ^^^ a

/-- The state after `k` iterations of the loop of `encryptBlock`, as
`encIter`. -/
def encIterFast (c : Cipher) : Nat → Nat → Nat → Nat → Nat × Nat
  | 0, _, xl, xr => (xl, xr)
  | k + 1, i, xl, xr =>
    force (roundFast xr xl (i + 1) c) fun xr1 =>
    force (roundFast xl xr1 (i + 2) c) fun xl1 =>
    encIterFast c k (i + 2) xl1 xr1

/-- The value of `encryptBlock(l, r, c)`, as `encryptVal`. -/
def encryptFast (T : Tables) (l r : Nat) (c : Cipher) : Nat × Nat :=
  force (l ^^^ lookup c.p 0) fun xl =>
    ((encIterFast c ((c.round + 1) / 2) 0 xl r).2 ^^^ lookup T.p (c.round + 1),
      (encIterFast c ((c.round + 1) / 2) 0 xl r).1)

/-- The cipher after `k` iterations of the subkey filling loop of `ExpandKey`,
as `fillLoop` on the array `c.p`. -/
def fillSubkeysFast (T : Tables) : Nat → Nat → Nat → Nat → Cipher → Cipher
  | 0, _, _, _, c => c
  | k + 1, i, l, r, c =>
    force (encryptFast T l r c).1 fun l1 =>
    force (encryptFast T l r c).2 fun r1 =>
    fillSubkeysFast T k (i + 2) l1 r1 { c with p := (c.p.set i l1).set (i + 1) r1 }

/-- The cipher after `k` iterations of the subkey filling loop of
`expandKeyWithSalt`, as `saltedFillLoop` on the array `c.p`; the cipher is
returned unchanged where `getNextWord` fails. -/
def saltedFillSubkeysFast (T : Tables) (salt : List Nat) :
    Nat → Nat → Nat → Nat → Nat → Cipher → Cipher
  | 0, _, _, _, _, c => c
  | k + 1, i, j, l, r, c =>
    match getNextWord salt j with
    | none => c
    | some (w1, j1) =>
      match getNextWord salt j1 with
      | none => c
      | some (w2, j2) =>
        force (encryptFast T (l ^^^ w1) (r ^^^ w2) c).1 fun l1 =>
        force (encryptFast T (l ^^^ w1) (r ^^^ w2) c).2 fun r1 =>
        saltedFillSubkeysFast T salt k (i + 2) j2 l1 r1
          { c with p := (c.p.set i l1).set (i + 1) r1 }

/-! ## Reference computations written from the specification -/

/-- The rounds of the encrypt transform as the specification words them: in
round `n` the active word `a` becomes `F(b) ^ subkey[n] ^ a`, where `b` is the
other word, and the two words exchange roles for the next round.  The state
is `(active, other)`; `k` rounds are left. -/
def referenceRounds (c : Cipher) : Nat → Nat → Nat × Nat → Nat × Nat
  | 0, _, s => s
  | k + 1, n, (a, b) => referenceRounds c k (n + 1) (b, roundVal a b n c)

/-- The encrypt transform as the specification words it: XOR the left word
with the instance subkey `c.p[0]`, run `round` rounds with the instance
subkeys `c.p[1] .. c.p[round]` in forward order, the right word being active
first, XOR the final right word with the instance subkey `c.p[round+1]`, and
return the two words swapped. -/
def encryptReference (l r : Nat) (c : Cipher) : Nat × Nat :=
  ((referenceRounds c c.round 1 (r, l ^^^ c.p.getD 0 0)).1 ^^^ c.p.getD (c.round + 1) 0,
    (referenceRounds c c.round 1 (r, l ^^^ c.p.getD 0 0)).2)

/-! ## Basic facts -/

theorem getElem?_eq_some_getD {a : List Nat} {i : Nat} (h : i < a.length) :
    a[i]? = some (a.getD i 0) := by
  simp [List.getD_eq_getElem?_getD, List.getElem?_eq_getElem h]

theorem byte_lt (x : Nat) : byte x < 256 := Nat.mod_lt _ (by norm_num)

theorem Words.getD_lt {a : List Nat} (h : Words a) (i : Nat) : a.getD i 0 < 2 ^ 32 := by
  rw [List.getD_eq_getElem?_getD]
  cases hi : a[i]? with
  | none => simp
  | some x => exact h x (List.getElem?_mem hi)

theorem Words.set {a : List Nat} (h : Words a) (i v : Nat) (hv : v < 2 ^ 32) :
    Words (a.set i v) := by
  intro x hx
  rcases List.mem_or_eq_of_mem_set hx with h1 | h1
  · exact h x h1
  · exact h1 ▸ hv

theorem feistel_lt (c : Cipher) (b : Nat) : feistel c b < 2 ^ 32 :=
  Nat.mod_lt _ (by norm_num)

theorem roundVal_lt {c : Cipher} (hc : c.WF) {a : Nat} (ha : a < 2 ^ 32) (b n : Nat) :
    roundVal a b n c < 2 ^ 32 :=
  Nat.xor_lt_two_pow (Nat.xor_lt_two_pow (feistel_lt c b) (hc.p_words.getD_lt n)) ha

theorem round_eq_some {c : Cipher} (hc : c.WF) (a b : Nat) {n : Nat} (hn : n < 268) :
    round a b n c = some (roundVal a b n c) := by
  have h0 : byte (b >>> 24) < c.s0.length := hc.s0_len ▸ byte_lt _
  have h1 : byte (b >>> 16) < c.s1.length := hc.s1_len ▸ byte_lt _
  have h2 : byte (b >>> 8) < c.s2.length := hc.s2_len ▸ byte_lt _
  have h3 : byte b < c.s3.length := hc.s3_len ▸ byte_lt _
  have h4 : n < c.p.length := hc.p_len ▸ hn
  simp only [round, getElem?_eq_some_getD h0, getElem?_eq_some_getD h1,
    getElem?_eq_some_getD h2, getElem?_eq_some_getD h3, getElem?_eq_some_getD h4]
  rfl

theorem encryptLoop_eq_some {c : Cipher} (hc : c.WF) (k i : Nat) (s : Nat × Nat)
    (h : i + 2 * k < 268) : encryptLoop c k i s = some (encIter c k i s) := by
  induction k generalizing i s with
  | zero => rfl
  | succ k ih =>
    obtain ⟨xl, xr⟩ := s
    simp only [encryptLoop, round_eq_some hc _ _ (show i + 1 < 268 by omega),
      round_eq_some hc _ _ (show i + 2 < 268 by omega)]
    rw [ih (i + 2) _ (by omega)]
    rfl

theorem decryptLoop_eq_some {c : Cipher} (hc : c.WF) (k i : Nat) (s : Nat × Nat)
    (h : i < 268) : decryptLoop c k i s = some (decIter c k i s) := by
  induction k generalizing i s with
  | zero => rfl
  | succ k ih =>
    obtain ⟨xl, xr⟩ := s
    simp only [decryptLoop, round_eq_some hc _ _ h,
      round_eq_some hc _ _ (show i - 1 < 268 by omega)]
    rw [ih (i - 2) _ (by omega)]
    rfl

theorem encryptBlock_eq_some {T : Tables} {c : Cipher} (hc : c.WF) (hr : RoundOk T c)
    (l r : Nat) : encryptBlock T l r c = some (encryptVal T l r c) := by
  obtain ⟨h1, h2⟩ := hr
  have hp0 : 0 < c.p.length := by rw [hc.p_len]; norm_num
  simp only [encryptBlock, getElem?_eq_some_getD hp0, getElem?_eq_some_getD h2,
    encryptLoop_eq_some hc _ 0 _ (show 0 + 2 * ((c.round + 1) / 2) < 268 by omega)]
  rfl

theorem decryptBlock_eq_some {c : Cipher} (hc : c.WF) (hr : c.round + 1 < 268)
    (l r : Nat) : decryptBlock l r c = some (decryptVal l r c) := by
  have hp0 : 0 < c.p.length := by rw [hc.p_len]; norm_num
  have hp1 : c.round + 1 < c.p.length := by rw [hc.p_len]; exact hr
  simp only [decryptBlock, getElem?_eq_some_getD hp0, getElem?_eq_some_getD hp1,
    decryptLoop_eq_some hc _ c.round _ (show c.round < 268 by omega)]
  rfl

/-! ## The Feistel rounds are invertible -/

theorem roundVal_roundVal (a b n : Nat) (c : Cipher) :
    roundVal (roundVal a b n c) b n c = a := by
  simp only [roundVal]
  exact Nat.xor_cancel_left _ _

theorem decStep_encStep (c : Cipher) (i : Nat) (s : Nat × Nat) :
    decStep c (i + 2) (encStep c i s).swap = s.swap := by
  obtain ⟨xl, xr⟩ := s
  have e : i + 2 - 1 = i + 1 := rfl
  simp only [decStep, encStep, Prod.swap, e, roundVal_roundVal]

theorem encStep_decStep (c : Cipher) (i : Nat) (t : Nat × Nat) :
    encStep c i (decStep c (i + 2) t).swap = t.swap := by
  obtain ⟨a, b⟩ := t
  have e : i + 2 - 1 = i + 1 := rfl
  simp only [decStep, encStep, Prod.swap, e, roundVal_roundVal]

theorem encIter_succ_last (c : Cipher) (k i : Nat) (s : Nat × Nat) :
    encIter c (k + 1) i s = encStep c (i + 2 * k) (encIter c k i s) := by
  induction k generalizing i s with
  | zero => rfl
  | succ k ih =>
    show encIter c (k + 1) (i + 2) (encStep c i s) = _
    rw [ih]
    have : i + 2 + 2 * k = i + 2 * (k + 1) := by omega
    rw [this]
    rfl

theorem decIter_encIter (c : Cipher) (k i : Nat) (s : Nat × Nat) :
    decIter c k (i + 2 * k) (encIter c k i s).swap = s.swap := by
  induction k generalizing s with
  | zero => rfl
  | succ k ih =>
    rw [encIter_succ_last]
    show decIter c k (i + 2 * (k + 1) - 2) (decStep c (i + 2 * (k + 1)) _) = _
    have h1 : i + 2 * (k + 1) = i + 2 * k + 2 := by omega
    rw [h1, decStep_encStep, Nat.add_sub_cancel]
    exact ih s

theorem encIter_decIter (c : Cipher) (k i : Nat) (t : Nat × Nat) :
    encIter c k i (decIter c k (i + 2 * k) t).swap = t.swap := by
  induction k generalizing t with
  | zero => rfl
  | succ k ih =>
    rw [encIter_succ_last]
    have h1 : i + 2 * (k + 1) = i + 2 * k + 2 := by omega
    show encStep c (i + 2 * k) (encIter c k i (decIter c k (i + 2 * (k + 1) - 2)
      (decStep c (i + 2 * (k + 1)) t)).swap) = _
    rw [h1, Nat.add_sub_cancel, ih, encStep_decStep]

theorem encIter_injective (c : Cipher) (k i : Nat) {s t : Nat × Nat}
    (h : encIter c k i s = encIter c k i t) : s = t := by
  have h1 := decIter_encIter c k i s
  rw [h, decIter_encIter] at h1
  exact Prod.swap_injective h1.symm

theorem WordPair.swap {s : Nat × Nat} (h : WordPair s) : WordPair s.swap := ⟨h.2, h.1⟩

theorem encStep_words {c : Cipher} (hc : c.WF) (i : Nat) {s : Nat × Nat} (h : WordPair s) :
    WordPair (encStep c i s) :=
  ⟨roundVal_lt hc h.1 _ _, roundVal_lt hc h.2 _ _⟩

theorem decStep_words {c : Cipher} (hc : c.WF) (i : Nat) {s : Nat × Nat} (h : WordPair s) :
    WordPair (decStep c i s) :=
  ⟨roundVal_lt hc h.1 _ _, roundVal_lt hc h.2 _ _⟩

theorem encIter_words {c : Cipher} (hc : c.WF) (k i : Nat) {s : Nat × Nat} (h : WordPair s) :
    WordPair (encIter c k i s) := by
  induction k generalizing i s with
  | zero => exact h
  | succ k ih => exact ih (i + 2) (encStep_words hc i h)

theorem decIter_words {c : Cipher} (hc : c.WF) (k i : Nat) {s : Nat × Nat} (h : WordPair s) :
    WordPair (decIter c k i s) := by
  induction k generalizing i s with
  | zero => exact h
  | succ k ih => exact ih (i - 2) (decStep_words hc i h)

theorem encryptVal_words {T : Tables} {c : Cipher} (hT : Words T.p) (hc : c.WF) {l r : Nat}
    (hl : l < 2 ^ 32) (hr : r < 2 ^ 32) : WordPair (encryptVal T l r c) := by
  have h := encIter_words hc ((c.round + 1) / 2) 0
    (s := (l ^^^ c.p.getD 0 0, r)) ⟨Nat.xor_lt_two_pow hl (hc.p_words.getD_lt 0), hr⟩
  exact ⟨Nat.xor_lt_two_pow h.2 (hT.getD_lt _), h.1⟩

theorem decryptVal_words {c : Cipher} (hc : c.WF) {l r : Nat}
    (hl : l < 2 ^ 32) (hr : r < 2 ^ 32) : WordPair (decryptVal l r c) := by
  have h := decIter_words hc ((c.round + 1) / 2) c.round
    (s := (l ^^^ c.p.getD (c.round + 1) 0, r))
    ⟨Nat.xor_lt_two_pow hl (hc.p_words.getD_lt _), hr⟩
  exact ⟨Nat.xor_lt_two_pow h.2 (hc.p_words.getD_lt 0), h.1⟩

theorem xor_left_cancel {a b k : Nat} (h : a ^^^ k = b ^^^ k) : a = b := by
  have := congrArg (· ^^^ k) h
  simpa [Nat.xor_cancel_right] using this

theorem encryptVal_injective (T : Tables) (c : Cipher) {l r l1 r1 : Nat}
    (h : encryptVal T l r c = encryptVal T l1 r1 c) : l = l1 ∧ r = r1 := by
  simp only [encryptVal, Prod.mk.injEq] at h
  obtain ⟨h2, h1⟩ := h
  have h3 := encIter_injective c _ _ (Prod.ext h1 (xor_left_cancel h2))
  simp only [Prod.mk.injEq] at h3
  exact ⟨xor_left_cancel h3.1, h3.2⟩

theorem encryptVal_encryptPre (T : Tables) (c : Cipher) (a b : Nat) :
    encryptVal T (encryptPre T a b c).1 (encryptPre T a b c).2 c = (a, b) := by
  have h := encIter_decIter c ((c.round + 1) / 2) 0 (a ^^^ T.p.getD (c.round + 1) 0, b)
  simp only [Prod.swap] at h
  simp only [encryptVal, encryptPre, Nat.xor_cancel_right, Prod.swap, h]

theorem encryptPre_words {T : Tables} {c : Cipher} (hT : Words T.p) (hc : c.WF) {a b : Nat}
    (ha : a < 2 ^ 32) (hb : b < 2 ^ 32) : WordPair (encryptPre T a b c) := by
  have h := decIter_words hc ((c.round + 1) / 2) (0 + 2 * ((c.round + 1) / 2))
    (s := (a ^^^ T.p.getD (c.round + 1) 0, b)) ⟨Nat.xor_lt_two_pow ha (hT.getD_lt _), hb⟩
  exact ⟨Nat.xor_lt_two_pow h.2 (hc.p_words.getD_lt 0), h.1⟩

/-! ## The key schedule returns and keeps the arrays well formed -/

theorem store_eq_some {a : List Nat} {i : Nat} (h : i < a.length) (v : Nat) :
    store a i v = some (a.set i v) := by
  simp [store, h]

theorem words_replicate_zero (n : Nat) : Words (List.replicate n 0) := by
  intro x hx
  rw [List.eq_of_mem_replicate hx]
  norm_num

theorem bytes_replicate_zero (n : Nat) : Bytes (List.replicate n 0) := by
  intro x hx
  rw [List.eq_of_mem_replicate hx]
  norm_num

theorem Words.copy {dst src : List Nat} (hd : Words dst) (hs : Words src) :
    Words (copy dst src) := by
  intro x hx
  rcases List.mem_append.mp hx with h | h
  · exact hs x (List.mem_of_mem_take h)
  · exact hd x (List.mem_of_mem_drop h)

theorem length_copy (dst src : List Nat) : (copy dst src).length = dst.length := by
  simp only [copy, List.length_append, List.length_take, List.length_drop]
  omega

theorem Cipher.zero_wf : Cipher.zero.WF where
  p_len := List.length_replicate _ _
  s0_len := List.length_replicate _ _
  s1_len := List.length_replicate _ _
  s2_len := List.length_replicate _ _
  s3_len := List.length_replicate _ _
  iv_len := List.length_replicate _ _
  p_words := words_replicate_zero _
  s0_words := words_replicate_zero _
  s1_words := words_replicate_zero _
  s2_words := words_replicate_zero _
  s3_words := words_replicate_zero _
  iv_bytes := bytes_replicate_zero _

theorem initCipher_wf {T : Tables} (hT : T.WF) {c : Cipher} (hc : c.WF) (round : Nat) :
    (initCipher T c round).WF where
  p_len := by simp [initCipher, length_copy, hc.p_len]
  s0_len := by simp [initCipher, length_copy, hc.s0_len]
  s1_len := by simp [initCipher, length_copy, hc.s1_len]
  s2_len := by simp [initCipher, length_copy, hc.s2_len]
  s3_len := by simp [initCipher, length_copy, hc.s3_len]
  iv_len := hc.iv_len
  p_words := hc.p_words.copy hT.p_words
  s0_words := hc.s0_words.copy hT.s0_words
  s1_words := hc.s1_words.copy hT.s1_words
  s2_words := hc.s2_words.copy hT.s2_words
  s3_words := hc.s3_words.copy hT.s3_words
  iv_bytes := hc.iv_bytes

theorem Cipher.WF.get_words {c : Cipher} (hc : c.WF) (f : Field) : Words (c.get f) := by
  cases f
  · exact hc.p_words
  · exact hc.s0_words
  · exact hc.s1_words
  · exact hc.s2_words
  · exact hc.s3_words

theorem Cipher.WF.put {c : Cipher} (hc : c.WF) (f : Field) {a : List Nat}
    (hl : a.length = (c.get f).length) (hw : Words a) : (c.put f a).WF := by
  cases f
  · exact { hc with p_len := hl.trans hc.p_len, p_words := hw }
  · exact { hc with s0_len := hl.trans hc.s0_len, s0_words := hw }
  · exact { hc with s1_len := hl.trans hc.s1_len, s1_words := hw }
  · exact { hc with s2_len := hl.trans hc.s2_len, s2_words := hw }
  · exact { hc with s3_len := hl.trans hc.s3_len, s3_words := hw }

theorem Cipher.round_put (c : Cipher) (f : Field) (a : List Nat) :
    (c.put f a).round = c.round := by
  cases f <;> rfl

theorem Cipher.IV_put (c : Cipher) (f : Field) (a : List Nat) :
    (c.put f a).IV = c.IV := by
  cases f <;> rfl

theorem Cipher.get_put_self (c : Cipher) (f : Field) (a : List Nat) :
    (c.put f a).get f = a := by
  cases f <;> rfl

theorem Cipher.get_put_of_ne (c : Cipher) {f g : Field} (h : g ≠ f) (a : List Nat) :
    (c.put f a).get g = c.get g := by
  cases f <;> cases g <;> first | rfl | exact absurd rfl h

theorem getNextWordLoop_spec {b : List Nat} (k w j : Nat) (hj : j < b.length) :
    ∃ w1 j1, getNextWordLoop b k w j = some (w1, j1) ∧ j1 < b.length ∧
      (Bytes b → w < 2 ^ 32 → w1 < 2 ^ 32) := by
  induction k generalizing w j with
  | zero => exact ⟨w, j, rfl, hj, fun _ h => h⟩
  | succ k ih =>
    have hj1 : (if j + 1 ≥ b.length then 0 else j + 1) < b.length := by
      split <;> omega
    obtain ⟨w1, j1, h1, h2, h3⟩ := ih (((w <<< 8) % 2 ^ 32) ||| b[j]) _ hj1
    refine ⟨w1, j1, ?_, h2, fun hb _ => h3 hb ?_⟩
    · simp only [getNextWordLoop, List.getElem?_eq_getElem hj]
      exact h1
    · have hx : b[j] < 2 ^ 32 :=
        lt_trans (hb _ (List.getElem_mem hj)) (by norm_num)
      exact Nat.or_lt_two_pow (Nat.mod_lt _ (by norm_num)) hx

theorem getNextWord_spec {b : List Nat} {j : Nat} (hj : j < b.length) :
    ∃ w1 j1, getNextWord b j = some (w1, j1) ∧ j1 < b.length ∧ (Bytes b → w1 < 2 ^ 32) := by
  obtain ⟨w1, j1, h1, h2, h3⟩ := getNextWordLoop_spec 4 0 j hj
  exact ⟨w1, j1, h1, h2, fun hb => h3 hb (by norm_num)⟩

theorem xorKeyLoop_spec {key : List Nat} (k i j : Nat) (a : List Nat) (hj : j < key.length)
    (hi : i + k ≤ a.length) :
    ∃ a1, xorKeyLoop key k i j a = some a1 ∧ a1.length = a.length ∧
      (Bytes key → Words a → Words a1) := by
  induction k generalizing i j a with
  | zero => exact ⟨a, rfl, rfl, fun _ h => h⟩
  | succ k ih =>
    obtain ⟨d, j1, h1, h2, h3⟩ := getNextWord_spec hj
    have hi1 : i < a.length := by omega
    obtain ⟨a1, h4, h5, h6⟩ := ih (i + 1) j1 (a.set i (a[i] ^^^ d)) h2
      (by rw [List.length_set]; omega)
    refine ⟨a1, ?_, by rw [h5, List.length_set], fun hb hw => h6 hb ?_⟩
    · simp only [xorKeyLoop, h1, List.getElem?_eq_getElem hi1]
      exact h4
    · exact hw.set _ _ (Nat.xor_lt_two_pow (hw _ (List.getElem_mem hi1)) (h3 hb))

theorem fillLoop_spec {T : Tables} (hT : Words T.p) (f : Field) (k i : Nat) (lr : Nat × Nat)
    {c : Cipher} (hc : c.WF) (hr : RoundOk T c) (hlr : WordPair lr)
    (hi : i + 2 * k ≤ (c.get f).length) :
    ∃ lr1 c1, fillLoop T f k i lr c = some (lr1, c1) ∧ WordPair lr1 ∧ FillPost f c c1 := by
  induction k generalizing i lr c with
  | zero => exact ⟨lr, c, rfl, hlr, ⟨hc, rfl, rfl, fun _ _ => rfl⟩⟩
  | succ k ih =>
    obtain ⟨l, r⟩ := lr
    have hw := encryptVal_words hT hc hlr.1 hlr.2
    have hl1 : (((c.get f).set i (encryptVal T l r c).1).set (i + 1)
        (encryptVal T l r c).2).length = (c.get f).length := by
      simp only [List.length_set]
    have hwf := hc.put f hl1 (((hc.get_words f).set _ _ hw.1).set _ _ hw.2)
    have hr1 : RoundOk T (c.put f (((c.get f).set i (encryptVal T l r c).1).set (i + 1)
        (encryptVal T l r c).2)) := by
      unfold RoundOk
      rw [Cipher.round_put]
      exact hr
    obtain ⟨lr1, c1, h1, h2, h3⟩ := ih (i + 2) (encryptVal T l r c) hwf hr1 hw
      (by rw [Cipher.get_put_self, hl1]; omega)
    refine ⟨lr1, c1, ?_, h2, ⟨h3.wf, ?_, ?_, ?_⟩⟩
    · simp only [fillLoop, encryptBlock_eq_some hc hr,
        store_eq_some (show i < (c.get f).length by omega),
        store_eq_some (show i + 1 < ((c.get f).set i (encryptVal T l r c).1).length by
          rw [List.length_set]; omega)]
      exact h1
    · rw [h3.round, Cipher.round_put]
    · rw [h3.iv, Cipher.IV_put]
    · intro g hg
      rw [h3.other g hg, Cipher.get_put_of_ne c hg]

theorem saltedFillLoop_spec {T : Tables} (hT : Words T.p) {salt : List Nat} (hs : Bytes salt)
    (f : Field) (k i j : Nat) (lr : Nat × Nat)
    {c : Cipher} (hc : c.WF) (hr : RoundOk T c) (hlr : WordPair lr) (hj : j < salt.length)
    (hi : i + 2 * k ≤ (c.get f).length) :
    ∃ j1 lr1 c1, saltedFillLoop T salt f k i j lr c = some ((j1, lr1), c1) ∧
      j1 < salt.length ∧ WordPair lr1 ∧ FillPost f c c1 := by
  induction k generalizing i j lr c with
  | zero =>
    obtain ⟨l, r⟩ := lr
    exact ⟨j, (l, r), c, rfl, hj, hlr, ⟨hc, rfl, rfl, fun _ _ => rfl⟩⟩
  | succ k ih =>
    obtain ⟨l, r⟩ := lr
    obtain ⟨w1, j1, g1, g2, g3⟩ := getNextWord_spec hj
    obtain ⟨w2, j2, g4, g5, g6⟩ := getNextWord_spec g2
    have hl : l ^^^ w1 < 2 ^ 32 := Nat.xor_lt_two_pow hlr.1 (g3 hs)
    have hr2 : r ^^^ w2 < 2 ^ 32 := Nat.xor_lt_two_pow hlr.2 (g6 hs)
    have hw := encryptVal_words hT hc hl hr2
    have hl1 : (((c.get f).set i (encryptVal T (l ^^^ w1) (r ^^^ w2) c).1).set (i + 1)
        (encryptVal T (l ^^^ w1) (r ^^^ w2) c).2).length = (c.get f).length := by
      simp only [List.length_set]
    have hwf := hc.put f hl1 (((hc.get_words f).set _ _ hw.1).set _ _ hw.2)
    have hr1 : RoundOk T (c.put f (((c.get f).set i
        (encryptVal T (l ^^^ w1) (r ^^^ w2) c).1).set (i + 1)
        (encryptVal T (l ^^^ w1) (r ^^^ w2) c).2)) := by
      unfold RoundOk
      rw [Cipher.round_put]
      exact hr
    obtain ⟨j3, lr1, c1, h1, h0, h2, h3⟩ := ih (i + 2) j2
      (encryptVal T (l ^^^ w1) (r ^^^ w2) c) hwf hr1 hw g5
      (by rw [Cipher.get_put_self, hl1]; omega)
    refine ⟨j3, lr1, c1, ?_, h0, h2, ⟨h3.wf, ?_, ?_, ?_⟩⟩
    · simp only [saltedFillLoop, g1, g4, encryptBlock_eq_some hc hr,
        store_eq_some (show i < (c.get f).length by omega),
        store_eq_some (show i + 1 < ((c.get f).set i
          (encryptVal T (l ^^^ w1) (r ^^^ w2) c).1).length by rw [List.length_set]; omega)]
      exact h1
    · rw [h3.round, Cipher.round_put]
    · rw [h3.iv, Cipher.IV_put]
    · intro g hg
      rw [h3.other g hg, Cipher.get_put_of_ne c hg]

theorem wordPair_zero : WordPair (0, 0) := ⟨by norm_num, by norm_num⟩

theorem Cipher.WF.with_p {c : Cipher} (hc : c.WF) {a : List Nat} (hl : a.length = c.p.length)
    (hw : Words a) : ({ c with p := a } : Cipher).WF :=
  hc.put .p hl hw

theorem roundOk_with_p {T : Tables} {c : Cipher} (h : RoundOk T c) (a : List Nat) :
    RoundOk T { c with p := a } := h

theorem ExpandKey_spec {T : Tables} (hT : Words T.p) {key : List Nat} (hk : key ≠ [])
    (hb : Bytes key) {c : Cipher} (hc : c.WF) (hr : RoundOk T c) :
    ∃ c1, ExpandKey T key c = some c1 ∧ c1.WF ∧ c1.round = c.round ∧ c1.IV = c.IV ∧
      ∃ a lr0 c0, xorKeyLoop key 18 0 0 c.p = some a ∧
        fillLoop T .p 9 0 (0, 0) { c with p := a } = some (lr0, c0) ∧ c1.p = c0.p := by
  have hk0 : 0 < key.length := List.length_pos.mpr hk
  obtain ⟨a, e1, e2, e3⟩ := xorKeyLoop_spec 18 0 0 c.p hk0 (by rw [hc.p_len]; norm_num)
  have hca := hc.with_p e2 (e3 hb hc.p_words)
  have hra : RoundOk T { c with p := a } := hr
  obtain ⟨lr0, c0, f0, w0, q0⟩ := fillLoop_spec hT .p 9 0 (0, 0) hca hra wordPair_zero
    (by show 0 + 2 * 9 ≤ a.length; rw [e2, hc.p_len]; norm_num)
  have hr0 : RoundOk T c0 := by unfold RoundOk; rw [q0.round]; exact hra
  obtain ⟨lr1, c1, f1, w1, q1⟩ := fillLoop_spec hT .s0 128 0 lr0 q0.wf hr0 w0
    (by show 0 + 2 * 128 ≤ c0.s0.length; rw [q0.wf.s0_len])
  have hr1 : RoundOk T c1 := by unfold RoundOk; rw [q1.round]; exact hr0
  obtain ⟨lr2, c2, f2, w2, q2⟩ := fillLoop_spec hT .s1 128 0 lr1 q1.wf hr1 w1
    (by show 0 + 2 * 128 ≤ c1.s1.length; rw [q1.wf.s1_len])
  have hr2 : RoundOk T c2 := by unfold RoundOk; rw [q2.round]; exact hr1
  obtain ⟨lr3, c3, f3, w3, q3⟩ := fillLoop_spec hT .s2 128 0 lr2 q2.wf hr2 w2
    (by show 0 + 2 * 128 ≤ c2.s2.length; rw [q2.wf.s2_len])
  have hr3 : RoundOk T c3 := by unfold RoundOk; rw [q3.round]; exact hr2
  obtain ⟨lr4, c4, f4, _, q4⟩ := fillLoop_spec hT .s3 128 0 lr3 q3.wf hr3 w3
    (by show 0 + 2 * 128 ≤ c3.s3.length; rw [q3.wf.s3_len])
  refine ⟨c4, ?_, q4.wf, ?_, ?_, a, lr0, c0, e1, f0, ?_⟩
  · simp only [ExpandKey, e1, f0, f1, f2, f3, f4]
  · rw [q4.round, q3.round, q2.round, q1.round, q0.round]
  · rw [q4.iv, q3.iv, q2.iv, q1.iv, q0.iv]
  · have h4 := q4.other .p (by decide)
    have h3 := q3.other .p (by decide)
    have h2 := q2.other .p (by decide)
    have h1 := q1.other .p (by decide)
    simp only [Cipher.get] at h1 h2 h3 h4
    rw [h4, h3, h2, h1]

theorem expandKeyWithSalt_spec {T : Tables} (hT : Words T.p) {key salt : List Nat}
    (hk : key ≠ []) (hb : Bytes key) (hs : salt ≠ []) (hsb : Bytes salt)
    {c : Cipher} (hc : c.WF) (hr : RoundOk T c) :
    ∃ c1, expandKeyWithSalt T key salt c = some c1 ∧ c1.WF ∧ c1.round = c.round ∧
      c1.IV = c.IV ∧
      ∃ a jlr0 c0, xorKeyLoop key 18 0 0 c.p = some a ∧
        saltedFillLoop T salt .p 9 0 0 (0, 0) { c with p := a } = some (jlr0, c0) ∧
        c1.p = c0.p := by
  have hk0 : 0 < key.length := List.length_pos.mpr hk
  have hs0 : 0 < salt.length := List.length_pos.mpr hs
  obtain ⟨a, e1, e2, e3⟩ := xorKeyLoop_spec 18 0 0 c.p hk0 (by rw [hc.p_len]; norm_num)
  have hca := hc.with_p e2 (e3 hb hc.p_words)
  have hra : RoundOk T { c with p := a } := hr
  obtain ⟨j0, lr0, c0, f0, b0, w0, q0⟩ := saltedFillLoop_spec hT hsb .p 9 0 0 (0, 0) hca hra
    wordPair_zero hs0 (by show 0 + 2 * 9 ≤ a.length; rw [e2, hc.p_len]; norm_num)
  have hr0 : RoundOk T c0 := by unfold RoundOk; rw [q0.round]; exact hra
  obtain ⟨j1, lr1, c1, f1, b1, w1, q1⟩ := saltedFillLoop_spec hT hsb .s0 128 0 j0 lr0 q0.wf
    hr0 w0 b0 (by show 0 + 2 * 128 ≤ c0.s0.length; rw [q0.wf.s0_len])
  have hr1 : RoundOk T c1 := by unfold RoundOk; rw [q1.round]; exact hr0
  obtain ⟨j2, lr2, c2, f2, b2, w2, q2⟩ := saltedFillLoop_spec hT hsb .s1 128 0 j1 lr1 q1.wf
    hr1 w1 b1 (by show 0 + 2 * 128 ≤ c1.s1.length; rw [q1.wf.s1_len])
  have hr2 : RoundOk T c2 := by unfold RoundOk; rw [q2.round]; exact hr1
  obtain ⟨j3, lr3, c3, f3, b3, w3, q3⟩ := saltedFillLoop_spec hT hsb .s2 128 0 j2 lr2 q2.wf
    hr2 w2 b2 (by show 0 + 2 * 128 ≤ c2.s2.length; rw [q2.wf.s2_len])
  have hr3 : RoundOk T c3 := by unfold RoundOk; rw [q3.round]; exact hr2
  obtain ⟨j4, lr4, c4, f4, _, _, q4⟩ := saltedFillLoop_spec hT hsb .s3 128 0 j3 lr3 q3.wf
    hr3 w3 b3 (by show 0 + 2 * 128 ≤ c3.s3.length; rw [q3.wf.s3_len])
  refine ⟨c4, ?_, q4.wf, ?_, ?_, a, (j0, lr0), c0, e1, f0, ?_⟩
  · simp only [expandKeyWithSalt, e1, f0, f1, f2, f3, f4]
  · rw [q4.round, q3.round, q2.round, q1.round, q0.round]
  · rw [q4.iv, q3.iv, q2.iv, q1.iv, q0.iv]
  · have h4 := q4.other .p (by decide)
    have h3 := q3.other .p (by decide)
    have h2 := q2.other .p (by decide)
    have h1 := q1.other .p (by decide)
    simp only [Cipher.get] at h1 h2 h3 h4
    rw [h4, h3, h2, h1]

theorem roundOk_init {T : Tables} (hp : 18 ≤ T.p.length) :
    RoundOk T (initCipher T Cipher.zero 16) := by
  constructor
  · show 16 + 1 < 268
    norm_num
  · show 16 + 1 < T.p.length
    omega

/-! ## The concrete seed table is well formed -/

set_option maxRecDepth 100000 in
theorem blowfishTables_wf : blowfishTables.WF where
  p_words := by decide
  s0_len := by decide
  s1_len := by decide
  s2_len := by decide
  s3_len := by decide
  s0_words := by decide
  s1_words := by decide
  s2_words := by decide
  s3_words := by decide

theorem blowfishTables_p_length : 18 ≤ blowfishTables.p.length := by decide

/-! ## The loops of the padding functions -/

theorem copyLoop_spec (src : List Nat) (sof dof n i : Nat) (dst : List Nat)
    (hs : sof + i + n ≤ src.length) (hd : dof + i + n ≤ dst.length) :
    ∃ r, copyLoop src sof dof n i dst = some r ∧ r.length = dst.length ∧
      ∀ j, r[j]? = if dof + i ≤ j ∧ j < dof + i + n then src[sof + (j - dof)]? else dst[j]? := by
  induction n generalizing i dst with
  | zero =>
    refine ⟨dst, rfl, rfl, fun j => ?_⟩
    rw [if_neg (by omega)]
  | succ n ih =>
    have h1 : sof + i < src.length := by omega
    have h2 : dof + i < dst.length := by omega
    obtain ⟨r, e1, e2, e3⟩ := ih (i + 1) (dst.set (dof + i) src[sof + i])
      (by omega) (by rw [List.length_set]; omega)
    refine ⟨r, ?_, by rw [e2, List.length_set], fun j => ?_⟩
    · simp only [copyLoop, List.getElem?_eq_getElem h1, store_eq_some h2]
      exact e1
    · rw [e3 j, List.getElem?_set]
      by_cases hj : dof + i = j
      · subst hj
        have e : sof + (dof + i - dof) = sof + i := by omega
        rw [if_neg (by omega), if_pos rfl, if_pos h2, if_pos (by omega), e,
          List.getElem?_eq_getElem h1]
      · rw [if_neg hj]
        by_cases hj2 : dof + (i + 1) ≤ j ∧ j < dof + (i + 1) + n
        · rw [if_pos hj2, if_pos (by omega)]
        · rw [if_neg hj2, if_neg (by omega)]

theorem index_natCast (a : List Nat) (i : Nat) : index a (i : Int) = a[i]? := by
  simp [index]

theorem storeInt_natCast (a : List Nat) (i v : Nat) : storeInt a (i : Int) v = store a i v := by
  simp [storeInt]

theorem padLoop_spec (length : Int) (m : Nat) (hm : length - 1 + 8 = (m : Int)) (n i : Nat)
    (out : List Nat) (hi : m < i) (hd : i + n ≤ out.length) :
    ∃ r, padLoop length n (i : Int) out = some r ∧ r.length = out.length ∧
      ∀ j, r[j]? = if i ≤ j ∧ j < i + n then some (out.getD m 0 ^^^ 0xCC) else out[j]? := by
  induction n generalizing i out with
  | zero =>
    refine ⟨out, rfl, rfl, fun j => ?_⟩
    rw [if_neg (by omega)]
  | succ n ih =>
    have h1 : m < out.length := by omega
    have h2 : i < out.length := by omega
    obtain ⟨r, e1, e2, e3⟩ := ih (i + 1) (out.set i (out.getD m 0 ^^^ 0xCC)) (by omega)
      (by rw [List.length_set]; omega)
    have e4 : (out.set i (out.getD m 0 ^^^ 0xCC)).getD m 0 = out.getD m 0 := by
      simp only [List.getD_eq_getElem?_getD, List.getElem?_set]
      rw [if_neg (by omega)]
    refine ⟨r, ?_, by rw [e2, List.length_set], fun j => ?_⟩
    · simp only [padLoop, hm, index_natCast, getElem?_eq_some_getD h1, storeInt_natCast,
        store_eq_some h2]
      have : ((i : Int) + 1) = ((i + 1 : Nat) : Int) := by push_cast; rfl
      rw [this]
      exact e1
    · rw [e3 j, e4, List.getElem?_set]
      by_cases hj : i = j
      · subst hj
        rw [if_neg (by omega), if_pos rfl, if_pos h2, if_pos (by omega)]
      · rw [if_neg hj]
        by_cases hj2 : i + 1 ≤ j ∧ j < i + 1 + n
        · rw [if_pos hj2, if_pos (by omega)]
        · rw [if_neg hj2, if_neg (by omega)]

theorem make_natCast (n : Nat) : make (n : Int) = some (List.replicate n 0) := by
  simp [make]

/-- The value of `paddedLength` in `padDataEn` for a non-negative length. -/
theorem paddedLengthEn_natCast (n : Nat) :
    paddedLengthEn (n : Int) = ((16 + 8 * ((n + 7) / 8) : Nat) : Int) := by
  unfold paddedLengthEn
  split <;> omega

theorem paddedLengthEn_gt (length : Int) : length + 8 < paddedLengthEn length := by
  unfold paddedLengthEn
  split <;> omega

/-- The buffer that `padDataEn` returns for a length between 0 and
`len(data)`: eight zero bytes, the data, and the padding byte up to the
padded length. -/
theorem padDataEn_spec (data : List Nat) (n : Nat) (hn : n ≤ data.length) :
    ∃ out, padDataEn data (n : Int) = some (out, paddedLengthEn (n : Int)) ∧
      out.length = 16 + 8 * ((n + 7) / 8) ∧
      ∀ j, out[j]? =
        if j < 8 then some 0
        else if j < 8 + n then data[j - 8]?
        else if j < 16 + 8 * ((n + 7) / 8) then
          some ((List.replicate 8 0 ++ data).getD (n + 7) 0 ^^^ 0xCC)
        else none := by
  have hP := paddedLengthEn_natCast n
  obtain ⟨o1, a1, a2, a3⟩ := copyLoop_spec data 0 8 n 0
    (List.replicate (16 + 8 * ((n + 7) / 8)) 0) (by omega)
    (by rw [List.length_replicate]; omega)
  rw [List.length_replicate] at a2
  have hcount : (paddedLengthEn (n : Int) - ((n : Int) + 8)).toNat
      = 16 + 8 * ((n + 7) / 8) - (n + 8) := by
    rw [hP]; omega
  obtain ⟨o2, b1, b2, b3⟩ := padLoop_spec (n : Int) (n + 7) (by push_cast; omega)
    (16 + 8 * ((n + 7) / 8) - (n + 8)) (n + 8) o1 (by omega) (by rw [a2]; omega)
  have hsrc : o1.getD (n + 7) 0 = (List.replicate 8 0 ++ data).getD (n + 7) 0 := by
    simp only [List.getD_eq_getElem?_getD, a3, List.getElem?_append, List.length_replicate,
      List.getElem?_replicate]
    by_cases h0 : n = 0
    · subst h0
      simp
    · rw [if_pos (by omega), if_neg (by omega)]
      have : 0 + (n + 7 - 8) = n + 7 - 8 := by omega
      rw [this]
  refine ⟨o2, ?_, by rw [b2, a2], fun j => ?_⟩
  · simp only [padDataEn, hP, make_natCast, Int.toNat_ofNat]
    simp only [hP, Int.toNat_ofNat] at hcount
    rw [a1]
    simp only []
    have e8 : ((n : Int) + 8) = ((n + 8 : Nat) : Int) := by push_cast; rfl
    rw [hcount, e8, b1]
  · rw [b3 j, a3 j, hsrc]
    by_cases h1 : j < 8
    · rw [if_neg (by omega), if_neg (by omega), if_pos h1, List.getElem?_replicate,
        if_pos (by omega)]
    · by_cases h2 : j < 8 + n
      · have : 0 + (j - 8) = j - 8 := by omega
        rw [if_neg (by omega), if_pos (by omega), if_neg h1, if_pos h2, this]
      · by_cases h3 : j < 16 + 8 * ((n + 7) / 8)
        · rw [if_pos (by omega), if_neg h1, if_neg h2, if_pos h3]
        · rw [if_neg (by omega), if_neg (by omega), if_neg h1, if_neg h2, if_neg h3,
            List.getElem?_replicate, if_neg h3]

/-! ## Lengths are kept by the loops, whether or not they return -/

theorem store_length {a r : List Nat} {i v : Nat} (h : store a i v = some r) :
    r.length = a.length := by
  unfold store at h
  split at h
  · cases h
    exact List.length_set _ _ _
  · cases h

theorem storeInt_length {a r : List Nat} {i : Int} {v : Nat} (h : storeInt a i v = some r) :
    r.length = a.length := by
  unfold storeInt at h
  split at h
  · exact store_length h
  · cases h

theorem copyLoop_length (src : List Nat) (sof dof n i : Nat) {dst r : List Nat}
    (h : copyLoop src sof dof n i dst = some r) : r.length = dst.length := by
  induction n generalizing i dst with
  | zero =>
    cases h
    rfl
  | succ n ih =>
    simp only [copyLoop] at h
    cases hx : src[sof + i]? with
    | none => rw [hx] at h; cases h
    | some x =>
      rw [hx] at h
      simp only [] at h
      cases hy : store dst (dof + i) x with
      | none => rw [hy] at h; cases h
      | some d =>
        rw [hy] at h
        exact (ih (i + 1) h).trans (store_length hy)

theorem padLoop_length (length : Int) (n : Nat) (i : Int) {out r : List Nat}
    (h : padLoop length n i out = some r) : r.length = out.length := by
  induction n generalizing i out with
  | zero =>
    cases h
    rfl
  | succ n ih =>
    simp only [padLoop] at h
    cases hx : index out (length - 1 + 8) with
    | none => rw [hx] at h; cases h
    | some x =>
      rw [hx] at h
      simp only [] at h
      cases hy : storeInt out i (x ^^^ 0xCC) with
      | none => rw [hy] at h; cases h
      | some d =>
        rw [hy] at h
        exact (ih (i + 1) h).trans (storeInt_length hy)

theorem padDataEn_length_of_some {data : List Nat} {length : Int} {out : List Nat} {n : Int}
    (h : padDataEn data length = some (out, n)) :
    n = paddedLengthEn length ∧ (out.length : Int) = paddedLengthEn length := by
  unfold padDataEn at h
  cases h0 : make (paddedLengthEn length) with
  | none => rw [h0] at h; cases h
  | some o0 =>
    rw [h0] at h
    simp only [] at h
    cases h1 : copyLoop data 0 8 length.toNat 0 o0 with
    | none => rw [h1] at h; cases h
    | some o1 =>
      rw [h1] at h
      simp only [] at h
      cases h2 : padLoop length (paddedLengthEn length - (length + 8)).toNat (length + 8) o1 with
      | none => rw [h2] at h; cases h
      | some o2 =>
        rw [h2] at h
        simp only [Option.some.injEq, Prod.mk.injEq] at h
        obtain ⟨rfl, rfl⟩ := h
        refine ⟨rfl, ?_⟩
        rw [padLoop_length _ _ _ h2, copyLoop_length _ _ _ _ _ h1]
        unfold make at h0
        split at h0
        · cases h0
          rw [List.length_replicate]
          omega
        · cases h0

/-! ## Blocks, slices and the single-block methods -/

theorem block_getElem? (a : List Nat) (o k : Nat) :
    (block a o)[k]? = if k < 8 then a[o + k]? else none := by
  simp only [block, List.getElem?_take, List.getElem?_drop]

theorem block_length {a : List Nat} {o : Nat} (h : o + 8 ≤ a.length) :
    (block a o).length = 8 := by
  simp only [block, List.length_take, List.length_drop]
  omega

theorem block_congr {a b : List Nat} {o : Nat}
    (h : ∀ j, o ≤ j → j < o + 8 → a[j]? = b[j]?) : block a o = block b o := by
  apply List.ext_getElem?
  intro k
  rw [block_getElem?, block_getElem?]
  split
  · exact h _ (by omega) (by omega)
  · rfl

theorem slice_block {a : List Nat} {i : Nat} (h : i + 8 ≤ a.length) :
    slice a (i : Int) ((i : Int) + 8) = some (block a i) := by
  have h1 : (0 : Int) ≤ i ∧ (i : Int) ≤ (i : Int) + 8 ∧ (i : Int) + 8 ≤ a.length := by
    omega
  have h2 : ((i : Int) + 8).toNat - i = 8 := by omega
  simp only [slice, h1, and_self, if_true, Int.toNat_ofNat, h2, block]

theorem length_blit {a b : List Nat} {lo : Nat} (h : lo + b.length ≤ a.length) :
    (blit a lo b).length = a.length := by
  simp only [blit, List.length_append, List.length_take, List.length_drop]
  omega

theorem blit_getElem? {a b : List Nat} {lo : Nat} (h : lo + b.length ≤ a.length) (j : Nat) :
    (blit a lo b)[j]? =
      if j < lo then a[j]? else if j < lo + b.length then b[j - lo]? else a[j]? := by
  have h1 : (List.take lo a).length = lo := by
    rw [List.length_take]; omega
  simp only [blit, List.getElem?_append, List.length_append, h1, List.getElem?_take,
    List.getElem?_drop]
  by_cases c1 : j < lo
  · rw [if_pos (by omega), if_pos c1, if_pos c1, if_pos c1]
  · by_cases c2 : j < lo + b.length
    · rw [if_pos c2, if_neg c1, if_neg c1, if_pos c2]
    · have : lo + b.length + (j - (lo + b.length)) = j := by omega
      rw [if_neg c2, if_neg c1, if_neg c2, this]

theorem block_blit {a b : List Nat} {lo : Nat} (hb : b.length = 8) (h : lo + 8 ≤ a.length) :
    block (blit a lo b) lo = b := by
  apply List.ext_getElem?
  intro k
  rw [block_getElem?, blit_getElem? (by omega)]
  by_cases c1 : k < 8
  · rw [if_pos c1, if_neg (by omega), if_pos (by omega), Nat.add_sub_cancel_left]
  · rw [if_neg c1, List.getElem?_eq_none (by omega)]

theorem eq_of_length_eight {b : List Nat} (h : b.length = 8) :
    ∃ b0 b1 b2 b3 b4 b5 b6 b7, b = [b0, b1, b2, b3, b4, b5, b6, b7] := by
  match b, h with
  | [b0, b1, b2, b3, b4, b5, b6, b7], _ => exact ⟨b0, b1, b2, b3, b4, b5, b6, b7, rfl⟩

theorem length_unpack (l r : Nat) : (unpack l r).length = 8 := rfl

theorem length_encBytes (T : Tables) (c : Cipher) {blk : List Nat} (h : blk.length = 8) :
    (encBytes T c blk).length = 8 := by
  obtain ⟨b0, b1, b2, b3, b4, b5, b6, b7, rfl⟩ := eq_of_length_eight h
  rfl

theorem length_decBytes (c : Cipher) {blk : List Nat} (h : blk.length = 8) :
    (decBytes c blk).length = 8 := by
  obtain ⟨b0, b1, b2, b3, b4, b5, b6, b7, rfl⟩ := eq_of_length_eight h
  rfl

theorem blit_zero_of_length_eq {a b : List Nat} (h : a.length = b.length) :
    blit a 0 b = b := by
  simp only [blit, List.take_zero, List.nil_append, Nat.zero_add]
  rw [List.drop_of_length_le (by omega), List.append_nil]

theorem EncryptBlock_eq_some {T : Tables} {c : Cipher} (hc : c.WF) (hr : RoundOk T c)
    {blk : List Nat} (h : blk.length = 8) :
    EncryptBlock T c blk blk = some (encBytes T c blk) := by
  obtain ⟨b0, b1, b2, b3, b4, b5, b6, b7, rfl⟩ := eq_of_length_eight h
  simp only [EncryptBlock, pack, encryptBlock_eq_some hc hr, encBytes]
  rw [if_pos (by simp), blit_zero_of_length_eq (by rfl)]

theorem DecryptBlock_eq_some {c : Cipher} (hc : c.WF) (hr : c.round + 1 < 268)
    {blk : List Nat} (h : blk.length = 8) :
    DecryptBlock c blk blk = some (decBytes c blk) := by
  obtain ⟨b0, b1, b2, b3, b4, b5, b6, b7, rfl⟩ := eq_of_length_eight h
  simp only [DecryptBlock, pack, decryptBlock_eq_some hc hr, decBytes]
  rw [if_pos (by simp), blit_zero_of_length_eq (by rfl)]

/-! ## The chaining loop of `EnCrypt_CBC` -/

theorem chainXorLoop_spec (i : Nat) (hi : 8 ≤ i) (n k : Nat) (out : List Nat)
    (hk : k + n ≤ 8) (hd : i + 8 ≤ out.length) :
    ∃ r, chainXorLoop i n k out = some r ∧ r.length = out.length ∧
      ∀ j, r[j]? = if i + k ≤ j ∧ j < i + k + n then
        some (out.getD j 0 ^^^ out.getD (j - 8) 0) else out[j]? := by
  induction n generalizing k out with
  | zero =>
    refine ⟨out, rfl, rfl, fun j => ?_⟩
    rw [if_neg (by omega)]
  | succ n ih =>
    have h1 : i + k < out.length := by omega
    have h2 : k + i - 8 < out.length := by omega
    obtain ⟨r, e1, e2, e3⟩ := ih (k + 1)
      (out.set (i + k) (out.getD (i + k) 0 ^^^ out.getD (k + i - 8) 0)) (by omega)
      (by rw [List.length_set]; omega)
    refine ⟨r, ?_, by rw [e2, List.length_set], fun j => ?_⟩
    · simp only [chainXorLoop, getElem?_eq_some_getD h1, getElem?_eq_some_getD h2]
      exact e1
    · rw [e3 j, List.getElem?_set]
      by_cases hj : i + k = j
      · subst hj
        have e : i + k - 8 = k + i - 8 := by omega
        rw [if_neg (by omega), if_pos rfl, if_pos h1, if_pos (by omega), e]
      · rw [if_neg hj]
        by_cases hj2 : i + (k + 1) ≤ j ∧ j < i + (k + 1) + n
        · rw [if_pos hj2, if_pos (by omega)]
          simp only [List.getD_eq_getElem?_getD, List.getElem?_set]
          rw [if_neg hj, if_neg (by omega)]
        · rw [if_neg hj2, if_neg (by omega)]

theorem xorBytes_getElem? (a b : List Nat) (k : Nat) :
    (xorBytes a b)[k]? = (a[k]?).bind fun x => (b[k]?).map fun y => x ^^^ y := by
  simp only [xorBytes, List.getElem?_zipWith]
  cases a[k]? <;> cases b[k]? <;> rfl

/-- One pass of the body of the block loop of `EnCrypt_CBC` at offset `i`:
the block at `i` becomes the encryption of its XOR with the block before it,
and nothing else changes. -/
theorem encryptChain_step {T : Tables} {c : Cipher} (hc : c.WF) (hr : RoundOk T c)
    (i : Nat) (hi : 8 ≤ i) (out : List Nat) (hd : i + 8 ≤ out.length) :
    ∃ out1 r, chainXorLoop i 8 0 out = some out1 ∧
      slice out1 (i : Int) ((i : Int) + 8) = some (block out1 i) ∧
      EncryptBlock T c (block out1 i) (block out1 i) = some (encBytes T c (block out1 i)) ∧
      r = blit out1 i (encBytes T c (block out1 i)) ∧
      r.length = out.length ∧
      (∀ j, j < i ∨ i + 8 ≤ j → r[j]? = out[j]?) ∧
      block r i = encBytes T c (xorBytes (block out i) (block out (i - 8))) := by
  obtain ⟨out1, e1, e2, e3⟩ := chainXorLoop_spec i hi 8 0 out (by omega) hd
  have hb1 : block out1 i = xorBytes (block out i) (block out (i - 8)) := by
    apply List.ext_getElem?
    intro k
    rw [block_getElem?, xorBytes_getElem?, block_getElem?, block_getElem?]
    by_cases hk : k < 8
    · have h1 : i + k < out.length := by omega
      have h2 : i - 8 + k < out.length := by omega
      have h3 : i + k - 8 = i - 8 + k := by omega
      rw [if_pos hk, if_pos hk, if_pos hk, e3, if_pos (by omega),
        getElem?_eq_some_getD h1, getElem?_eq_some_getD h2, h3]
      rfl
    · rw [if_neg hk, if_neg hk, if_neg hk]
      rfl
  have hl1 : (block out1 i).length = 8 := block_length (by rw [e2]; exact hd)
  have hl2 : (encBytes T c (block out1 i)).length = 8 := length_encBytes T c hl1
  refine ⟨out1, _, e1, slice_block (by rw [e2]; exact hd), EncryptBlock_eq_some hc hr hl1,
    rfl, ?_, ?_, ?_⟩
  · rw [length_blit (by rw [hl2, e2]; exact hd), e2]
  · intro j hj
    rw [blit_getElem? (by rw [hl2, e2]; exact hd), hl2]
    rcases hj with hj | hj
    · rw [if_pos hj, e3, if_neg (by omega)]
    · rw [if_neg (by omega), if_neg (by omega), e3, if_neg (by omega)]
  · rw [block_blit hl2 (by rw [e2]; exact hd), hb1]

/-- The block loop of `EnCrypt_CBC` returns; the buffer keeps its length and
everything outside the `n` blocks from offset `i`, and each of these blocks is
the encryption of its XOR with the block before it in the returned buffer. -/
theorem encryptChainLoop_spec {T : Tables} {c : Cipher} (hc : c.WF) (hr : RoundOk T c)
    (n i : Nat) (hi : 8 ≤ i) (out : List Nat) (hd : i + 8 * n ≤ out.length) :
    ∃ r, encryptChainLoop T c n i out = some r ∧ r.length = out.length ∧
      (∀ j, j < i ∨ i + 8 * n ≤ j → r[j]? = out[j]?) ∧
      ∀ k, k < n → block r (i + 8 * k) =
        encBytes T c (xorBytes (block out (i + 8 * k)) (block r (i + 8 * k - 8))) := by
  induction n generalizing i out with
  | zero => exact ⟨out, rfl, rfl, fun _ _ => rfl, fun k hk => absurd hk (by omega)⟩
  | succ n ih =>
    obtain ⟨out1, o2, a1, a2, a3, a4, a5, a6, a7⟩ :=
      encryptChain_step hc hr i hi out (by omega)
    obtain ⟨r, b1, b2, b3, b4⟩ := ih (i + 8) (by omega) o2 (by rw [a5]; omega)
    refine ⟨r, ?_, by rw [b2, a5], ?_, ?_⟩
    · simp only [encryptChainLoop, a1, a2, a3]
      rw [← a4]
      exact b1
    · intro j hj
      rw [b3 j (by omega), a6 j (by omega)]
    · intro k hk
      rcases Nat.eq_zero_or_pos k with rfl | hk0
      · have e1 : block r i = block o2 i :=
          block_congr fun j h1 h2 => b3 j (by omega)
        have e2 : block r (i - 8) = block out (i - 8) :=
          block_congr fun j h1 h2 => by rw [b3 j (by omega), a6 j (by omega)]
        simp only [Nat.mul_zero, Nat.add_zero]
        rw [e1, e2, a7]
      · obtain ⟨k1, rfl⟩ : ∃ k1, k = k1 + 1 := ⟨k - 1, by omega⟩
        have h1 := b4 k1 (by omega)
        have e1 : i + 8 * (k1 + 1) = i + 8 + 8 * k1 := by omega
        have e2 : block o2 (i + 8 + 8 * k1) = block out (i + 8 + 8 * k1) :=
          block_congr fun j h1 h2 => a6 j (by omega)
        rw [e1, h1, e2]

/-! ## The block transforms do not read the IV field -/

theorem sameKey_with_IV (c : Cipher) (iv : List Nat) : SameKey { c with IV := iv } c :=
  ⟨rfl, rfl, rfl, rfl, rfl, rfl⟩

theorem roundVal_congr {c1 c : Cipher} (h : SameKey c1 c) (a b n : Nat) :
    roundVal a b n c1 = roundVal a b n c := by
  obtain ⟨h0, h1, h2, h3, h4, -⟩ := h
  simp only [roundVal, feistel, h0, h1, h2, h3, h4]

theorem encIter_congr {c1 c : Cipher} (h : SameKey c1 c) (k i : Nat) (s : Nat × Nat) :
    encIter c1 k i s = encIter c k i s := by
  induction k generalizing i s with
  | zero => rfl
  | succ k ih =>
    simp only [encIter, encStep, roundVal_congr h]
    exact ih _ _

theorem decIter_congr {c1 c : Cipher} (h : SameKey c1 c) (k i : Nat) (s : Nat × Nat) :
    decIter c1 k i s = decIter c k i s := by
  induction k generalizing i s with
  | zero => rfl
  | succ k ih =>
    simp only [decIter, decStep, roundVal_congr h]
    exact ih _ _

theorem encryptVal_congr (T : Tables) {c1 c : Cipher} (h : SameKey c1 c) (l r : Nat) :
    encryptVal T l r c1 = encryptVal T l r c := by
  simp only [encryptVal, encIter_congr h, h.1, h.2.2.2.2.2]

theorem decryptVal_congr {c1 c : Cipher} (h : SameKey c1 c) (l r : Nat) :
    decryptVal l r c1 = decryptVal l r c := by
  simp only [decryptVal, decIter_congr h, h.1, h.2.2.2.2.2]

theorem encBytes_congr (T : Tables) {c1 c : Cipher} (h : SameKey c1 c) (blk : List Nat) :
    encBytes T c1 blk = encBytes T c blk := by
  simp only [encBytes, encryptVal_congr T h]

theorem decBytes_congr {c1 c : Cipher} (h : SameKey c1 c) (blk : List Nat) :
    decBytes c1 blk = decBytes c blk := by
  simp only [decBytes, decryptVal_congr h]

/-! ## `EnCrypt_CBC` after a read that is not rejected -/

theorem Cipher.WF.with_IV {c : Cipher} (hc : c.WF) {iv : List Nat} (hl : iv.length = 8)
    (hb : Bytes iv) : ({ c with IV := iv } : Cipher).WF :=
  { hc with iv_len := hl, iv_bytes := hb }

theorem blockCount_paddedLengthEn (m : Nat) :
    blockCount (paddedLengthEn (m : Int)) = 1 + (m + 7) / 8 := by
  rw [paddedLengthEn_natCast]
  unfold blockCount
  omega

/-- The result of `EnCrypt_CBC` for `0 ≤ length ≤ len(data)` when the random
read is not rejected: with `P` the padded buffer, the result has the length of
`P`, starts with the IV, and each later block is the encryption of the XOR of
the block of `P` with the preceding block of the result. -/
theorem EnCrypt_CBC_spec {T : Tables} {c : Cipher} (hc : c.WF) (hr : RoundOk T c)
    (rd : RandRead) (hiv : rd.iv.length = 8) (hivb : Bytes rd.iv)
    (hn : ¬ (rd.n ≠ 8 ∧ rd.err = true)) (data : List Nat) (m : Nat) (hm : m ≤ data.length) :
    ∃ P out, padDataEn data (m : Int) = some (P, paddedLengthEn (m : Int)) ∧
      EnCrypt_CBC T rd c data (m : Int) =
        some (out, paddedLengthEn (m : Int), { c with IV := rd.iv }) ∧
      out.length = 16 + 8 * ((m + 7) / 8) ∧ P.length = out.length ∧
      block out 0 = rd.iv ∧
      ∀ k, k < 1 + (m + 7) / 8 → block out (8 + 8 * k) =
        encBytes T c (xorBytes (block P (8 + 8 * k)) (block out (8 * k))) := by
  obtain ⟨P, p1, p2, -⟩ := padDataEn_spec data m hm
  obtain ⟨o1, a1, a2, a3⟩ := copyLoop_spec rd.iv 0 0 8 0 P (by omega) (by omega)
  have hc1 : ({ c with IV := rd.iv } : Cipher).WF := hc.with_IV hiv hivb
  have hr1 : RoundOk T { c with IV := rd.iv } := hr
  obtain ⟨r, b1, b2, b3, b4⟩ := encryptChainLoop_spec hc1 hr1 (1 + (m + 7) / 8) 8
    (by omega) o1 (by omega)
  refine ⟨P, r, p1, ?_, by omega, by omega, ?_, ?_⟩
  · simp only [EnCrypt_CBC, hn, if_false, p1, a1, blockCount_paddedLengthEn, b1]
  · apply List.ext_getElem?
    intro k
    rw [block_getElem?]
    by_cases hk : k < 8
    · rw [if_pos hk, b3 _ (by omega), a3, if_pos (by omega)]
      simp only [Nat.zero_add, Nat.sub_zero]
    · rw [if_neg hk, List.getElem?_eq_none (by omega)]
  · intro k hk
    have e1 : block o1 (8 + 8 * k) = block P (8 + 8 * k) :=
      block_congr fun j h1 h2 => by rw [a3, if_neg (by omega)]
    have e2 : 8 + 8 * k - 8 = 8 * k := by omega
    rw [b4 k hk, e1, e2, encBytes_congr T (sameKey_with_IV c rd.iv)]

/-! ## Words and their big-endian bytes -/

theorem word_eq_add {b0 b1 b2 b3 : Nat} (h0 : b0 < 256) (h1 : b1 < 256) (h2 : b2 < 256)
    (h3 : b3 < 256) : word b0 b1 b2 b3 = b0 * 2 ^ 24 + b1 * 2 ^ 16 + b2 * 2 ^ 8 + b3 := by
  have e0 : (b0 <<< 24) % 2 ^ 32 = 2 ^ 24 * b0 := by omega
  have e1 : (b1 <<< 16) % 2 ^ 32 = b1 * 2 ^ 16 := by omega
  have e2 : (b2 <<< 8) % 2 ^ 32 = b2 * 2 ^ 8 := by omega
  have s1 := Nat.mul_add_lt_is_or (show b1 * 2 ^ 16 < 2 ^ 24 by omega) b0
  have s2 := Nat.mul_add_lt_is_or (show b2 * 2 ^ 8 < 2 ^ 16 by omega) (2 ^ 8 * b0 + b1)
  have s3 := Nat.mul_add_lt_is_or (show b3 < 2 ^ 8 by omega) (2 ^ 16 * b0 + 2 ^ 8 * b1 + b2)
  have t1 : 2 ^ 24 * b0 + b1 * 2 ^ 16 = 2 ^ 16 * (2 ^ 8 * b0 + b1) := by omega
  have t2 : 2 ^ 16 * (2 ^ 8 * b0 + b1) + b2 * 2 ^ 8 =
      2 ^ 8 * (2 ^ 16 * b0 + 2 ^ 8 * b1 + b2) := by omega
  unfold word
  rw [e0, e1, e2, ← s1, t1, ← s2, t2, ← s3]
  omega

theorem word_lt {b0 b1 b2 b3 : Nat} (h0 : b0 < 256) (h1 : b1 < 256) (h2 : b2 < 256)
    (h3 : b3 < 256) : word b0 b1 b2 b3 < 2 ^ 32 := by
  rw [word_eq_add h0 h1 h2 h3]
  omega

theorem unpack_bytes (l r : Nat) : Bytes (unpack l r) := by
  intro x hx
  simp only [unpack, List.mem_cons, List.mem_singleton, List.not_mem_nil, or_false] at hx
  rcases hx with h | h | h | h | h | h | h | h <;> rw [h] <;> exact byte_lt _

theorem word_unpack {l : Nat} (hl : l < 2 ^ 32) :
    word (byte (l >>> 24)) (byte (l >>> 16)) (byte (l >>> 8)) (byte l) = l := by
  rw [word_eq_add (byte_lt _) (byte_lt _) (byte_lt _) (byte_lt _)]
  unfold byte
  omega

theorem pack_unpack {l r : Nat} (hl : l < 2 ^ 32) (hr : r < 2 ^ 32) :
    pack (unpack l r) = some (l, r) := by
  simp only [unpack, pack, word_unpack hl, word_unpack hr]

theorem byte_word {b0 b1 b2 b3 : Nat} (h0 : b0 < 256) (h1 : b1 < 256) (h2 : b2 < 256)
    (h3 : b3 < 256) :
    byte (word b0 b1 b2 b3 >>> 24) = b0 ∧ byte (word b0 b1 b2 b3 >>> 16) = b1 ∧
      byte (word b0 b1 b2 b3 >>> 8) = b2 ∧ byte (word b0 b1 b2 b3) = b3 := by
  rw [word_eq_add h0 h1 h2 h3]
  unfold byte
  omega

/-- An 8-byte block is the big-endian image of a pair of words. -/
theorem exists_pack {blk : List Nat} (hl : blk.length = 8) (hb : Bytes blk) :
    ∃ l r, l < 2 ^ 32 ∧ r < 2 ^ 32 ∧ pack blk = some (l, r) ∧ unpack l r = blk := by
  obtain ⟨b0, b1, b2, b3, b4, b5, b6, b7, rfl⟩ := eq_of_length_eight hl
  have h0 : b0 < 256 := hb _ (by simp)
  have h1 : b1 < 256 := hb _ (by simp)
  have h2 : b2 < 256 := hb _ (by simp)
  have h3 : b3 < 256 := hb _ (by simp)
  have h4 : b4 < 256 := hb _ (by simp)
  have h5 : b5 < 256 := hb _ (by simp)
  have h6 : b6 < 256 := hb _ (by simp)
  have h7 : b7 < 256 := hb _ (by simp)
  refine ⟨word b0 b1 b2 b3, word b4 b5 b6 b7, word_lt h0 h1 h2 h3, word_lt h4 h5 h6 h7,
    rfl, ?_⟩
  obtain ⟨a0, a1, a2, a3⟩ := byte_word h0 h1 h2 h3
  obtain ⟨a4, a5, a6, a7⟩ := byte_word h4 h5 h6 h7
  simp only [unpack, a0, a1, a2, a3, a4, a5, a6, a7]

theorem unpack_injective {l r l1 r1 : Nat} (hl : l < 2 ^ 32) (hr : r < 2 ^ 32)
    (hl1 : l1 < 2 ^ 32) (hr1 : r1 < 2 ^ 32) (h : unpack l r = unpack l1 r1) :
    l = l1 ∧ r = r1 := by
  have h1 := pack_unpack hl hr
  rw [h, pack_unpack hl1 hr1] at h1
  simp only [Option.some.injEq, Prod.mk.injEq] at h1
  exact ⟨h1.1.symm, h1.2.symm⟩

/-! ## Decrypting what was encrypted

`encryptBlock` XORs the final right word with the seed entry `p[round+1]` and
`decryptBlock` removes the instance subkey `c.p[round+1]`. -/

theorem decIter_injective (c : Cipher) (k i : Nat) {s t : Nat × Nat}
    (h : decIter c k (i + 2 * k) s = decIter c k (i + 2 * k) t) : s = t := by
  have h1 := encIter_decIter c k i s
  rw [h, encIter_decIter] at h1
  exact Prod.swap_injective h1.symm

/-- For an even round count, decrypting the encryption of `(l, r)` gives back
`(l, r)` exactly when the instance subkey `c.p[round+1]` is the seed entry
`p[round+1]`. -/
theorem decryptVal_encryptVal_iff (T : Tables) (c : Cipher) (hev : c.round % 2 = 0)
    (l r : Nat) :
    decryptVal (encryptVal T l r c).1 (encryptVal T l r c).2 c = (l, r) ↔
      c.p.getD (c.round + 1) 0 = T.p.getD (c.round + 1) 0 := by
  have hK : 0 + 2 * ((c.round + 1) / 2) = c.round := by omega
  have h1 := decIter_encIter c ((c.round + 1) / 2) 0 (l ^^^ c.p.getD 0 0, r)
  simp only [decryptVal, encryptVal]
  generalize encIter c ((c.round + 1) / 2) 0 (l ^^^ c.p.getD 0 0, r) = E at h1 ⊢
  constructor
  · intro h
    have inj := @decIter_injective c ((c.round + 1) / 2) 0
      (E.2 ^^^ T.p.getD (c.round + 1) 0 ^^^ c.p.getD (c.round + 1) 0, E.1) E.swap
    rw [hK] at inj h1
    simp only [Prod.mk.injEq] at h
    obtain ⟨ha, hb⟩ := h
    have h2 : decIter c ((c.round + 1) / 2) c.round
        (E.2 ^^^ T.p.getD (c.round + 1) 0 ^^^ c.p.getD (c.round + 1) 0, E.1)
        = decIter c ((c.round + 1) / 2) c.round E.swap := by
      rw [h1]
      apply Prod.ext
      · exact hb
      · show _ = l ^^^ c.p.getD 0 0
        rw [← ha, Nat.xor_cancel_right]
    have h4 := inj h2
    simp only [Prod.swap, Prod.mk.injEq, and_true] at h4
    rw [Nat.xor_assoc] at h4
    have h6 : T.p.getD (c.round + 1) 0 ^^^ c.p.getD (c.round + 1) 0 = 0 := by
      have := congrArg (fun x => E.2 ^^^ x) h4
      simpa [Nat.xor_cancel_left] using this
    have h7 := congrArg (fun x => x ^^^ c.p.getD (c.round + 1) 0) h6
    simp only [Nat.xor_cancel_right, Nat.zero_xor] at h7
    exact h7.symm
  · intro h
    rw [hK] at h1
    have h2 : (E.2 ^^^ T.p.getD (c.round + 1) 0 ^^^ c.p.getD (c.round + 1) 0, E.1) =
        E.swap := by
      rw [h, Nat.xor_cancel_right]
      rfl
    rw [h2, h1]
    simp only [Prod.swap, Nat.xor_cancel_right]

/-! ## The single-block methods on bytes -/

theorem encBytes_eq_unpack (T : Tables) (c : Cipher) {blk : List Nat} {l r : Nat}
    (h : pack blk = some (l, r)) :
    encBytes T c blk = unpack (encryptVal T l r c).1 (encryptVal T l r c).2 := by
  simp only [encBytes, h]

theorem decBytes_unpack (c : Cipher) {a b : Nat} (ha : a < 2 ^ 32) (hb : b < 2 ^ 32) :
    decBytes c (unpack a b) = unpack (decryptVal a b c).1 (decryptVal a b c).2 := by
  simp only [decBytes, pack_unpack ha hb]

theorem encBytes_unpack (T : Tables) (c : Cipher) {a b : Nat} (ha : a < 2 ^ 32)
    (hb : b < 2 ^ 32) :
    encBytes T c (unpack a b) = unpack (encryptVal T a b c).1 (encryptVal T a b c).2 := by
  simp only [encBytes, pack_unpack ha hb]

/-- On an 8-byte block, `DecryptBlock` undoes `EncryptBlock` exactly when
the instance subkey `c.p[round+1]` is the seed entry `p[round+1]`. -/
theorem decBytes_encBytes_iff {T : Tables} {c : Cipher} (hT : Words T.p) (hc : c.WF)
    (hev : c.round % 2 = 0) {blk : List Nat} (hl : blk.length = 8) (hb : Bytes blk) :
    decBytes c (encBytes T c blk) = blk ↔
      c.p.getD (c.round + 1) 0 = T.p.getD (c.round + 1) 0 := by
  obtain ⟨l, r, wl, wr, hp, hu⟩ := exists_pack hl hb
  have we := encryptVal_words hT hc wl wr
  have wd := decryptVal_words hc we.1 we.2
  rw [encBytes_eq_unpack T c hp, decBytes_unpack c we.1 we.2,
    ← decryptVal_encryptVal_iff T c hev l r]
  constructor
  · intro h
    rw [← hu] at h
    exact Prod.ext_iff.mpr (unpack_injective wd.1 wd.2 wl wr h)
  · intro h
    rw [h, hu]

theorem bytes_encBytes (T : Tables) (c : Cipher) (blk : List Nat) : Bytes (encBytes T c blk) := by
  unfold encBytes
  split
  · exact unpack_bytes _ _
  · intro x hx
    cases hx

theorem bytes_decBytes (c : Cipher) (blk : List Nat) : Bytes (decBytes c blk) := by
  unfold decBytes
  split
  · exact unpack_bytes _ _
  · intro x hx
    cases hx

/-- With an even round count and an instance subkey `c.p[round+1]` that
differs from the seed entry, `EncryptBlock` and `DecryptBlock` both return
and the decryption of the encrypted block is never the block. -/
theorem DecryptBlock_EncryptBlock_ne {T : Tables} {c : Cipher} (hT : Words T.p) (hc : c.WF)
    (hr : RoundOk T c) (hev : c.round % 2 = 0)
    (hne : c.p.getD (c.round + 1) 0 ≠ T.p.getD (c.round + 1) 0)
    {blk : List Nat} (hl : blk.length = 8) (hb : Bytes blk) :
    ∃ e d, EncryptBlock T c blk blk = some e ∧ DecryptBlock c e e = some d ∧ d ≠ blk := by
  refine ⟨encBytes T c blk, decBytes c (encBytes T c blk), EncryptBlock_eq_some hc hr hl,
    DecryptBlock_eq_some hc hr.1 (length_encBytes T c hl), ?_⟩
  intro h
  exact hne ((decBytes_encBytes_iff hT hc hev hl hb).mp h)

/-! ## The fast evaluation functions agree with the embedding -/

theorem lookup_eq_getD (a : List Nat) (i : Nat) : lookup a i = a.getD i 0 := by
  induction a generalizing i with
  | nil => rfl
  | cons x xs ih =>
    cases i with
    | zero => rfl
    | succ m => exact ih m

theorem force_eq {α : Type} (n : Nat) (k : Nat → α) : force n k = k n := by
  cases n <;> rfl

theorem roundFast_eq (a b n : Nat) (c : Cipher) : roundFast a b n c = roundVal a b n c := by
  simp only [roundFast, roundVal, feistel, lookup_eq_getD]

theorem encIterFast_eq (c : Cipher) (k i xl xr : Nat) :
    encIterFast c k i xl xr = encIter c k i (xl, xr) := by
  induction k generalizing i xl xr with
  | zero => rfl
  | succ k ih =>
    simp only [encIterFast, force_eq, roundFast_eq, ih]
    rfl

theorem encryptFast_eq (T : Tables) (l r : Nat) (c : Cipher) :
    encryptFast T l r c = encryptVal T l r c := by
  simp only [encryptFast, force_eq, encIterFast_eq, lookup_eq_getD, encryptVal]

theorem store_eq_set {a r : List Nat} {i v : Nat} (h : store a i v = some r) :
    r = a.set i v := by
  unfold store at h
  split at h
  · exact (Option.some.inj h).symm
  · cases h

/-- The cipher that the subkey filling loop of `ExpandKey` returns is the one
computed by `fillSubkeysFast`. -/
theorem fillLoop_subkeys_eq {T : Tables} (hT : Words T.p) (k i : Nat) (l r : Nat)
    {c : Cipher} (hc : c.WF) (hr : RoundOk T c) (hlr : WordPair (l, r))
    {lr1 : Nat × Nat} {c1 : Cipher} (h : fillLoop T .p k i (l, r) c = some (lr1, c1)) :
    c1 = fillSubkeysFast T k i l r c := by
  induction k generalizing i l r c with
  | zero =>
    simp only [fillLoop, Option.some.injEq, Prod.mk.injEq] at h
    exact h.2.symm
  | succ k ih =>
    simp only [fillLoop, encryptBlock_eq_some hc hr] at h
    cases h1 : store (c.get .p) i (encryptVal T l r c).1 with
    | none => rw [h1] at h; cases h
    | some a1 =>
      rw [h1] at h
      simp only [] at h
      cases h2 : store a1 (i + 1) (encryptVal T l r c).2 with
      | none => rw [h2] at h; cases h
      | some a2 =>
        rw [h2] at h
        simp only [] at h
        have e1 := store_eq_set h1
        have e2 := store_eq_set h2
        subst e1
        subst e2
        have hw := encryptVal_words hT hc hlr.1 hlr.2
        have hwf : (c.put .p (((c.get .p).set i (encryptVal T l r c).1).set (i + 1)
            (encryptVal T l r c).2)).WF :=
          hc.put .p (by simp only [List.length_set])
            (((hc.get_words .p).set _ _ hw.1).set _ _ hw.2)
        have hr1 : RoundOk T (c.put .p (((c.get .p).set i (encryptVal T l r c).1).set (i + 1)
            (encryptVal T l r c).2)) := hr
        have := ih (i + 2) _ _ hwf hr1 hw h
        rw [this]
        simp only [fillSubkeysFast, force_eq, encryptFast_eq]
        rfl

/-- The cipher that the subkey filling loop of `expandKeyWithSalt` returns is
the one computed by `saltedFillSubkeysFast`. -/
theorem saltedFillLoop_subkeys_eq {T : Tables} (hT : Words T.p) {salt : List Nat}
    (hs : Bytes salt) (k i j : Nat) (l r : Nat)
    {c : Cipher} (hc : c.WF) (hr : RoundOk T c) (hlr : WordPair (l, r)) (hj : j < salt.length)
    {jlr1 : Nat × Nat × Nat} {c1 : Cipher}
    (h : saltedFillLoop T salt .p k i j (l, r) c = some (jlr1, c1)) :
    c1 = saltedFillSubkeysFast T salt k i j l r c := by
  induction k generalizing i j l r c with
  | zero =>
    simp only [saltedFillLoop, Option.some.injEq, Prod.mk.injEq] at h
    exact h.2.symm
  | succ k ih =>
    obtain ⟨w1, j1, g1, g2, g3⟩ := getNextWord_spec hj
    obtain ⟨w2, j2, g4, g5, g6⟩ := getNextWord_spec g2
    have hl : l ^^^ w1 < 2 ^ 32 := Nat.xor_lt_two_pow hlr.1 (g3 hs)
    have hr2 : r ^^^ w2 < 2 ^ 32 := Nat.xor_lt_two_pow hlr.2 (g6 hs)
    simp only [saltedFillLoop, g1, g4, encryptBlock_eq_some hc hr] at h
    cases h1 : store (c.get .p) i (encryptVal T (l ^^^ w1) (r ^^^ w2) c).1 with
    | none => rw [h1] at h; cases h
    | some a1 =>
      rw [h1] at h
      simp only [] at h
      cases h2 : store a1 (i + 1) (encryptVal T (l ^^^ w1) (r ^^^ w2) c).2 with
      | none => rw [h2] at h; cases h
      | some a2 =>
        rw [h2] at h
        simp only [] at h
        have e1 := store_eq_set h1
        have e2 := store_eq_set h2
        subst e1
        subst e2
        have hw := encryptVal_words hT hc hl hr2
        have hwf : (c.put .p (((c.get .p).set i (encryptVal T (l ^^^ w1) (r ^^^ w2) c).1).set
            (i + 1) (encryptVal T (l ^^^ w1) (r ^^^ w2) c).2)).WF :=
          hc.put .p (by simp only [List.length_set])
            (((hc.get_words .p).set _ _ hw.1).set _ _ hw.2)
        have hr1 : RoundOk T (c.put .p (((c.get .p).set i
            (encryptVal T (l ^^^ w1) (r ^^^ w2) c).1).set (i + 1)
            (encryptVal T (l ^^^ w1) (r ^^^ w2) c).2)) := hr
        have := ih (i + 2) j2 _ _ hwf hr1 hw g5 h
        rw [this]
        simp only [saltedFillSubkeysFast, g1, g4, force_eq, encryptFast_eq]
        rfl

/-! ## The chaining loop of `DeCrypt_CBC` -/

theorem unchainLoop_spec (nextIV : List Nat) (i n k : Nat) (out iv : List Nat)
    (hk : k + n ≤ 8) (hd : i + 8 ≤ out.length) (hiv : iv.length = 8)
    (hniv : nextIV.length = 8) :
    ∃ r ivr, unchainLoop nextIV i n k (out, iv) = some (r, ivr) ∧
      r.length = out.length ∧ ivr.length = 8 ∧
      (∀ j, r[j]? = if i + k ≤ j ∧ j < i + k + n then
        some (out.getD j 0 ^^^ iv.getD (j - i) 0) else out[j]?) ∧
      ∀ j, ivr[j]? = if k ≤ j ∧ j < k + n then nextIV[j]? else iv[j]? := by
  induction n generalizing k out iv with
  | zero =>
    refine ⟨out, iv, rfl, rfl, hiv, fun j => ?_, fun j => ?_⟩
    · rw [if_neg (by omega)]
    · rw [if_neg (by omega)]
  | succ n ih =>
    have h1 : i + k < out.length := by omega
    have h2 : k < iv.length := by omega
    have h3 : k < nextIV.length := by omega
    obtain ⟨r, ivr, e1, e2, e3, e4, e5⟩ := ih (k + 1)
      (out.set (i + k) (out.getD (i + k) 0 ^^^ iv.getD k 0)) (iv.set k (nextIV.getD k 0))
      (by omega) (by rw [List.length_set]; omega) (by rw [List.length_set]; exact hiv)
    refine ⟨r, ivr, ?_, by rw [e2, List.length_set], e3, fun j => ?_, fun j => ?_⟩
    · simp only [unchainLoop, getElem?_eq_some_getD h1, getElem?_eq_some_getD h2,
        getElem?_eq_some_getD h3]
      exact e1
    · rw [e4 j, List.getElem?_set]
      by_cases hj : i + k = j
      · subst hj
        rw [if_neg (by omega), if_pos rfl, if_pos h1, if_pos (by omega),
          Nat.add_sub_cancel_left]
      · rw [if_neg hj]
        by_cases hj2 : i + (k + 1) ≤ j ∧ j < i + (k + 1) + n
        · rw [if_pos hj2, if_pos (by omega)]
          simp only [List.getD_eq_getElem?_getD, List.getElem?_set]
          rw [if_neg hj, if_neg (by omega)]
        · rw [if_neg hj2, if_neg (by omega)]
    · rw [e5 j, List.getElem?_set]
      by_cases hj : k = j
      · subst hj
        rw [if_neg (by omega), if_pos rfl, if_pos h2, if_pos (by omega),
          getElem?_eq_some_getD h3]
      · rw [if_neg hj]
        by_cases hj2 : k + 1 ≤ j ∧ j < k + 1 + n
        · rw [if_pos hj2, if_pos (by omega)]
        · rw [if_neg hj2, if_neg (by omega)]

/-- One pass of the body of the block loop of `DeCrypt_CBC` at offset `i`:
the block at `i` becomes its decryption XORed with the chaining value, the
chaining value becomes the block as it was, and nothing else changes. -/
theorem decryptChain_step {c : Cipher} (hc : c.WF) (hr : c.round + 1 < 268)
    (i : Nat) (out iv niv : List Nat) (hd : i + 8 ≤ out.length) (hiv : iv.length = 8)
    (hniv : niv.length = 8) :
    ∃ niv1 r ivr, copyLoop out i 0 8 0 niv = some niv1 ∧
      slice out (i : Int) ((i : Int) + 8) = some (block out i) ∧
      DecryptBlock c (block out i) (block out i) = some (decBytes c (block out i)) ∧
      unchainLoop niv1 i 8 0 (blit out i (decBytes c (block out i)), iv) = some (r, ivr) ∧
      niv1.length = 8 ∧ r.length = out.length ∧
      (∀ j, j < i ∨ i + 8 ≤ j → r[j]? = out[j]?) ∧
      block r i = xorBytes (decBytes c (block out i)) iv ∧
      ivr = block out i := by
  obtain ⟨niv1, a1, a2, a3⟩ := copyLoop_spec out i 0 8 0 niv (by omega) (by omega)
  have hb : (block out i).length = 8 := block_length hd
  have hdl : (decBytes c (block out i)).length = 8 := length_decBytes c hb
  have hbl : (blit out i (decBytes c (block out i))).length = out.length :=
    length_blit (by rw [hdl]; exact hd)
  obtain ⟨r, ivr, b1, b2, b3, b4, b5⟩ := unchainLoop_spec niv1 i 8 0
    (blit out i (decBytes c (block out i))) iv (by omega) (by rw [hbl]; exact hd) hiv
    (by rw [a2]; exact hniv)
  refine ⟨niv1, r, ivr, a1, slice_block hd, DecryptBlock_eq_some hc hr hb, b1,
    by rw [a2]; exact hniv, by rw [b2, hbl], ?_, ?_, ?_⟩
  · intro j hj
    rw [b4, if_neg (by omega), blit_getElem? (by rw [hdl]; exact hd), hdl]
    rcases hj with hj | hj
    · rw [if_pos hj]
    · rw [if_neg (by omega), if_neg (by omega)]
  · apply List.ext_getElem?
    intro k
    rw [block_getElem?, xorBytes_getElem?]
    by_cases hk : k < 8
    · have h1 : i + k < (blit out i (decBytes c (block out i))).length := by
        rw [hbl]; omega
      have h2 : k < iv.length := by omega
      have h3 : k < (decBytes c (block out i)).length := by omega
      rw [if_pos hk, b4, if_pos (by omega), Nat.add_sub_cancel_left,
        getElem?_eq_some_getD h2, getElem?_eq_some_getD h3]
      simp only [List.getD_eq_getElem?_getD, blit_getElem? (show i + (decBytes c
        (block out i)).length ≤ out.length by rw [hdl]; exact hd), hdl]
      rw [if_neg (by omega), if_pos (by omega), Nat.add_sub_cancel_left]
      rfl
    · have h3 : (decBytes c (block out i)).length ≤ k := by omega
      rw [if_neg hk, List.getElem?_eq_none h3]
      rfl
  · apply List.ext_getElem?
    intro k
    rw [b5, block_getElem?, a3]
    by_cases hk : k < 8
    · rw [if_pos (by omega), if_pos (by omega), if_pos hk]
      simp only [Nat.zero_add, Nat.sub_zero]
    · rw [if_neg (by omega), if_neg hk, List.getElem?_eq_none (by omega)]

/-- The block loop of `DeCrypt_CBC` on a buffer that agrees with `orig` from
offset `i` on, entered with the chaining value `orig[i-8 : i]`: it returns, the
buffer keeps its length and everything outside the `n` blocks from offset `i`,
each of these blocks becomes the decryption of the block of `orig` XORed with
the block of `orig` before it, and the chaining value left is the last block
of `orig` that was read. -/
theorem decryptChainLoop_spec {c : Cipher} (hc : c.WF) (hr : c.round + 1 < 268)
    (orig : List Nat) (n i : Nat) (hi : 8 ≤ i) (out iv niv : List Nat)
    (hd : i + 8 * n ≤ out.length) (hlen : orig.length = out.length)
    (hag : ∀ j, i ≤ j → out[j]? = orig[j]?) (hiv : iv = block orig (i - 8))
    (hniv : niv.length = 8) :
    ∃ r ivr nivr, decryptChainLoop c n i (out, iv, niv) = some (r, ivr, nivr) ∧
      r.length = out.length ∧
      (∀ j, j < i ∨ i + 8 * n ≤ j → r[j]? = out[j]?) ∧
      (∀ k, k < n → block r (i + 8 * k) =
        xorBytes (decBytes c (block orig (i + 8 * k))) (block orig (i + 8 * k - 8))) ∧
      ivr = block orig (i + 8 * n - 8) := by
  induction n generalizing i out iv niv with
  | zero =>
    exact ⟨out, iv, niv, rfl, rfl, fun _ _ => rfl, fun k hk => absurd hk (by omega), hiv⟩
  | succ n ih =>
    have hivl : iv.length = 8 := by
      rw [hiv]
      exact block_length (by omega)
    obtain ⟨niv1, o2, iv2, a1, a2, a3, a4, a5, a6, a7, a8, a9⟩ :=
      decryptChain_step hc hr i out iv niv (by omega) hivl hniv
    have hbo : block out i = block orig i := block_congr fun j h1 _ => hag j h1
    obtain ⟨r, ivr, nivr, b1, b2, b3, b4, b5⟩ := ih (i + 8) (by omega) o2 iv2 niv1
      (by rw [a6]; omega) (by rw [a6]; exact hlen)
      (fun j hj => by rw [a7 j (by omega)]; exact hag j (by omega))
      (by rw [a9, hbo, Nat.add_sub_cancel]) a5
    refine ⟨r, ivr, nivr, ?_, by rw [b2, a6], ?_, ?_, ?_⟩
    · simp only [decryptChainLoop, a1, a2, a3, a4]
      exact b1
    · intro j hj
      rw [b3 j (by omega), a7 j (by omega)]
    · intro k hk
      rcases Nat.eq_zero_or_pos k with rfl | hk0
      · have e1 : block r i = block o2 i := block_congr fun j h1 h2 => b3 j (by omega)
        simp only [Nat.mul_zero, Nat.add_zero]
        rw [e1, a8, hbo, hiv]
      · obtain ⟨k1, rfl⟩ : ∃ k1, k = k1 + 1 := ⟨k - 1, by omega⟩
        have h1 := b4 k1 (by omega)
        have e1 : i + 8 * (k1 + 1) = i + 8 + 8 * k1 := by omega
        rw [e1, h1]
    · have e1 : i + 8 * (n + 1) - 8 = i + 8 + 8 * n - 8 := by omega
      rw [b5, e1]

/-! ## Bytewise XOR -/

theorem length_xorBytes (a b : List Nat) : (xorBytes a b).length = min a.length b.length := by
  simp only [xorBytes, List.length_zipWith]

theorem xorBytes_cancel {a b : List Nat} (h : a.length = b.length) :
    xorBytes (xorBytes a b) b = a := by
  apply List.ext_getElem?
  intro k
  rw [xorBytes_getElem?, xorBytes_getElem?]
  by_cases hk : k < a.length
  · rw [getElem?_eq_some_getD hk, getElem?_eq_some_getD (show k < b.length by omega)]
    simp only [Option.some_bind, Option.map_some', Nat.xor_cancel_right]
  · rw [List.getElem?_eq_none (by omega)]
    rfl

theorem bytes_xorBytes {a b : List Nat} (ha : Bytes a) (hb : Bytes b) : Bytes (xorBytes a b) := by
  intro x hx
  obtain ⟨k, hk, rfl⟩ := List.getElem_of_mem hx
  have h1 : (xorBytes a b)[k]? = some (xorBytes a b)[k] := List.getElem?_eq_getElem hk
  rw [xorBytes_getElem?] at h1
  cases h2 : a[k]? with
  | none => rw [h2] at h1; cases h1
  | some u =>
    cases h3 : b[k]? with
    | none => rw [h2, h3] at h1; cases h1
    | some v =>
      rw [h2, h3] at h1
      simp only [Option.some_bind, Option.map_some', Option.some.injEq] at h1
      rw [← h1]
      exact Nat.xor_lt_two_pow (n := 8) (ha u (List.getElem?_mem h2)) (hb v (List.getElem?_mem h3))

theorem bytes_block {a : List Nat} (h : Bytes a) (o : Nat) : Bytes (block a o) := by
  intro x hx
  exact h x (List.mem_of_mem_drop (List.mem_of_mem_take hx))

/-! ## The scan of `findPaddingEnd` never runs out of steps -/

/-- The loop of `findPaddingEnd` entered at `i` ends within `i + 1` steps: more
steps do not change its result. -/
theorem findPaddingLoop_fuel (data : List Nat) (length : Int) (n : Nat) (i : Int)
    (extra : Nat) (h : i.toNat + 1 ≤ n) :
    findPaddingLoop data length (n + extra) i = findPaddingLoop data length n i := by
  induction n generalizing i with
  | zero => omega
  | succ n ih =>
    have e : n + 1 + extra = (n + extra) + 1 := by omega
    rw [e]
    simp only [findPaddingLoop]
    cases h1 : index data (i - 1) with
    | none => rfl
    | some x =>
      cases h2 : index data (length - 1) with
      | none => rfl
      | some y =>
        simp only []
        by_cases hxy : x = y
        · rw [if_pos hxy, if_pos hxy]
          apply ih
          have h3 : 0 ≤ i - 1 := by
            by_contra hneg
            simp only [index, hneg, if_false] at h1
            cases h1
          omega
        · rw [if_neg hxy, if_neg hxy]

/-! ## `DeCrypt_CBC` on a length that is a multiple of 8 -/

theorem blockCount_natCast {n : Nat} (h8 : n % 8 = 0) (hpos : 8 ≤ n) :
    blockCount (n : Int) = n / 8 - 1 := by
  unfold blockCount
  omega

/-- For a length `n ≥ 8` that is a multiple of 8, with `n ≤ len(data)`,
`DeCrypt_CBC` builds the buffer `B` made of the first 8 input bytes followed,
for each later block, by its decryption XORed with the input block before it,
and then applies `findPaddingEnd` and the final slice expression to `B`. -/
theorem DeCrypt_CBC_spec {c : Cipher} (hc : c.WF) (hr : c.round + 1 < 268) (data : List Nat)
    (n : Nat) (h8 : n % 8 = 0) (hpos : 8 ≤ n) (hle : n ≤ data.length) :
    ∃ B ivr, B.length = n ∧ block B 0 = block data 0 ∧
      (∀ k, 8 + 8 * k + 8 ≤ n → block B (8 + 8 * k) =
        xorBytes (decBytes c (block data (8 + 8 * k))) (block data (8 * k))) ∧
      DeCrypt_CBC c data (n : Int) =
        (findPaddingEnd B (n : Int)).bind fun e =>
          (slice B 8 (e - 8 + 8)).map fun res => (res, e - 8, { c with IV := ivr }) := by
  obtain ⟨o0, a1, a2, a3⟩ := copyLoop_spec data 0 0 n 0 (List.replicate n 0) (by omega)
    (by rw [List.length_replicate]; omega)
  rw [List.length_replicate] at a2
  have hpad : padDataDe data (n : Int) = some (o0, (n : Int)) := by
    have : ¬ ((n : Int) % 8 ≠ 0) := by omega
    simp only [padDataDe, this, if_false, make_natCast, Int.toNat_ofNat, a1]
  have hag : ∀ j, j < n → o0[j]? = data[j]? := by
    intro j hj
    rw [a3, if_pos (by omega)]
    simp only [Nat.zero_add, Nat.sub_zero]
  obtain ⟨iv0, b1, b2, b3⟩ := copyLoop_spec o0 0 0 8 0 c.IV (by omega)
    (by have := hc.iv_len; omega)
  have hiv0 : iv0 = block o0 (8 - 8) := by
    apply List.ext_getElem?
    intro k
    rw [b3, block_getElem?]
    by_cases hk : k < 8
    · rw [if_pos (by omega), if_pos hk]
      simp only [Nat.zero_add, Nat.sub_zero, Nat.sub_self]
    · rw [if_neg (by omega), if_neg hk, List.getElem?_eq_none (by rw [hc.iv_len]; omega)]
  obtain ⟨B, ivr, nivr, d1, d2, d3, d4, -⟩ := decryptChainLoop_spec hc hr o0 (n / 8 - 1) 8
    (by omega) o0 iv0 (List.replicate 8 0) (by omega) rfl (fun _ _ => rfl) hiv0
    (List.length_replicate _ _)
  refine ⟨B, ivr, by rw [d2, a2], ?_, ?_, ?_⟩
  · exact block_congr fun j h1 h2 => by rw [d3 j (by omega), hag j (by omega)]
  · intro k hk
    have e1 : block o0 (8 + 8 * k) = block data (8 + 8 * k) :=
      block_congr fun j h1 h2 => hag j (by omega)
    have e2 : block o0 (8 + 8 * k - 8) = block data (8 * k) := by
      have : 8 + 8 * k - 8 = 8 * k := by omega
      rw [this]
      exact block_congr fun j h1 h2 => hag j (by omega)
    rw [d4 k (by omega), e1, e2]
  · simp only [DeCrypt_CBC, hpad, b1, blockCount_natCast h8 hpos, d1]
    cases findPaddingEnd B (n : Int) with
    | none => rfl
    | some e =>
      simp only [Option.some_bind]
      cases slice B 8 (e - 8 + 8) <;> rfl

/-! ## The CBC round trip when the block transforms are not inverse -/

theorem slice_eq_some {a r : List Nat} {lo hi : Int} (h : slice a lo hi = some r) :
    0 ≤ lo ∧ lo ≤ hi ∧ hi ≤ a.length ∧ r = (a.drop lo.toNat).take (hi.toNat - lo.toNat) := by
  unfold slice at h
  split at h
  · rename_i hc
    exact ⟨hc.1, hc.2.1, hc.2.2, (Option.some.inj h).symm⟩
  · cases h

/-- With an even round count and an instance subkey `c.p[round+1]` that
differs from the seed entry, `EnCrypt_CBC` of a plaintext of at least 8 bytes
returns a buffer from which `DeCrypt_CBC` never returns the plaintext: the
first decrypted block already differs from the first 8 plaintext bytes. -/
theorem CBC_round_trip_ne {T : Tables} {c : Cipher} (hT : Words T.p) (hc : c.WF)
    (hr : RoundOk T c) (hev : c.round % 2 = 0)
    (hne : c.p.getD (c.round + 1) 0 ≠ T.p.getD (c.round + 1) 0)
    (rd : RandRead) (hiv : rd.iv.length = 8) (hivb : Bytes rd.iv)
    (hn : ¬ (rd.n ≠ 8 ∧ rd.err = true)) (data : List Nat) (hdb : Bytes data)
    (h8 : 8 ≤ data.length) :
    ∃ out n c1, EnCrypt_CBC T rd c data data.length = some (out, n, c1) ∧
      (out.length : Int) = n ∧
      ∀ res m c2, DeCrypt_CBC c1 out n = some (res, m, c2) → res ≠ data := by
  obtain ⟨P, out, p1, e1, e2, e3, e4, e5⟩ := EnCrypt_CBC_spec hc hr rd hiv hivb hn data
    data.length (Nat.le_refl _)
  obtain ⟨P1, q1, -, q3⟩ := padDataEn_spec data data.length (Nat.le_refl _)
  obtain rfl : P = P1 := by
    have := p1.symm.trans q1
    simp only [Option.some.injEq, Prod.mk.injEq, and_true] at this
    exact this
  have hc1 : ({ c with IV := rd.iv } : Cipher).WF := hc.with_IV hiv hivb
  refine ⟨out, _, _, e1, by rw [e2, paddedLengthEn_natCast], ?_⟩
  intro res m c2 h hres
  rw [hres] at h
  obtain ⟨B, ivr, f1, -, f3, f4⟩ := DeCrypt_CBC_spec hc1 hr.1 out
    (16 + 8 * ((data.length + 7) / 8)) (by omega) (by omega) (by omega)
  rw [paddedLengthEn_natCast, f4] at h
  cases hf : findPaddingEnd B ((16 + 8 * ((data.length + 7) / 8) : Nat) : Int) with
  | none => rw [hf] at h; cases h
  | some e =>
    rw [hf, Option.some_bind] at h
    cases hs : slice B 8 (e - 8 + 8) with
    | none => rw [hs] at h; cases h
    | some r1 =>
      rw [hs, Option.map_some', Option.some.injEq, Prod.mk.injEq] at h
      obtain ⟨hr1, -⟩ := h
      rw [hr1] at hs
      obtain ⟨-, s2, s3, s4⟩ := slice_eq_some hs
      have hlen : 8 ≤ (e - 8 + 8).toNat - (8 : Int).toNat := by
        have h1 := congrArg List.length s4
        rw [List.length_take, List.length_drop] at h1
        omega
      have hB8 : block B 8 = data.take 8 := by
        have h1 : (8 : Int).toNat = 8 := rfl
        rw [h1] at s4 hlen
        rw [s4, List.take_take, Nat.min_eq_left hlen]
        rfl
      have hP8 : block P 8 = data.take 8 := by
        apply List.ext_getElem?
        intro k
        rw [block_getElem?, List.getElem?_take]
        by_cases hk : k < 8
        · rw [if_pos hk, if_pos hk, q3, if_neg (by omega), if_pos (by omega),
            Nat.add_sub_cancel_left]
        · rw [if_neg hk, if_neg hk]
      have hB := f3 0 (by omega)
      have hO := e5 0 (by omega)
      simp only [Nat.mul_zero, Nat.add_zero] at hB hO
      rw [decBytes_congr (sameKey_with_IV c rd.iv), hO, e4, hP8, hB8] at hB
      have hX : (xorBytes (List.take 8 data) rd.iv).length = 8 := by
        rw [length_xorBytes, List.length_take, hiv]
        omega
      have hXb : Bytes (xorBytes (List.take 8 data) rd.iv) :=
        bytes_xorBytes (fun x hx => hdb x (List.mem_of_mem_take hx)) hivb
      have hD : (decBytes c (encBytes T c (xorBytes (List.take 8 data) rd.iv))).length = 8 :=
        length_decBytes c (length_encBytes T c hX)
      have h2 := congrArg (fun z => xorBytes z rd.iv) hB
      simp only [] at h2
      rw [xorBytes_cancel (by rw [hD, hiv])] at h2
      exact hne ((decBytes_encBytes_iff hT hc hev hX hXb).mp h2.symm)

/-! ## Construction: `NewCipher` and `NewSaltedCipher` -/

theorem NewCipher_ok {T : Tables} (hT : T.WF) (hp : 18 ≤ T.p.length) {key : List Nat}
    (hb : Bytes key) (h1 : 1 ≤ key.length) (h2 : key.length ≤ 56) :
    ∃ c, ExpandKey T key (initCipher T Cipher.zero 16) = some c ∧
      NewCipher T key = some (.ok c) ∧ c.WF ∧ c.round = 16 := by
  have hk : key ≠ [] := List.length_pos.mp h1
  obtain ⟨c, e1, e2, e3, -⟩ := ExpandKey_spec hT.p_words hk hb
    (initCipher_wf hT Cipher.zero_wf 16) (roundOk_init hp)
  refine ⟨c, e1, ?_, e2, e3⟩
  have : ¬ (key.length < 1 ∨ key.length > 56) := by omega
  simp only [NewCipher, this, if_false, e1, Option.map_some']

theorem NewSaltedCipher_ok {T : Tables} (hT : T.WF) (hp : 18 ≤ T.p.length)
    {key salt : List Nat} (hb : Bytes key) (hsb : Bytes salt) (h1 : key ≠ [])
    (hs : salt ≠ []) :
    ∃ c, expandKeyWithSalt T key salt (initCipher T Cipher.zero 16) = some c ∧
      NewSaltedCipher T key salt = some (.ok c) ∧ c.WF ∧ c.round = 16 := by
  obtain ⟨c, e1, e2, e3, -⟩ := expandKeyWithSalt_spec hT.p_words h1 hb hs hsb
    (initCipher_wf hT Cipher.zero_wf 16) (roundOk_init hp)
  refine ⟨c, e1, ?_, e2, e3⟩
  have hk : ¬ key.length < 1 := by
    have := List.length_pos.mpr h1
    omega
  have hs0 : ¬ salt.length = 0 := by
    have := List.length_pos.mpr hs
    omega
  simp only [NewSaltedCipher, hk, hs0, if_false, e1, Option.map_some']

/-- C5: `NewCipher` fails exactly when the key length is outside `[1, 56]`, and
the error then carries the key length; for a key of 1 to 56 bytes it returns
the cipher obtained by copying the seed tables with round count 16 and running
`ExpandKey` on it. -/
theorem NewCipher_spec (T : Tables) (hT : T.WF) (hp : 18 ≤ T.p.length) (key : List Nat)
    (hb : Bytes key) :
    ((∃ k, NewCipher T key = some (.error k)) ↔ (key.length < 1 ∨ 56 < key.length)) ∧
    (key.length < 1 ∨ 56 < key.length → NewCipher T key = some (.error (key.length : Int))) ∧
    (1 ≤ key.length ∧ key.length ≤ 56 →
      ∃ c, ExpandKey T key (initCipher T Cipher.zero 16) = some c ∧
        NewCipher T key = some (.ok c)) := by
  have hbad : key.length < 1 ∨ 56 < key.length → NewCipher T key =
      some (.error (key.length : Int)) := by
    intro h
    have h' : key.length < 1 ∨ key.length > 56 := h
    simp only [NewCipher, h', if_true]
  have hgood : 1 ≤ key.length ∧ key.length ≤ 56 →
      ∃ c, ExpandKey T key (initCipher T Cipher.zero 16) = some c ∧
        NewCipher T key = some (.ok c) := by
    rintro ⟨h1, h2⟩
    obtain ⟨c, e1, e2, -⟩ := NewCipher_ok hT hp hb h1 h2
    exact ⟨c, e1, e2⟩
  refine ⟨⟨?_, fun h => ⟨_, hbad h⟩⟩, hbad, hgood⟩
  rintro ⟨k, hk⟩
  by_contra hn
  obtain ⟨c, -, e2⟩ := hgood (by omega)
  rw [e2] at hk
  cases hk

/-- C5, witness: the 8-byte key `00 01 .. 07` with the Blowfish seed tables. -/
theorem NewCipher_spec_witness :
    blowfishTables.WF ∧ 18 ≤ blowfishTables.p.length ∧ Bytes [0, 1, 2, 3, 4, 5, 6, 7] ∧
    ∃ c, ExpandKey blowfishTables [0, 1, 2, 3, 4, 5, 6, 7]
        (initCipher blowfishTables Cipher.zero 16) = some c ∧
      NewCipher blowfishTables [0, 1, 2, 3, 4, 5, 6, 7] = some (.ok c) :=
  ⟨blowfishTables_wf, blowfishTables_p_length, by decide,
    (NewCipher_spec blowfishTables blowfishTables_wf blowfishTables_p_length
      [0, 1, 2, 3, 4, 5, 6, 7] (by decide)).2.2 (by decide)⟩

/-- C6: with an empty salt `NewSaltedCipher` returns what `NewCipher` returns,
so it fails for an empty key and for a key of more than 56 bytes; with a
non-empty salt it fails exactly when the key is empty, with the
key-size error carrying 0, and for every non-empty key, of any length, it
returns the cipher obtained by running the salted schedule on the copied seed
tables. -/
theorem NewSaltedCipher_spec (T : Tables) (hT : T.WF) (hp : 18 ≤ T.p.length)
    (key salt : List Nat) (hb : Bytes key) (hsb : Bytes salt) :
    (salt = [] → NewSaltedCipher T key salt = NewCipher T key ∧
      (key.length < 1 ∨ 56 < key.length →
        NewSaltedCipher T key salt = some (.error (key.length : Int)))) ∧
    (salt ≠ [] →
      ((∃ k, NewSaltedCipher T key salt = some (.error k)) ↔ key = []) ∧
      (key = [] → NewSaltedCipher T key salt = some (.error 0)) ∧
      (key ≠ [] →
        ∃ c, expandKeyWithSalt T key salt (initCipher T Cipher.zero 16) = some c ∧
          NewSaltedCipher T key salt = some (.ok c))) := by
  constructor
  · intro h
    subst h
    have h0 : NewSaltedCipher T key [] = NewCipher T key := by
      simp only [NewSaltedCipher, List.length_nil, if_true]
    refine ⟨h0, fun hk => ?_⟩
    have hk1 : key.length < 1 ∨ key.length > 56 := hk
    rw [h0]
    simp only [NewCipher, hk1, if_true]
  · intro hs
    have hs0 : ¬ salt.length = 0 := by
      have := List.length_pos.mpr hs
      omega
    have hbad : key = [] → NewSaltedCipher T key salt = some (.error 0) := by
      intro h
      subst h
      simp only [NewSaltedCipher, hs0, if_false, List.length_nil, Nat.lt_one_iff, if_true]
      rfl
    have hgood : key ≠ [] →
        ∃ c, expandKeyWithSalt T key salt (initCipher T Cipher.zero 16) = some c ∧
          NewSaltedCipher T key salt = some (.ok c) := by
      intro h1
      obtain ⟨c, e1, e2, -⟩ := NewSaltedCipher_ok hT hp hb hsb h1 hs
      exact ⟨c, e1, e2⟩
    refine ⟨⟨?_, fun h => ⟨_, hbad h⟩⟩, hbad, hgood⟩
    rintro ⟨k, hk⟩
    by_contra hn
    obtain ⟨c, -, e2⟩ := hgood hn
    rw [e2] at hk
    cases hk

/-- C6, witness: a 60-byte key, longer than `NewCipher` accepts, with a
3-byte salt and the Blowfish seed tables. -/
theorem NewSaltedCipher_spec_witness :
    blowfishTables.WF ∧ 18 ≤ blowfishTables.p.length ∧ Bytes (List.replicate 60 7) ∧
    Bytes [1, 2, 3] ∧
    ∃ c, expandKeyWithSalt blowfishTables (List.replicate 60 7) [1, 2, 3]
        (initCipher blowfishTables Cipher.zero 16) = some c ∧
      NewSaltedCipher blowfishTables (List.replicate 60 7) [1, 2, 3] = some (.ok c) :=
  ⟨blowfishTables_wf, blowfishTables_p_length, by decide, by decide,
    ((NewSaltedCipher_spec blowfishTables blowfishTables_wf blowfishTables_p_length
      (List.replicate 60 7) [1, 2, 3] (by decide) (by decide)).2 (by decide)).2.2
      (by decide)⟩

/-! ## Block encryption is a bijection -/

theorem bijectiveOnWords_of_wf {T : Tables} {c : Cipher} (hT : Words T.p) (hc : c.WF)
    (hr : RoundOk T c) : BijectiveOnWords T c := by
  refine ⟨?_, ?_, ?_⟩
  · intro l r hl hr1
    have h := encryptVal_words hT hc hl hr1
    exact ⟨_, _, h.1, h.2, encryptBlock_eq_some hc hr l r⟩
  · intro l r l1 r1 h
    rw [encryptBlock_eq_some hc hr, encryptBlock_eq_some hc hr] at h
    exact encryptVal_injective T c (Option.some.inj h)
  · intro a b ha hb
    have h := encryptPre_words hT hc ha hb
    refine ⟨_, _, h.1, h.2, ?_⟩
    rw [encryptBlock_eq_some hc hr, encryptVal_encryptPre]

/-- C3: for every cipher state with an even round count whose subkey indices
exist (`round + 1` below 268 and below the length of the seed array),
`encryptBlock` is a bijection on pairs of 32-bit words: distinct pairs have
distinct results and every word pair is the result for some word pair; in
particular this holds for the cipher that `NewCipher` builds for any key of 1
to 56 bytes.  The proof does not use that the round count is even. -/
theorem encryptBlock_bijective (T : Tables) (hT : T.WF) :
    (∀ c : Cipher, c.WF → RoundOk T c → c.round % 2 = 0 → BijectiveOnWords T c) ∧
    (∀ key : List Nat, Bytes key → 1 ≤ key.length → key.length ≤ 56 → 18 ≤ T.p.length →
      ∃ c, NewCipher T key = some (.ok c) ∧ c.round % 2 = 0 ∧ BijectiveOnWords T c) := by
  constructor
  · intro c hc hr _
    exact bijectiveOnWords_of_wf hT.p_words hc hr
  · intro key hb h1 h2 hp
    obtain ⟨c, -, e, hc, h16⟩ := NewCipher_ok hT hp hb h1 h2
    have hr : RoundOk T c := by
      unfold RoundOk
      rw [h16]
      exact ⟨by norm_num, by omega⟩
    exact ⟨c, e, by rw [h16], bijectiveOnWords_of_wf hT.p_words hc hr⟩

/-- C3, witness: the Blowfish seed tables, with the cipher that `NewCipher`
builds for the key `00 01 .. 07`. -/
theorem encryptBlock_bijective_witness :
    blowfishTables.WF ∧
    ∃ c, NewCipher blowfishTables [0, 1, 2, 3, 4, 5, 6, 7] = some (.ok c) ∧
      c.round % 2 = 0 ∧ BijectiveOnWords blowfishTables c :=
  ⟨blowfishTables_wf, (encryptBlock_bijective blowfishTables blowfishTables_wf).2
    [0, 1, 2, 3, 4, 5, 6, 7] (by decide) (by decide) (by decide) (by decide)⟩

/-! ## Padding -/

/-- C8, counterexample: for a 5-byte plaintext the stated rule gives a padded
region of 8 bytes, a buffer of `8 + 8 * ⌈5 / 8⌉ = 16` bytes; `padDataEn`
returns 24 bytes. -/
theorem padDataEn_region_counterexample :
    padDataEn [1, 2, 3, 4, 5] 5 =
      some ([0, 0, 0, 0, 0, 0, 0, 0, 1, 2, 3, 4, 5, 201, 201, 201, 201, 201, 201, 201, 201,
        201, 201, 201], 24) ∧
    ¬ ∃ out n, padDataEn [1, 2, 3, 4, 5] 5 = some (out, n) ∧
      (out.length : Int) = 8 + 8 * ((5 + 7) / 8) := by
  have h : padDataEn [1, 2, 3, 4, 5] 5 =
      some ([0, 0, 0, 0, 0, 0, 0, 0, 1, 2, 3, 4, 5, 201, 201, 201, 201, 201, 201, 201, 201,
        201, 201, 201], 24) := by decide
  refine ⟨h, ?_⟩
  rintro ⟨out, n, h1, h2⟩
  rw [h] at h1
  simp only [Option.some.injEq, Prod.mk.injEq] at h1
  obtain ⟨rfl, -⟩ := h1
  revert h2
  decide

/-- C8, amended: for every length `≥ 0`, whenever `padDataEn` returns, the
returned length is the length of the buffer, which is `16 + length` when
`length` is a multiple of 8 and otherwise `16 + 8 * ⌈length / 8⌉`, the next
multiple of 8 above `length` plus one more block after the 8-byte IV slot;
and `padDataEn` returns whenever `length ≤ len(data)`. -/
theorem padDataEn_size (data : List Nat) (length : Int) (h0 : 0 ≤ length) :
    (∀ out n, padDataEn data length = some (out, n) →
      (out.length : Int) = n ∧
      (length % 8 = 0 → (out.length : Int) - 8 = length + 8) ∧
      (length % 8 ≠ 0 → (out.length : Int) - 8 = 8 * ((length + 7) / 8) + 8) ∧
      (out.length : Int) = 16 + 8 * ((length + 7) / 8)) ∧
    (length ≤ data.length → ∃ out n, padDataEn data length = some (out, n)) := by
  constructor
  · intro out n h
    obtain ⟨e1, e2⟩ := padDataEn_length_of_some h
    rw [e2, e1]
    unfold paddedLengthEn
    refine ⟨rfl, ?_, ?_, ?_⟩
    · intro hm
      rw [if_pos hm]
      omega
    · intro hm
      rw [if_neg hm]
      omega
    · split <;> omega
  · intro h1
    obtain ⟨m, rfl⟩ := Int.eq_ofNat_of_zero_le h0
    obtain ⟨out, e, -⟩ := padDataEn_spec data m (by exact_mod_cast h1)
    exact ⟨out, _, e⟩

/-- C8, witness: a 5-byte plaintext. -/
theorem padDataEn_size_witness :
    (0 : Int) ≤ 5 ∧
    ∃ out n, padDataEn [1, 2, 3, 4, 5] 5 = some (out, n) ∧ (out.length : Int) = n ∧
      (out.length : Int) = 16 + 8 * ((5 + 7) / 8) := by
  obtain ⟨out, n, h⟩ := (padDataEn_size [1, 2, 3, 4, 5] 5 (by decide)).2 (by decide)
  have h1 := (padDataEn_size [1, 2, 3, 4, 5] 5 (by decide)).1 out n h
  exact ⟨by decide, out, n, h, h1.1, h1.2.2.2⟩

/-- C9: for `1 ≤ length ≤ len(data)` the buffer returned by `padDataEn` holds
`data[0 .. length-1]` at offsets `8 .. 8+length-1`, and every byte from offset
`8+length` to the end is `data[length-1] ^ 0xCC`; there is at least one such
byte. -/
theorem padDataEn_content (data : List Nat) (length : Int) (h1 : 1 ≤ length)
    (h2 : length ≤ data.length) :
    ∃ out n, padDataEn data length = some (out, n) ∧
      (∀ i : Nat, (i : Int) < length → out[8 + i]? = data[i]?) ∧
      (∀ j : Nat, 8 + length ≤ j → j < out.length →
        out[j]? = some (data.getD (length.toNat - 1) 0 ^^^ 0xCC)) ∧
      8 + length < out.length := by
  obtain ⟨m, rfl⟩ := Int.eq_ofNat_of_zero_le (by omega : 0 ≤ length)
  have hm1 : 1 ≤ m := by exact_mod_cast h1
  have hm2 : m ≤ data.length := by exact_mod_cast h2
  obtain ⟨out, e, e1, e2⟩ := padDataEn_spec data m hm2
  refine ⟨out, _, e, ?_, ?_, ?_⟩
  · intro i hi
    have hi' : i < m := by exact_mod_cast hi
    rw [e2, if_neg (by omega), if_pos (by omega), Nat.add_sub_cancel_left]
  · intro j hj1 hj2
    have hj1' : 8 + m ≤ j := by exact_mod_cast hj1
    rw [e2, if_neg (by omega), if_neg (by omega), if_pos (by omega)]
    congr 2
    simp only [List.getD_eq_getElem?_getD, List.getElem?_append, List.length_replicate,
      Int.toNat_ofNat]
    rw [if_neg (by omega)]
    congr 2
  · rw [e1]
    push_cast
    omega

/-- C9, witness: a 5-byte plaintext. -/
theorem padDataEn_content_witness :
    (1 : Int) ≤ 5 ∧ (5 : Int) ≤ ([1, 2, 3, 4, 5] : List Nat).length ∧
    ∃ out n, padDataEn [1, 2, 3, 4, 5] 5 = some (out, n) ∧
      (∀ i : Nat, (i : Int) < 5 → out[8 + i]? = ([1, 2, 3, 4, 5] : List Nat)[i]?) ∧
      (∀ j : Nat, 8 + (5 : Int) ≤ j → j < out.length →
        out[j]? = some (([1, 2, 3, 4, 5] : List Nat).getD ((5 : Int).toNat - 1) 0 ^^^ 0xCC)) ∧
      8 + (5 : Int) < out.length :=
  ⟨by decide, by decide, padDataEn_content [1, 2, 3, 4, 5] 5 (by decide) (by decide)⟩

/-! ## Malformed ciphertext and the random source -/

/-- C7 (what the code does): for an input length that is not a multiple of 8,
`padDataDe` returns the `nil` slice and `DeCrypt_CBC` then reads `outData[0]`
to load the IV, so the call stops with an index-out-of-range panic instead of
returning `(nil, 0)`; no block is transformed. -/
theorem DeCrypt_CBC_ragged_panics (c : Cipher) (data : List Nat) (length : Int)
    (h : length % 8 ≠ 0) :
    padDataDe data length = some ([], 0) ∧ DeCrypt_CBC c data length = none := by
  have h1 : padDataDe data length = some ([], 0) := by
    simp only [padDataDe, h, ne_eq, not_false_eq_true, if_true]
  refine ⟨h1, ?_⟩
  simp only [DeCrypt_CBC, h1]
  rfl

/-- C7, witness: a 5-byte input. -/
theorem DeCrypt_CBC_ragged_panics_witness :
    (5 : Int) % 8 ≠ 0 ∧ padDataDe [1, 2, 3, 4, 5] 5 = some ([], 0) ∧
      DeCrypt_CBC Cipher.zero [1, 2, 3, 4, 5] 5 = none :=
  ⟨by decide, DeCrypt_CBC_ragged_panics Cipher.zero [1, 2, 3, 4, 5] 5 (by decide)⟩

/-- After a read that is not rejected, `EnCrypt_CBC` returns: the buffer is that
of `padDataEn` in length, its first block is the IV, and every later block is
`EncryptBlock` of the padded plaintext block XOR the output block before it. -/
theorem EnCrypt_CBC_proceeds {T : Tables} {c : Cipher} (hc : c.WF) (hr : RoundOk T c)
    (rd : RandRead) (hiv : rd.iv.length = 8) (hivb : Bytes rd.iv)
    (hn : ¬ (rd.n ≠ 8 ∧ rd.err = true)) (data : List Nat) (m : Nat) (hm : m ≤ data.length) :
    ∃ P O, padDataEn data (m : Int) = some (P, paddedLengthEn (m : Int)) ∧
      EnCrypt_CBC T rd c data (m : Int) =
        some (O, paddedLengthEn (m : Int), { c with IV := rd.iv }) ∧
      (O.length : Int) = paddedLengthEn (m : Int) ∧ P.length = O.length ∧
      block O 0 = rd.iv ∧
      ∀ k, 1 ≤ k → 8 * k < O.length →
        EncryptBlock T { c with IV := rd.iv }
          (xorBytes (block P (8 * k)) (block O (8 * (k - 1))))
          (xorBytes (block P (8 * k)) (block O (8 * (k - 1)))) = some (block O (8 * k)) := by
  obtain ⟨P, O, e1, e2, e3, e4, e5, e6⟩ := EnCrypt_CBC_spec hc hr rd hiv hivb hn data m hm
  refine ⟨P, O, e1, e2, ?_, e4, e5, ?_⟩
  · rw [paddedLengthEn_natCast, e3]
  · intro k hk1 hk2
    obtain ⟨j, rfl⟩ : ∃ j, k = j + 1 := ⟨k - 1, by omega⟩
    have hj : j < 1 + (m + 7) / 8 := by omega
    have hlen : (xorBytes (block P (8 * (j + 1))) (block O (8 * (j + 1 - 1)))).length = 8 := by
      simp only [xorBytes, List.length_zipWith]
      rw [block_length (by omega), block_length (by omega)]
      rfl
    have hc1 : ({ c with IV := rd.iv } : Cipher).WF := hc.with_IV hiv hivb
    have hr1 : RoundOk T { c with IV := rd.iv } := hr
    rw [EncryptBlock_eq_some hc1 hr1 hlen, encBytes_congr T (sameKey_with_IV c rd.iv)]
    have e7 : 8 * (j + 1) = 8 + 8 * j := by omega
    have e8 : j + 1 - 1 = j := by omega
    rw [e7, e8, e6 j hj]

/-- C10: `EnCrypt_CBC` returns the unmodified input `(data, length)` exactly
when the random read returns a count other than 8 together with an error, for
every input.  In every other case, a short read without an error included, on
a well-formed cipher whose subkey indices exist and for `0 ≤ length ≤ len
data`, the call returns a buffer: its length is the returned length
`paddedLengthEn length`, a multiple of 8 above `length + 8`, the same as that
of the buffer of `padDataEn`; its first block is the IV that was read; and
every later block is `EncryptBlock` of the padded plaintext block XOR the
output block before it. -/
theorem EnCrypt_CBC_abort_iff (T : Tables) (rd : RandRead) (c : Cipher) (data : List Nat)
    (length : Int) :
    ((∃ c1, EnCrypt_CBC T rd c data length = some (data, length, c1)) ↔
      (rd.n ≠ 8 ∧ rd.err = true)) ∧
    (c.WF → RoundOk T c → rd.iv.length = 8 → Bytes rd.iv → 0 ≤ length →
      length ≤ data.length → ¬ (rd.n ≠ 8 ∧ rd.err = true) →
      ∃ P O n c1, padDataEn data length = some (P, n) ∧
        EnCrypt_CBC T rd c data length = some (O, n, c1) ∧
        c1 = { c with IV := rd.iv } ∧ n = paddedLengthEn length ∧
        length + 8 < n ∧ n % 8 = 0 ∧ (O.length : Int) = n ∧ P.length = O.length ∧
        block O 0 = rd.iv ∧
        ∀ k, 1 ≤ k → 8 * k < O.length →
          EncryptBlock T c1 (xorBytes (block P (8 * k)) (block O (8 * (k - 1))))
            (xorBytes (block P (8 * k)) (block O (8 * (k - 1)))) = some (block O (8 * k))) := by
  have hproceed : ¬ (rd.n ≠ 8 ∧ rd.err = true) →
      ∀ out n c1, EnCrypt_CBC T rd c data length = some (out, n, c1) →
        ∃ out0, padDataEn data length = some (out0, n) ∧ length + 8 < n := by
    intro hn out n c1 h
    simp only [EnCrypt_CBC, hn, if_false] at h
    cases h0 : padDataEn data length with
    | none => rw [h0] at h; cases h
    | some x =>
      obtain ⟨out0, m⟩ := x
      rw [h0] at h
      simp only [] at h
      cases h1 : copyLoop rd.iv 0 0 8 0 out0 with
      | none => rw [h1] at h; cases h
      | some out1 =>
        rw [h1] at h
        simp only [] at h
        cases h2 : encryptChainLoop T { c with IV := rd.iv } (blockCount m) 8 out1 with
        | none => rw [h2] at h; cases h
        | some out2 =>
          rw [h2] at h
          simp only [Option.some.injEq, Prod.mk.injEq] at h
          obtain ⟨-, rfl, -⟩ := h
          refine ⟨out0, rfl, ?_⟩
          rw [(padDataEn_length_of_some h0).1]
          exact paddedLengthEn_gt length
  refine ⟨⟨?_, ?_⟩, ?_⟩
  · rintro ⟨c1, h⟩
    by_contra hn
    obtain ⟨out0, -, h2⟩ := hproceed hn _ _ _ h
    omega
  · intro h
    refine ⟨{ c with IV := rd.iv }, ?_⟩
    unfold EnCrypt_CBC
    rw [if_pos h]
  · intro hc hr hiv hivb h0 hle hn
    obtain ⟨m, rfl⟩ := Int.eq_ofNat_of_zero_le h0
    have hm : m ≤ data.length := by exact_mod_cast hle
    obtain ⟨P, O, e1, e2, e3, e4, e5, e6⟩ := EnCrypt_CBC_proceeds hc hr rd hiv hivb hn data m hm
    refine ⟨P, O, _, _, e1, e2, rfl, rfl, paddedLengthEn_gt _, ?_, e3, e4, e5, e6⟩
    rw [paddedLengthEn_natCast]
    omega

/-- C10, witness: a short read (3 bytes reported) without an error, on the
unkeyed cipher state made of the copied Blowfish seed tables, with the IV
contents `09 08 .. 02` and the plaintext `01 02 03`: a buffer is returned. -/
theorem EnCrypt_CBC_abort_iff_witness :
    ∃ P O n c1, padDataEn [1, 2, 3] 3 = some (P, n) ∧
      EnCrypt_CBC blowfishTables ⟨[9, 8, 7, 6, 5, 4, 3, 2], 3, false⟩
        (initCipher blowfishTables Cipher.zero 16) [1, 2, 3] 3 = some (O, n, c1) ∧
      c1 = { initCipher blowfishTables Cipher.zero 16 with IV := [9, 8, 7, 6, 5, 4, 3, 2] } ∧
      n = paddedLengthEn 3 ∧ (3 : Int) + 8 < n ∧ n % 8 = 0 ∧ (O.length : Int) = n ∧
      P.length = O.length ∧ block O 0 = [9, 8, 7, 6, 5, 4, 3, 2] ∧
      ∀ k, 1 ≤ k → 8 * k < O.length →
        EncryptBlock blowfishTables c1 (xorBytes (block P (8 * k)) (block O (8 * (k - 1))))
          (xorBytes (block P (8 * k)) (block O (8 * (k - 1)))) = some (block O (8 * k)) :=
  (EnCrypt_CBC_abort_iff blowfishTables ⟨[9, 8, 7, 6, 5, 4, 3, 2], 3, false⟩
    (initCipher blowfishTables Cipher.zero 16) [1, 2, 3] 3).2
    (initCipher_wf blowfishTables_wf Cipher.zero_wf 16) (roundOk_init blowfishTables_p_length)
    (by decide) (by decide) (by decide) (by decide) (by decide)

/-! ## The layout of the CBC ciphertext -/

/-- C4: for `0 ≤ length ≤ len(data)`, when the 8 IV bytes are obtained,
`EnCrypt_CBC` returns a buffer whose length is the returned length, a multiple
of 8 and at least 16, and whose first 8 bytes are the IV, the value left in
the IV field of the cipher. -/
theorem EnCrypt_CBC_layout (T : Tables) (c : Cipher) (hc : c.WF) (hr : RoundOk T c)
    (rd : RandRead) (hiv : rd.iv.length = 8) (hivb : Bytes rd.iv) (hn : rd.n = 8)
    (data : List Nat) (length : Int) (h0 : 0 ≤ length) (h1 : length ≤ data.length) :
    ∃ out n c1, EnCrypt_CBC T rd c data length = some (out, n, c1) ∧
      (out.length : Int) = n ∧ n % 8 = 0 ∧ 16 ≤ n ∧ out.take 8 = rd.iv ∧ c1.IV = rd.iv := by
  obtain ⟨m, rfl⟩ := Int.eq_ofNat_of_zero_le h0
  obtain ⟨P, out, -, e1, e2, -, e3, -⟩ := EnCrypt_CBC_spec hc hr rd hiv hivb
    (by rw [hn]; simp) data m (by exact_mod_cast h1)
  refine ⟨out, _, _, e1, ?_, ?_, ?_, ?_, rfl⟩
  · rw [e2, paddedLengthEn_natCast]
  · rw [paddedLengthEn_natCast]
    omega
  · rw [paddedLengthEn_natCast]
    omega
  · rw [← e3]
    rfl

/-- C4, witness: a 5-byte plaintext gives 24 bytes, under the cipher state
made of the copied Blowfish seed tables with round count 16. -/
theorem EnCrypt_CBC_layout_witness :
    (initCipher blowfishTables Cipher.zero 16).WF ∧
    RoundOk blowfishTables (initCipher blowfishTables Cipher.zero 16) ∧
    ∃ out c1, EnCrypt_CBC blowfishTables ⟨[1, 2, 3, 4, 5, 6, 7, 8], 8, false⟩
        (initCipher blowfishTables Cipher.zero 16) [10, 20, 30, 40, 50] 5 = some (out, 24, c1) ∧
      out.length = 24 ∧ out.take 8 = [1, 2, 3, 4, 5, 6, 7, 8] ∧
      c1.IV = [1, 2, 3, 4, 5, 6, 7, 8] := by
  have hc := initCipher_wf blowfishTables_wf Cipher.zero_wf 16
  have hr := roundOk_init blowfishTables_p_length
  obtain ⟨out, n, c1, e1, e2, -, -, e3, e4⟩ := EnCrypt_CBC_layout blowfishTables _ hc hr
    ⟨[1, 2, 3, 4, 5, 6, 7, 8], 8, false⟩ rfl (by decide) rfl [10, 20, 30, 40, 50] 5
    (by decide) (by decide)
  obtain ⟨-, out1, -, f1, -⟩ := EnCrypt_CBC_spec hc hr ⟨[1, 2, 3, 4, 5, 6, 7, 8], 8, false⟩
    rfl (by decide) (by decide) [10, 20, 30, 40, 50] 5 (by decide)
  have hn : n = 24 := by
    have h := e1.symm.trans f1
    simp only [Option.some.injEq, Prod.mk.injEq] at h
    rw [h.2.1]
    decide
  subst hn
  exact ⟨hc, hr, out, c1, e1, by exact_mod_cast e2, e3, e4⟩

/-! ## The block round trip under the ciphers that the constructors build -/

set_option maxRecDepth 1000000 in
/-- The subkey `c.p[17]` after the subkey phase of `ExpandKey` for the key
`00 01 .. 07` on the copied Blowfish seed tables. -/
theorem expandKey_subkey_eval :
    (xorKeyLoop [0, 1, 2, 3, 4, 5, 6, 7] 18 0 0
        (initCipher blowfishTables Cipher.zero 16).p).map (fun a =>
      lookup (fillSubkeysFast blowfishTables 9 0 0 0
        { initCipher blowfishTables Cipher.zero 16 with p := a }).p 17) = some 1184044519 := by
  decide!

set_option maxRecDepth 1000000 in
/-- The subkey `c.p[17]` after the subkey phase of `expandKeyWithSalt` for the
key `00 01 .. 07` and the salt `01 02 03` on the copied Blowfish seed tables. -/
theorem expandKeyWithSalt_subkey_eval :
    (xorKeyLoop [0, 1, 2, 3, 4, 5, 6, 7] 18 0 0
        (initCipher blowfishTables Cipher.zero 16).p).map (fun a =>
      lookup (saltedFillSubkeysFast blowfishTables [1, 2, 3] 9 0 0 0 0
        { initCipher blowfishTables Cipher.zero 16 with p := a }).p 17) = some 4290633959 := by
  decide!

/-- The cipher that `NewCipher` builds for the key `00 01 .. 07` from the
Blowfish seed tables has `c.p[17] = 0x469315e7`; the seed entry is
`p[17] = 0x8979fb1b`. -/
theorem NewCipher_subkey_mismatch :
    ∃ c, NewCipher blowfishTables [0, 1, 2, 3, 4, 5, 6, 7] = some (.ok c) ∧ c.WF ∧
      RoundOk blowfishTables c ∧ c.round % 2 = 0 ∧
      c.p.getD (c.round + 1) 0 ≠ blowfishTables.p.getD (c.round + 1) 0 := by
  have hk : ([0, 1, 2, 3, 4, 5, 6, 7] : List Nat) ≠ [] := by decide
  have hb : Bytes [0, 1, 2, 3, 4, 5, 6, 7] := by decide
  have hi := initCipher_wf blowfishTables_wf Cipher.zero_wf 16
  have hri := roundOk_init blowfishTables_p_length
  obtain ⟨c, e1, e2, e3, -, a, lr0, c0, f1, f2, f3⟩ := ExpandKey_spec
    blowfishTables_wf.p_words hk hb hi hri
  obtain ⟨a1, x1, x2, x3⟩ := xorKeyLoop_spec 18 0 0 (initCipher blowfishTables Cipher.zero 16).p
    (List.length_pos.mpr hk) (by have := hi.p_len; omega)
  obtain rfl : a = a1 := Option.some.inj (f1.symm.trans x1)
  have hca := hi.with_p x2 (x3 hb hi.p_words)
  have h16 : c.round = 16 := e3
  have hf := fillLoop_subkeys_eq blowfishTables_wf.p_words 9 0 0 0 hca (roundOk_with_p hri a)
    wordPair_zero f2
  have hv := expandKey_subkey_eval
  rw [f1, Option.map_some', Option.some.injEq, lookup_eq_getD, ← hf, ← f3] at hv
  refine ⟨c, ?_, e2, ?_, ?_, ?_⟩
  · simp only [NewCipher, e1]
    rfl
  · unfold RoundOk
    rw [h16]
    exact ⟨by norm_num, by decide⟩
  · rw [h16]
  · rw [h16, hv]
    decide

/-- The cipher that `NewSaltedCipher` builds for the key `00 01 .. 07` and the
salt `01 02 03` from the Blowfish seed tables has `c.p[17] = 0xffbde0e7`. -/
theorem NewSaltedCipher_subkey_mismatch :
    ∃ c, NewSaltedCipher blowfishTables [0, 1, 2, 3, 4, 5, 6, 7] [1, 2, 3] = some (.ok c) ∧
      c.WF ∧ RoundOk blowfishTables c ∧ c.round % 2 = 0 ∧
      c.p.getD (c.round + 1) 0 ≠ blowfishTables.p.getD (c.round + 1) 0 := by
  have hk : ([0, 1, 2, 3, 4, 5, 6, 7] : List Nat) ≠ [] := by decide
  have hb : Bytes [0, 1, 2, 3, 4, 5, 6, 7] := by decide
  have hs : ([1, 2, 3] : List Nat) ≠ [] := by decide
  have hsb : Bytes [1, 2, 3] := by decide
  have hi := initCipher_wf blowfishTables_wf Cipher.zero_wf 16
  have hri := roundOk_init blowfishTables_p_length
  obtain ⟨c, e1, e2, e3, -, a, jlr0, c0, f1, f2, f3⟩ := expandKeyWithSalt_spec
    blowfishTables_wf.p_words hk hb hs hsb hi hri
  obtain ⟨a1, x1, x2, x3⟩ := xorKeyLoop_spec 18 0 0 (initCipher blowfishTables Cipher.zero 16).p
    (List.length_pos.mpr hk) (by have := hi.p_len; omega)
  obtain rfl : a = a1 := Option.some.inj (f1.symm.trans x1)
  have hca := hi.with_p x2 (x3 hb hi.p_words)
  have h16 : c.round = 16 := e3
  have hf := saltedFillLoop_subkeys_eq blowfishTables_wf.p_words hsb 9 0 0 0 0 hca
    (roundOk_with_p hri a) wordPair_zero (show 0 < ([1, 2, 3] : List Nat).length by decide) f2
  have hv := expandKeyWithSalt_subkey_eval
  rw [f1, Option.map_some', Option.some.injEq, lookup_eq_getD, ← hf, ← f3] at hv
  refine ⟨c, ?_, e2, ?_, ?_, ?_⟩
  · simp only [NewSaltedCipher, e1]
    rfl
  · unfold RoundOk
    rw [h16]
    exact ⟨by norm_num, by decide⟩
  · rw [h16]
  · rw [h16, hv]
    decide

/-- C1 (what the code does): under the cipher that `NewCipher` builds for the
key `00 01 .. 07`, and under the cipher that `NewSaltedCipher` builds for the
same key and the salt `01 02 03` (Blowfish seed tables), `EncryptBlock` on the
block of 8 zero bytes returns a block whose `DecryptBlock` is not the zero
block.  `encryptBlock` XORs the final right word with the package-level seed
entry `p[17]`, `decryptBlock` removes the scheduled subkey `c.p[17]`, and the
schedule has overwritten `c.p[17]`. -/
theorem block_round_trip_fails :
    (∃ c e d, NewCipher blowfishTables [0, 1, 2, 3, 4, 5, 6, 7] = some (.ok c) ∧
      EncryptBlock blowfishTables c [0, 0, 0, 0, 0, 0, 0, 0] [0, 0, 0, 0, 0, 0, 0, 0] = some e ∧
      DecryptBlock c e e = some d ∧ d ≠ [0, 0, 0, 0, 0, 0, 0, 0]) ∧
    (∃ c e d, NewSaltedCipher blowfishTables [0, 1, 2, 3, 4, 5, 6, 7] [1, 2, 3] =
        some (.ok c) ∧
      EncryptBlock blowfishTables c [0, 0, 0, 0, 0, 0, 0, 0] [0, 0, 0, 0, 0, 0, 0, 0] = some e ∧
      DecryptBlock c e e = some d ∧ d ≠ [0, 0, 0, 0, 0, 0, 0, 0]) := by
  constructor
  · obtain ⟨c, h1, h2, h3, h4, h5⟩ := NewCipher_subkey_mismatch
    obtain ⟨e, d, g1, g2, g3⟩ := DecryptBlock_EncryptBlock_ne blowfishTables_wf.p_words h2 h3
      h4 h5 (show ([0, 0, 0, 0, 0, 0, 0, 0] : List Nat).length = 8 from rfl) (by decide)
    exact ⟨c, e, d, h1, g1, g2, g3⟩
  · obtain ⟨c, h1, h2, h3, h4, h5⟩ := NewSaltedCipher_subkey_mismatch
    obtain ⟨e, d, g1, g2, g3⟩ := DecryptBlock_EncryptBlock_ne blowfishTables_wf.p_words h2 h3
      h4 h5 (show ([0, 0, 0, 0, 0, 0, 0, 0] : List Nat).length = 8 from rfl) (by decide)
    exact ⟨c, e, d, h1, g1, g2, g3⟩

/-! ## The CBC round trip under the cipher that `NewCipher` builds -/

/-- C2 (what the code does): under the cipher that `NewCipher` builds for the
key `00 01 .. 07` (Blowfish seed tables), with the IV `01 02 .. 08`,
`EnCrypt_CBC` of the 8-byte plaintext `0a 14 1e 28 32 3c 46 50` returns a
24-byte buffer, and `DeCrypt_CBC` of that buffer does not return the
plaintext: whatever it returns differs from it.  The plaintext does not end
in its padding marker (`0x50 ^ 0xCC = 0x9c`). -/
theorem CBC_round_trip_fails :
    ∃ c out c1, NewCipher blowfishTables [0, 1, 2, 3, 4, 5, 6, 7] = some (.ok c) ∧
      EnCrypt_CBC blowfishTables ⟨[1, 2, 3, 4, 5, 6, 7, 8], 8, false⟩ c
        [10, 20, 30, 40, 50, 60, 70, 80] 8 = some (out, 24, c1) ∧
      out.length = 24 ∧
      ∀ res m c2, DeCrypt_CBC c1 out 24 = some (res, m, c2) →
        res ≠ [10, 20, 30, 40, 50, 60, 70, 80] := by
  obtain ⟨c, h1, h2, h3, h4, h5⟩ := NewCipher_subkey_mismatch
  obtain ⟨out, n, c1, g1, g2, g3⟩ := CBC_round_trip_ne blowfishTables_wf.p_words h2 h3 h4 h5
    ⟨[1, 2, 3, 4, 5, 6, 7, 8], 8, false⟩ rfl (by decide) (by decide)
    [10, 20, 30, 40, 50, 60, 70, 80] (by decide) (by decide)
  obtain ⟨-, out1, -, f1, -⟩ := EnCrypt_CBC_spec h2 h3 ⟨[1, 2, 3, 4, 5, 6, 7, 8], 8, false⟩
    rfl (by decide) (by decide) [10, 20, 30, 40, 50, 60, 70, 80] 8 (by decide)
  have hn : n = 24 := by
    have h := g1.symm.trans f1
    simp only [Option.some.injEq, Prod.mk.injEq] at h
    rw [h.2.1]
    decide
  subst hn
  exact ⟨c, out, c1, h1, g1, by exact_mod_cast g2, g3⟩

/-! ## The block transforms against their specification -/

theorem referenceRounds_two (c : Cipher) (k i : Nat) (s : Nat × Nat) :
    referenceRounds c (2 * k) (i + 1) s.swap = (encIter c k i s).swap := by
  induction k generalizing i s with
  | zero => rfl
  | succ k ih =>
    obtain ⟨xl, xr⟩ := s
    have e : 2 * (k + 1) = 2 * k + 1 + 1 := by omega
    rw [e]
    simp only [referenceRounds, Prod.swap, encIter, encStep]
    exact ih (i + 2)
      (roundVal xl (roundVal xr xl (i + 1) c) (i + 2) c, roundVal xr xl (i + 1) c)

theorem xor_right_cancel {a x y : Nat} (h : a ^^^ x = a ^^^ y) : x = y := by
  have := congrArg (fun z => a ^^^ z) h
  simpa [Nat.xor_cancel_left] using this

/-- For an even round count the reference encrypt transform is the value of
`encryptBlock` with the seed entry `p[round+1]` replaced by the instance
subkey `c.p[round+1]`; the two agree exactly when these entries are equal. -/
theorem encryptVal_eq_reference_iff (T : Tables) (c : Cipher) (hev : c.round % 2 = 0)
    (l r : Nat) :
    encryptVal T l r c = encryptReference l r c ↔
      T.p.getD (c.round + 1) 0 = c.p.getD (c.round + 1) 0 := by
  have hK : c.round = 2 * ((c.round + 1) / 2) := by omega
  have h := referenceRounds_two c ((c.round + 1) / 2) 0 (l ^^^ c.p.getD 0 0, r)
  rw [← hK] at h
  simp only [Prod.swap, Nat.zero_add] at h
  simp only [encryptVal, encryptReference, h, Prod.mk.injEq, and_true]
  exact ⟨xor_right_cancel, fun e => by rw [e]⟩

/-- Encrypting the decryption of `(l, r)`, for an even round count. -/
theorem encryptVal_decryptVal (T : Tables) (c : Cipher) (hev : c.round % 2 = 0) (l r : Nat) :
    encryptVal T (decryptVal l r c).1 (decryptVal l r c).2 c =
      (l ^^^ c.p.getD (c.round + 1) 0 ^^^ T.p.getD (c.round + 1) 0, r) := by
  have hK : 0 + 2 * ((c.round + 1) / 2) = c.round := by omega
  have h := encIter_decIter c ((c.round + 1) / 2) 0 (l ^^^ c.p.getD (c.round + 1) 0, r)
  rw [hK] at h
  simp only [Prod.swap] at h
  simp only [encryptVal, decryptVal, Nat.xor_cancel_right, h]

theorem getD_copy {dst src : List Nat} {i : Nat} (h1 : i < src.length) (h2 : i < dst.length) :
    (copy dst src).getD i 0 = src.getD i 0 := by
  have h3 : i < (List.take dst.length src).length := by
    rw [List.length_take]
    omega
  simp only [copy, List.getD_eq_getElem?_getD, List.getElem?_append, h3, if_true,
    List.getElem?_take, h2]

/-- The cipher state made of the copied seed tables keeps the seed entry
`p[round+1]` as its subkey. -/
theorem initCipher_subkey {T : Tables} (hp : 18 ≤ T.p.length) :
    (initCipher T Cipher.zero 16).p.getD ((initCipher T Cipher.zero 16).round + 1) 0 =
      T.p.getD ((initCipher T Cipher.zero 16).round + 1) 0 := by
  show (copy Cipher.zero.p T.p).getD (16 + 1) 0 = T.p.getD (16 + 1) 0
  exact getD_copy (by omega) (by rw [Cipher.zero_wf.p_len]; norm_num)

theorem byte_and (x : Nat) : x &&& 0xFF = byte x :=
  Nat.and_pow_two_sub_one_eq_mod x 8

/-- C12: for every cipher state, all 32-bit `a` and `b` and every subkey index
`n` of `c.p`, `round(a, b, n, c)` is
`((((s0[b>>24] + s1[(b>>16)&0xFF]) ^ s2[(b>>8)&0xFF]) + s3[b&0xFF]) ^ c.p[n]) ^ a`
with both additions taken modulo `2^32`, and it is a 32-bit word. -/
theorem round_grouping (c : Cipher) (hc : c.WF) (a b n : Nat) (ha : a < 2 ^ 32)
    (hb : b < 2 ^ 32) (hn : n < 268) :
    round a b n c =
      some ((((((c.s0.getD (b >>> 24) 0 + c.s1.getD ((b >>> 16) &&& 0xFF) 0) % 2 ^ 32) ^^^
        c.s2.getD ((b >>> 8) &&& 0xFF) 0) + c.s3.getD (b &&& 0xFF) 0) % 2 ^ 32 ^^^
          c.p.getD n 0) ^^^ a) ∧
    (((((c.s0.getD (b >>> 24) 0 + c.s1.getD ((b >>> 16) &&& 0xFF) 0) % 2 ^ 32) ^^^
        c.s2.getD ((b >>> 8) &&& 0xFF) 0) + c.s3.getD (b &&& 0xFF) 0) % 2 ^ 32 ^^^
          c.p.getD n 0) ^^^ a < 2 ^ 32 := by
  have h24 : byte (b >>> 24) = b >>> 24 := by
    unfold byte
    omega
  have hv : roundVal a b n c =
      (((((c.s0.getD (b >>> 24) 0 + c.s1.getD ((b >>> 16) &&& 0xFF) 0) % 2 ^ 32) ^^^
        c.s2.getD ((b >>> 8) &&& 0xFF) 0) + c.s3.getD (b &&& 0xFF) 0) % 2 ^ 32 ^^^
          c.p.getD n 0) ^^^ a := by
    simp only [roundVal, feistel, byte_and, h24]
  rw [← hv]
  exact ⟨round_eq_some hc a b hn, roundVal_lt hc ha b n⟩

/-- C12, witness: round 3 on the words `5` and `0x01020304` under the cipher
state made of the copied Blowfish seed tables. -/
theorem round_grouping_witness :
    (initCipher blowfishTables Cipher.zero 16).WF ∧ (5 : Nat) < 2 ^ 32 ∧
    (0x01020304 : Nat) < 2 ^ 32 ∧ (3 : Nat) < 268 ∧
    ∃ v, round 5 0x01020304 3 (initCipher blowfishTables Cipher.zero 16) = some v ∧
      v < 2 ^ 32 :=
  ⟨initCipher_wf blowfishTables_wf Cipher.zero_wf 16, by norm_num, by norm_num, by norm_num,
    _, round_grouping (initCipher blowfishTables Cipher.zero 16)
      (initCipher_wf blowfishTables_wf Cipher.zero_wf 16) 5 0x01020304 3 (by norm_num)
      (by norm_num) (by norm_num)⟩

/-- C16: for every cipher state with an even round count whose subkey indices
exist, decrypting the encryption of a word pair gives the pair back exactly
when the instance subkey `c.p[round+1]` is the seed entry `p[round+1]`; when
they differ the round trip fails for every pair; and encrypting the decryption
of `(l, r)` gives `(l ^ c.p[round+1] ^ p[round+1], r)`. -/
theorem block_round_trip_iff (T : Tables) (c : Cipher) (hc : c.WF) (hr : RoundOk T c)
    (hev : c.round % 2 = 0) :
    (∀ l r, (encryptBlock T l r c).bind (fun e => decryptBlock e.1 e.2 c) = some (l, r) ↔
      c.p.getD (c.round + 1) 0 = T.p.getD (c.round + 1) 0) ∧
    (c.p.getD (c.round + 1) 0 ≠ T.p.getD (c.round + 1) 0 →
      ∀ l r, ∃ d, (encryptBlock T l r c).bind (fun e => decryptBlock e.1 e.2 c) = some d ∧
        d ≠ (l, r)) ∧
    (∀ l r, (decryptBlock l r c).bind (fun d => encryptBlock T d.1 d.2 c) =
      some (l ^^^ c.p.getD (c.round + 1) 0 ^^^ T.p.getD (c.round + 1) 0, r)) := by
  have h1 : ∀ l r, (encryptBlock T l r c).bind (fun e => decryptBlock e.1 e.2 c) =
      some (decryptVal (encryptVal T l r c).1 (encryptVal T l r c).2 c) := by
    intro l r
    rw [encryptBlock_eq_some hc hr, Option.some_bind, decryptBlock_eq_some hc hr.1]
  refine ⟨fun l r => ?_, fun hne l r => ⟨_, h1 l r, ?_⟩, fun l r => ?_⟩
  · rw [h1, Option.some.injEq]
    exact decryptVal_encryptVal_iff T c hev l r
  · intro h
    exact hne ((decryptVal_encryptVal_iff T c hev l r).mp h)
  · rw [decryptBlock_eq_some hc hr.1, Option.some_bind, encryptBlock_eq_some hc hr,
      encryptVal_decryptVal T c hev]

/-- C16, witness: the cipher state made of the copied Blowfish seed tables
with round count 16, whose subkey `c.p[17]` is the seed entry: the block
`(1, 2)` is decrypted back. -/
theorem block_round_trip_iff_witness :
    (initCipher blowfishTables Cipher.zero 16).WF ∧
    RoundOk blowfishTables (initCipher blowfishTables Cipher.zero 16) ∧
    (initCipher blowfishTables Cipher.zero 16).round % 2 = 0 ∧
    (encryptBlock blowfishTables 1 2 (initCipher blowfishTables Cipher.zero 16)).bind
      (fun e => decryptBlock e.1 e.2 (initCipher blowfishTables Cipher.zero 16)) =
        some (1, 2) :=
  ⟨initCipher_wf blowfishTables_wf Cipher.zero_wf 16, roundOk_init blowfishTables_p_length,
    rfl,
    ((block_round_trip_iff blowfishTables (initCipher blowfishTables Cipher.zero 16)
      (initCipher_wf blowfishTables_wf Cipher.zero_wf 16)
      (roundOk_init blowfishTables_p_length) rfl).1 1 2).mpr
      (initCipher_subkey blowfishTables_p_length)⟩

/-- C11 (what the code does): under the cipher that `NewCipher` builds for the
key `00 01 .. 07` (Blowfish seed tables) the result of `encryptBlock` is, for
every word pair, different from the reference computation of the
specification: the final right word is XORed with the package-level seed entry
`p[17]` and not with the instance subkey `c.p[17]`. -/
theorem encryptBlock_ne_reference :
    ∃ c, NewCipher blowfishTables [0, 1, 2, 3, 4, 5, 6, 7] = some (.ok c) ∧
      c.round % 2 = 0 ∧
      ∀ l r, ∃ e, encryptBlock blowfishTables l r c = some e ∧ e ≠ encryptReference l r c ∧
        e = ((encryptReference l r c).1 ^^^ c.p.getD (c.round + 1) 0 ^^^
          blowfishTables.p.getD (c.round + 1) 0, (encryptReference l r c).2) := by
  obtain ⟨c, h1, h2, h3, h4, h5⟩ := NewCipher_subkey_mismatch
  refine ⟨c, h1, h4, fun l r => ⟨_, encryptBlock_eq_some h2 h3 l r, ?_, ?_⟩⟩
  · intro h
    exact h5 ((encryptVal_eq_reference_iff blowfishTables c h4 l r).mp h).symm
  · have hK : c.round = 2 * ((c.round + 1) / 2) := by omega
    have h := referenceRounds_two c ((c.round + 1) / 2) 0 (l ^^^ c.p.getD 0 0, r)
    rw [← hK] at h
    simp only [Prod.swap, Nat.zero_add] at h
    simp only [encryptVal, encryptReference, h, Nat.xor_cancel_right]

/-! ## The plain schedule is the salted schedule with an all-zero salt -/

theorem getNextWordLoop_zero {b : List Nat} (hz : ∀ x ∈ b, x = 0) (k j : Nat)
    (hj : j < b.length) :
    ∃ j1, j1 < b.length ∧ getNextWordLoop b k 0 j = some (0, j1) := by
  induction k generalizing j with
  | zero => exact ⟨j, hj, rfl⟩
  | succ k ih =>
    have hj1 : (if j + 1 ≥ b.length then 0 else j + 1) < b.length := by
      split <;> omega
    obtain ⟨j1, h1, h2⟩ := ih _ hj1
    refine ⟨j1, h1, ?_⟩
    have hx : b[j] = 0 := hz _ (List.getElem_mem hj)
    simp only [getNextWordLoop, List.getElem?_eq_getElem hj, hx]
    exact h2

theorem getNextWord_zero {b : List Nat} (hz : ∀ x ∈ b, x = 0) (j : Nat) (hj : j < b.length) :
    ∃ j1, j1 < b.length ∧ getNextWord b j = some (0, j1) :=
  getNextWordLoop_zero hz 4 j hj

/-- With an all-zero salt a filling loop of `expandKeyWithSalt` is the filling
loop of `ExpandKey`, next to a salt cursor that depends only on the number of
iterations. -/
theorem saltedFillLoop_zero (T : Tables) {salt : List Nat} (hz : ∀ x ∈ salt, x = 0)
    (f : Field) (k j : Nat) (hj : j < salt.length) :
    ∃ j1, j1 < salt.length ∧ ∀ i lr c, saltedFillLoop T salt f k i j lr c =
      (fillLoop T f k i lr c).map fun x => ((j1, x.1), x.2) := by
  induction k generalizing j with
  | zero =>
    refine ⟨j, hj, fun i lr c => ?_⟩
    obtain ⟨l, r⟩ := lr
    rfl
  | succ k ih =>
    obtain ⟨j1, g1, g2⟩ := getNextWord_zero hz j hj
    obtain ⟨j2, g3, g4⟩ := getNextWord_zero hz j1 g1
    obtain ⟨j3, g5, g6⟩ := ih j2 g3
    refine ⟨j3, g5, fun i lr c => ?_⟩
    obtain ⟨l, r⟩ := lr
    simp only [saltedFillLoop, fillLoop, g2, g4, Nat.xor_zero]
    cases encryptBlock T l r c with
    | none => rfl
    | some e =>
      obtain ⟨l1, r1⟩ := e
      simp only []
      cases store (c.get f) i l1 with
      | none => rfl
      | some a1 =>
        simp only []
        cases store a1 (i + 1) r1 with
        | none => rfl
        | some a2 => exact g6 _ _ _

/-- C15: for every non-empty salt made of zero bytes, every key and every
cipher state, `expandKeyWithSalt(key, salt, c)` and `ExpandKey(key, c)` have the
same outcome, the same state of the subkey array and of the four substitution
tables; for a non-empty key and a well-formed cipher state both return. -/
theorem expandKeyWithSalt_zero_salt (T : Tables) (key salt : List Nat) (c : Cipher)
    (hk : key ≠ []) (hs : salt ≠ []) (hz : ∀ x ∈ salt, x = 0) :
    expandKeyWithSalt T key salt c = ExpandKey T key c ∧
    (Words T.p → Bytes key → c.WF → RoundOk T c →
      ∃ c1, ExpandKey T key c = some c1 ∧ expandKeyWithSalt T key salt c = some c1) := by
  have hs0 : 0 < salt.length := List.length_pos.mpr hs
  have main : expandKeyWithSalt T key salt c = ExpandKey T key c := by
    obtain ⟨j0, b0, e0⟩ := saltedFillLoop_zero T hz .p 9 0 hs0
    obtain ⟨j1, b1, e1⟩ := saltedFillLoop_zero T hz .s0 128 j0 b0
    obtain ⟨j2, b2, e2⟩ := saltedFillLoop_zero T hz .s1 128 j1 b1
    obtain ⟨j3, b3, e3⟩ := saltedFillLoop_zero T hz .s2 128 j2 b2
    obtain ⟨j4, -, e4⟩ := saltedFillLoop_zero T hz .s3 128 j3 b3
    unfold expandKeyWithSalt ExpandKey
    cases xorKeyLoop key 18 0 0 c.p with
    | none => rfl
    | some a =>
      simp only [e0]
      cases fillLoop T .p 9 0 (0, 0) { c with p := a } with
      | none => rfl
      | some x0 =>
        simp only [Option.map_some', e1]
        cases fillLoop T .s0 128 0 x0.1 x0.2 with
        | none => rfl
        | some x1 =>
          simp only [Option.map_some', e2]
          cases fillLoop T .s1 128 0 x1.1 x1.2 with
          | none => rfl
          | some x2 =>
            simp only [Option.map_some', e3]
            cases fillLoop T .s2 128 0 x2.1 x2.2 with
            | none => rfl
            | some x3 =>
              simp only [Option.map_some', e4]
              cases fillLoop T .s3 128 0 x3.1 x3.2 with
              | none => rfl
              | some x4 => rfl
  refine ⟨main, fun hT hb hc hr => ?_⟩
  obtain ⟨c1, h1, -⟩ := ExpandKey_spec hT hk hb hc hr
  exact ⟨c1, h1, main.trans h1⟩

/-- C15, witness: the key `00 01 .. 07` and the salt `00 00 00`. -/
theorem expandKeyWithSalt_zero_salt_witness :
    ([0, 1, 2, 3, 4, 5, 6, 7] : List Nat) ≠ [] ∧ ([0, 0, 0] : List Nat) ≠ [] ∧
    (∀ x ∈ ([0, 0, 0] : List Nat), x = 0) ∧
    expandKeyWithSalt blowfishTables [0, 1, 2, 3, 4, 5, 6, 7] [0, 0, 0]
        (initCipher blowfishTables Cipher.zero 16) =
      ExpandKey blowfishTables [0, 1, 2, 3, 4, 5, 6, 7]
        (initCipher blowfishTables Cipher.zero 16) :=
  ⟨by decide, by decide, by decide,
    (expandKeyWithSalt_zero_salt blowfishTables [0, 1, 2, 3, 4, 5, 6, 7] [0, 0, 0]
      (initCipher blowfishTables Cipher.zero 16) (by decide) (by decide) (by decide)).1⟩

/-! ## A key and its repetition -/

theorem getNextWordLoop_double {K : List Nat} (k w j1 j2 : Nat) (hj1 : j1 < K.length)
    (hrel : j2 = j1 ∨ j2 = j1 + K.length) :
    ∃ v i1 i2, getNextWordLoop K k w j1 = some (v, i1) ∧
      getNextWordLoop (K ++ K) k w j2 = some (v, i2) ∧ i1 < K.length ∧
      (i2 = i1 ∨ i2 = i1 + K.length) := by
  induction k generalizing w j1 j2 with
  | zero => exact ⟨w, j1, j2, rfl, rfl, hj1, hrel⟩
  | succ k ih =>
    have hx : (K ++ K)[j2]? = some K[j1] := by
      rw [List.getElem?_append]
      rcases hrel with h | h
      · rw [if_pos (by omega), h, List.getElem?_eq_getElem hj1]
      · rw [if_neg (by omega), h, Nat.add_sub_cancel, List.getElem?_eq_getElem hj1]
    have hn1 : (if j1 + 1 ≥ K.length then 0 else j1 + 1) < K.length := by
      split <;> omega
    have hrel1 : (if j2 + 1 ≥ (K ++ K).length then 0 else j2 + 1) =
          (if j1 + 1 ≥ K.length then 0 else j1 + 1) ∨
        (if j2 + 1 ≥ (K ++ K).length then 0 else j2 + 1) =
          (if j1 + 1 ≥ K.length then 0 else j1 + 1) + K.length := by
      rw [List.length_append]
      rcases hrel with h | h <;> split <;> split <;> omega
    obtain ⟨v, i1, i2, e1, e2, e3, e4⟩ := ih (((w <<< 8) % 2 ^ 32) ||| K[j1]) _ _ hn1 hrel1
    refine ⟨v, i1, i2, ?_, ?_, e3, e4⟩
    · simp only [getNextWordLoop, List.getElem?_eq_getElem hj1]
      exact e1
    · simp only [getNextWordLoop, hx]
      exact e2

theorem xorKeyLoop_double {K : List Nat} (k i j1 j2 : Nat) (a : List Nat)
    (hj1 : j1 < K.length) (hrel : j2 = j1 ∨ j2 = j1 + K.length) :
    xorKeyLoop (K ++ K) k i j2 a = xorKeyLoop K k i j1 a := by
  induction k generalizing i j1 j2 a with
  | zero => rfl
  | succ k ih =>
    obtain ⟨v, i1, i2, e1, e2, e3, e4⟩ := getNextWordLoop_double 4 0 j1 j2 hj1 hrel
    have g1 : getNextWord K j1 = some (v, i1) := e1
    have g2 : getNextWord (K ++ K) j2 = some (v, i2) := e2
    simp only [xorKeyLoop, g1, g2]
    cases a[i]? with
    | none => rfl
    | some x => exact ih (i + 1) i1 i2 _ e3 e4

/-- C20: for every non-empty key `K`, every seed table and every cipher state,
`ExpandKey(K ++ K, c)` has the same outcome as `ExpandKey(K, c)`; hence for `K`
of 1 to 28 bytes `NewCipher(K ++ K)` and `NewCipher(K)` return the same
cipher, with identical subkey arrays and substitution tables. -/
theorem ExpandKey_double (K : List Nat) (hK : K ≠ []) :
    (∀ T c, ExpandKey T (K ++ K) c = ExpandKey T K c) ∧
    (K.length ≤ 28 → ∀ T, NewCipher T (K ++ K) = NewCipher T K ∧
      (T.WF → 18 ≤ T.p.length → Bytes K →
        ∃ c, NewCipher T K = some (.ok c) ∧ NewCipher T (K ++ K) = some (.ok c))) := by
  have h0 : 0 < K.length := List.length_pos.mpr hK
  have main : ∀ T c, ExpandKey T (K ++ K) c = ExpandKey T K c := by
    intro T c
    unfold ExpandKey
    rw [xorKeyLoop_double 18 0 0 0 c.p h0 (Or.inl rfl)]
  refine ⟨main, fun h28 T => ?_⟩
  have hnew : NewCipher T (K ++ K) = NewCipher T K := by
    have c1 : ¬ ((K ++ K).length < 1 ∨ (K ++ K).length > 56) := by
      rw [List.length_append]
      omega
    have c2 : ¬ (K.length < 1 ∨ K.length > 56) := by omega
    simp only [NewCipher, c1, c2, if_false, main]
  refine ⟨hnew, fun hT hp hb => ?_⟩
  obtain ⟨c, -, e, -⟩ := NewCipher_ok hT hp hb h0 (by omega)
  exact ⟨c, e, hnew.trans e⟩

/-- C20, witness: the key `00 01 .. 07` and the 16-byte key made of it
twice. -/
theorem ExpandKey_double_witness :
    ([0, 1, 2, 3, 4, 5, 6, 7] : List Nat) ≠ [] ∧
    NewCipher blowfishTables ([0, 1, 2, 3, 4, 5, 6, 7] ++ [0, 1, 2, 3, 4, 5, 6, 7]) =
      NewCipher blowfishTables [0, 1, 2, 3, 4, 5, 6, 7] :=
  ⟨by decide, ((ExpandKey_double [0, 1, 2, 3, 4, 5, 6, 7] (by decide)).2 (by decide)
    blowfishTables).1⟩

/-! ## The backward scan of `findPaddingEnd` -/

theorem findPaddingLoop_skip {B : List Nat} {L : Nat} (hL1 : 1 ≤ L) (hLB : L ≤ B.length)
    (i d fuel : Nat) (hm : i + d ≤ L)
    (hrun : ∀ j, i ≤ j → j < i + d → B.getD j 0 = B.getD (L - 1) 0) :
    findPaddingLoop B (L : Int) (fuel + d) ((i + d : Nat) : Int) =
      findPaddingLoop B (L : Int) fuel (i : Int) := by
  induction d with
  | zero => rfl
  | succ d ih =>
    have e1 : ((i + (d + 1) : Nat) : Int) - 1 = ((i + d : Nat) : Int) := by omega
    have e2 : (L : Int) - 1 = ((L - 1 : Nat) : Int) := by omega
    have h1 : i + d < B.length := by omega
    have h2 : L - 1 < B.length := by omega
    have e3 : fuel + (d + 1) = (fuel + d) + 1 := by omega
    rw [e3]
    simp only [findPaddingLoop, e1, e2, index_natCast, getElem?_eq_some_getD h1,
      getElem?_eq_some_getD h2]
    rw [if_pos (hrun (i + d) (by omega) (by omega))]
    exact ih (by omega) fun j h3 h4 => hrun j h3 (by omega)

/-- The scan stops just after the last byte that differs from the final
byte. -/
theorem findPaddingEnd_of_last_ne {B : List Nat} {L : Nat} (hL1 : 1 ≤ L) (hLB : L ≤ B.length)
    (i : Nat) (hi : i < L) (hne : B.getD i 0 ≠ B.getD (L - 1) 0)
    (hrun : ∀ j, i < j → j < L → B.getD j 0 = B.getD (L - 1) 0) :
    findPaddingEnd B (L : Int) = some ((i + 1 : Nat) : Int) := by
  have e0 : (L : Int).toNat + 1 = (i + 1 + 1) + (L - (i + 1)) := by omega
  have e1 : (L : Int) = ((i + 1 + (L - (i + 1)) : Nat) : Int) := by omega
  unfold findPaddingEnd
  rw [e0]
  conv_lhs => rw [e1]
  have hs := findPaddingLoop_skip hL1 hLB (i + 1) (L - (i + 1)) (i + 1 + 1) (by omega)
    (fun j h3 h4 => hrun j (by omega) (by omega))
  have e4 : ((i + 1 + (L - (i + 1)) : Nat) : Int) = (L : Int) := by omega
  rw [e4] at hs ⊢
  rw [hs]
  have e2 : ((i + 1 : Nat) : Int) - 1 = (i : Int) := by omega
  have e3 : (L : Int) - 1 = ((L - 1 : Nat) : Int) := by omega
  have h1 : i < B.length := by omega
  have h2 : L - 1 < B.length := by omega
  simp only [findPaddingLoop, e2, e3, index_natCast, getElem?_eq_some_getD h1,
    getElem?_eq_some_getD h2]
  rw [if_neg hne]

/-- When every byte equals the final byte the scan leaves the slice: the index
`-1` is read. -/
theorem findPaddingEnd_of_all_eq {B : List Nat} {L : Nat} (hL1 : 1 ≤ L) (hLB : L ≤ B.length)
    (hall : ∀ j, j < L → B.getD j 0 = B.getD (L - 1) 0) :
    findPaddingEnd B (L : Int) = none := by
  have e0 : (L : Int).toNat + 1 = 1 + L := by omega
  have hs := findPaddingLoop_skip hL1 hLB 0 L 1 (by omega) (fun j _ h4 => hall j (by omega))
  unfold findPaddingEnd
  rw [e0]
  have e4 : ((0 + L : Nat) : Int) = (L : Int) := by omega
  rw [e4] at hs
  rw [hs]
  rfl

theorem exists_last_of_exists (Q : Nat → Prop) (n : Nat) (h : ∃ j, j < n ∧ Q j) :
    ∃ i, i < n ∧ Q i ∧ ∀ j, i < j → j < n → ¬ Q j := by
  induction n with
  | zero =>
    obtain ⟨j, hj, -⟩ := h
    omega
  | succ n ih =>
    by_cases hq : Q n
    · exact ⟨n, by omega, hq, fun j h1 h2 => by omega⟩
    · obtain ⟨j, hj, hQ⟩ := h
      have hjn : j < n := by
        rcases Nat.lt_or_ge j n with h1 | h1
        · exact h1
        · have : j = n := by omega
          rw [this] at hQ
          exact absurd hQ hq
      obtain ⟨i, h1, h2, h3⟩ := ih ⟨j, hjn, hQ⟩
      refine ⟨i, by omega, h2, fun k h4 h5 => ?_⟩
      rcases Nat.lt_or_ge k n with h6 | h6
      · exact h3 k h4 h6
      · have : k = n := by omega
        rw [this]
        exact hq

/-- The two outcomes of `findPaddingEnd` on a buffer of at least `L ≥ 1` bytes:
it fails when all of the first `L` bytes are equal, and otherwise returns the
offset after the last byte that differs from the byte at `L - 1`. -/
theorem findPaddingEnd_cases {B : List Nat} {L : Nat} (hL1 : 1 ≤ L) (hLB : L ≤ B.length) :
    ((∀ j, j < L → B.getD j 0 = B.getD (L - 1) 0) ∧ findPaddingEnd B (L : Int) = none) ∨
    ∃ i, i < L ∧ B.getD i 0 ≠ B.getD (L - 1) 0 ∧
      (∀ j, i < j → j < L → B.getD j 0 = B.getD (L - 1) 0) ∧
      findPaddingEnd B (L : Int) = some ((i + 1 : Nat) : Int) := by
  by_cases hall : ∀ j, j < L → B.getD j 0 = B.getD (L - 1) 0
  · exact Or.inl ⟨hall, findPaddingEnd_of_all_eq hL1 hLB hall⟩
  · right
    have hex : ∃ j, j < L ∧ B.getD j 0 ≠ B.getD (L - 1) 0 := by
      by_contra hno
      apply hall
      intro j hj
      by_contra hne
      exact hno ⟨j, hj, hne⟩
    obtain ⟨i, h1, h2, h3⟩ := exists_last_of_exists _ L hex
    have hrun : ∀ j, i < j → j < L → B.getD j 0 = B.getD (L - 1) 0 := by
      intro j h4 h5
      by_contra hne
      exact h3 j h4 h5 hne
    exact ⟨i, h1, h2, hrun, findPaddingEnd_of_last_ne hL1 hLB i h1 h2 hrun⟩

theorem xor_cc_ne (x : Nat) : x ≠ x ^^^ 0xCC := by
  intro h
  have h1 : x ^^^ 0 = x ^^^ 0xCC := by rw [Nat.xor_zero]; exact h
  have h2 := xor_right_cancel h1
  omega

/-! ## Chaining on encrypt and the padding boundary -/

theorem pad_source_byte (data : List Nat) (m : Nat) (h1 : 1 ≤ m) :
    (List.replicate 8 0 ++ data).getD (m + 7) 0 = data.getD (m - 1) 0 := by
  rw [List.getD_eq_getElem?_getD, List.getD_eq_getElem?_getD,
    List.getElem?_append_right (by rw [List.length_replicate]; omega), List.length_replicate]
  have : m + 7 - 8 = m - 1 := by omega
  rw [this]

theorem getD_of_getElem? {a : List Nat} {j x : Nat} (h : a[j]? = some x) : a.getD j 0 = x := by
  rw [List.getD_eq_getElem?_getD, h]
  rfl

/-- C13: when the random read is not rejected, with `P` the buffer of
`padDataEn data length` and `O` the buffer returned by `EnCrypt_CBC`, the first
block of `O` is the IV and, for every block index `k ≥ 1` with `8k < len O`,
`EncryptBlock` applied in place to the bytewise XOR of `P[8k..8k+8)` with the
preceding output block `O[8(k-1)..8k)` yields the block `O[8k..8k+8)`. -/
theorem EnCrypt_CBC_chaining (T : Tables) (c : Cipher) (hc : c.WF) (hr : RoundOk T c)
    (rd : RandRead) (hiv : rd.iv.length = 8) (hivb : Bytes rd.iv)
    (hn : ¬ (rd.n ≠ 8 ∧ rd.err = true)) (data : List Nat) (m : Nat) (hm : m ≤ data.length) :
    ∃ P n O c1, padDataEn data (m : Int) = some (P, n) ∧
      EnCrypt_CBC T rd c data (m : Int) = some (O, n, c1) ∧
      c1 = { c with IV := rd.iv } ∧ P.length = O.length ∧ block O 0 = rd.iv ∧
      ∀ k, 1 ≤ k → 8 * k < O.length →
        EncryptBlock T c1 (xorBytes (block P (8 * k)) (block O (8 * (k - 1))))
          (xorBytes (block P (8 * k)) (block O (8 * (k - 1)))) = some (block O (8 * k)) := by
  obtain ⟨P, O, e1, e2, e3, e4, e5, e6⟩ := EnCrypt_CBC_spec hc hr rd hiv hivb hn data m hm
  refine ⟨P, _, O, _, e1, e2, rfl, e4, e5, ?_⟩
  intro k hk1 hk2
  obtain ⟨j, rfl⟩ : ∃ j, k = j + 1 := ⟨k - 1, by omega⟩
  have hj : j < 1 + (m + 7) / 8 := by omega
  have hlen : (xorBytes (block P (8 * (j + 1))) (block O (8 * (j + 1 - 1)))).length = 8 := by
    rw [length_xorBytes, block_length (by omega), block_length (by omega)]
    rfl
  have hc1 : ({ c with IV := rd.iv } : Cipher).WF := hc.with_IV hiv hivb
  have hr1 : RoundOk T { c with IV := rd.iv } := hr
  rw [EncryptBlock_eq_some hc1 hr1 hlen, encBytes_congr T (sameKey_with_IV c rd.iv)]
  have e7 : 8 * (j + 1) = 8 + 8 * j := by omega
  have e8 : j + 1 - 1 = j := by omega
  rw [e7, e8, e6 j hj]

/-- C13, witness: the unkeyed cipher state made of the copied Blowfish seed
tables, the IV `09 08 .. 02` and the plaintext `01 02 03`. -/
theorem EnCrypt_CBC_chaining_witness :
    ∃ P n O c1, padDataEn [1, 2, 3] ((3 : Nat) : Int) = some (P, n) ∧
      EnCrypt_CBC blowfishTables ⟨[9, 8, 7, 6, 5, 4, 3, 2], 8, false⟩
        (initCipher blowfishTables Cipher.zero 16) [1, 2, 3] ((3 : Nat) : Int) = some (O, n, c1) ∧
      c1 = { initCipher blowfishTables Cipher.zero 16 with IV := [9, 8, 7, 6, 5, 4, 3, 2] } ∧
      P.length = O.length ∧ block O 0 = [9, 8, 7, 6, 5, 4, 3, 2] ∧
      ∀ k, 1 ≤ k → 8 * k < O.length →
        EncryptBlock blowfishTables c1 (xorBytes (block P (8 * k)) (block O (8 * (k - 1))))
          (xorBytes (block P (8 * k)) (block O (8 * (k - 1)))) = some (block O (8 * k)) :=
  EnCrypt_CBC_chaining blowfishTables (initCipher blowfishTables Cipher.zero 16)
    (initCipher_wf blowfishTables_wf Cipher.zero_wf 16) (roundOk_init blowfishTables_p_length)
    ⟨[9, 8, 7, 6, 5, 4, 3, 2], 8, false⟩ (by decide) (by decide) (by decide) [1, 2, 3] 3
    (by decide)

/-- C14: for every `data` and every `length` with `1 ≤ length ≤ len data`,
`padDataEn data length` returns a buffer and a length on which `findPaddingEnd`
returns exactly `8 + length`, whatever the bytes of `data` are. -/
theorem findPaddingEnd_padDataEn (data : List Nat) (m : Nat) (h1 : 1 ≤ m)
    (h2 : m ≤ data.length) :
    ∃ out n, padDataEn data (m : Int) = some (out, n) ∧
      findPaddingEnd out n = some (8 + (m : Int)) := by
  obtain ⟨out, e1, e2, e3⟩ := padDataEn_spec data m h2
  refine ⟨out, _, e1, ?_⟩
  rw [paddedLengthEn_natCast]
  have hq : m ≤ 8 * ((m + 7) / 8) := by omega
  have hlast : out.getD (16 + 8 * ((m + 7) / 8) - 1) 0 = data.getD (m - 1) 0 ^^^ 0xCC := by
    apply getD_of_getElem?
    rw [e3, if_neg (by omega), if_neg (by omega), if_pos (by omega), pad_source_byte data m h1]
  have hres := findPaddingEnd_of_last_ne (B := out) (L := 16 + 8 * ((m + 7) / 8)) (by omega)
    (by omega) (7 + m) (by omega)
    (by
      rw [hlast]
      have : out.getD (7 + m) 0 = data.getD (m - 1) 0 := by
        apply getD_of_getElem?
        rw [e3, if_neg (by omega), if_pos (by omega)]
        have : 7 + m - 8 = m - 1 := by omega
        rw [this]
        exact getElem?_eq_some_getD (by omega)
      rw [this]
      exact xor_cc_ne _)
    (by
      intro j h3 h4
      rw [hlast]
      apply getD_of_getElem?
      rw [e3, if_neg (by omega), if_neg (by omega), if_pos (by omega),
        pad_source_byte data m h1])
  rw [hres]
  congr 1
  omega

/-- C14, witness: the plaintext `05 05 cc cc` of length 4. -/
theorem findPaddingEnd_padDataEn_witness :
    ∃ out n, padDataEn [5, 5, 0xCC, 0xCC] ((4 : Nat) : Int) = some (out, n) ∧
      findPaddingEnd out n = some (8 + ((4 : Nat) : Int)) :=
  findPaddingEnd_padDataEn [5, 5, 0xCC, 0xCC] 4 (by decide) (by decide)

/-! ## The CBC round trip over an invertible block primitive -/

theorem slice_eight (B : List Nat) (i : Nat) :
    slice B 8 ((i : Int) - 8 + 8) =
      if 8 ≤ i ∧ i ≤ B.length then some ((B.drop 8).take (i - 8)) else none := by
  unfold slice
  by_cases h : 8 ≤ i ∧ i ≤ B.length
  · rw [if_pos h, if_pos (by omega)]
    have e1 : ((i : Int) - 8 + 8).toNat - (8 : Int).toNat = i - 8 := by omega
    have e2 : (8 : Int).toNat = 8 := rfl
    rw [e1, e2]
  · rw [if_neg h, if_neg (by omega)]

/-- An invertible block primitive, read on the bytes the two methods write. -/
theorem decBytes_encBytes_of_invertible {T : Tables} {c : Cipher} (hc : c.WF)
    (hr : RoundOk T c)
    (hinv : ∀ blk : List Nat, blk.length = 8 → Bytes blk →
      ∃ e, EncryptBlock T c blk blk = some e ∧ DecryptBlock c e e = some blk)
    {blk : List Nat} (hl : blk.length = 8) (hb : Bytes blk) :
    decBytes c (encBytes T c blk) = blk := by
  obtain ⟨e, h1, h2⟩ := hinv blk hl hb
  rw [EncryptBlock_eq_some hc hr hl] at h1
  have he : encBytes T c blk = e := Option.some.inj h1
  rw [← he, DecryptBlock_eq_some hc hr.1 (length_encBytes T c hl)] at h2
  exact Option.some.inj h2

/-- The buffer that `DeCrypt_CBC` scans after decrypting the output of
`EnCrypt_CBC`, when the block primitive is invertible: the IV followed by the
padded plaintext. -/
theorem CBC_decrypted_buffer {T : Tables} {c : Cipher} (hc : c.WF) (hr : RoundOk T c)
    (hinv : ∀ blk : List Nat, blk.length = 8 → Bytes blk →
      ∃ e, EncryptBlock T c blk blk = some e ∧ DecryptBlock c e e = some blk)
    (rd : RandRead) (hiv : rd.iv.length = 8) (hivb : Bytes rd.iv)
    (hn : ¬ (rd.n ≠ 8 ∧ rd.err = true)) (data : List Nat) (hdb : Bytes data) (m : Nat)
    (hm : m ≤ data.length) (cd : Cipher) (hcd : cd.WF) (hk : SameKey cd c) :
    ∃ out B ivr, EnCrypt_CBC T rd c data (m : Int) =
        some (out, ((16 + 8 * ((m + 7) / 8) : Nat) : Int), { c with IV := rd.iv }) ∧
      out.length = 16 + 8 * ((m + 7) / 8) ∧
      B.length = 16 + 8 * ((m + 7) / 8) ∧
      (∀ j, B[j]? =
        if j < 8 then rd.iv[j]?
        else if j < 8 + m then data[j - 8]?
        else if j < 16 + 8 * ((m + 7) / 8) then
          some ((List.replicate 8 0 ++ data).getD (m + 7) 0 ^^^ 0xCC)
        else none) ∧
      DeCrypt_CBC cd out ((16 + 8 * ((m + 7) / 8) : Nat) : Int) =
        (findPaddingEnd B ((16 + 8 * ((m + 7) / 8) : Nat) : Int)).bind fun e =>
          (slice B 8 (e - 8 + 8)).map fun res => (res, e - 8, { cd with IV := ivr }) := by
  obtain ⟨P, out, e1, e2, e3, e4, e5, e6⟩ := EnCrypt_CBC_spec hc hr rd hiv hivb hn data m hm
  obtain ⟨P1, p1, p2, p3⟩ := padDataEn_spec data m hm
  have hPP : P1 = P := by
    have h := p1.symm.trans e1
    simp only [Option.some.injEq, Prod.mk.injEq] at h
    exact h.1
  subst hPP
  have hrd : cd.round + 1 < 268 := by
    rw [hk.2.2.2.2.2]
    exact hr.1
  obtain ⟨B, ivr, b1, b2, b3, b4⟩ := DeCrypt_CBC_spec hcd hrd out (16 + 8 * ((m + 7) / 8))
    (by omega) (by omega) (by omega)
  have hpadlt : (List.replicate 8 0 ++ data).getD (m + 7) 0 < 256 := by
    rw [List.getD_eq_getElem?_getD]
    cases h : (List.replicate 8 0 ++ data)[m + 7]? with
    | none => exact (by decide : (0 : Nat) < 256)
    | some x =>
      have hx := List.getElem?_mem h
      rcases List.mem_append.1 hx with h1 | h1
      · rw [List.eq_of_mem_replicate h1]
        exact (by decide : (0 : Nat) < 256)
      · exact hdb x h1
  have hPb : Bytes P1 := by
    intro x hx
    obtain ⟨j, hj, rfl⟩ := List.getElem_of_mem hx
    have h1 : P1[j]? = some P1[j] := List.getElem?_eq_getElem hj
    rw [p3] at h1
    split at h1
    · rw [← Option.some.inj h1]
      exact (by decide : (0 : Nat) < 256)
    · split at h1
      · exact hdb _ (List.getElem?_mem h1)
      · split at h1
        · rw [← Option.some.inj h1]
          exact Nat.xor_lt_two_pow (n := 8) hpadlt (by decide)
        · cases h1
  have hOb : ∀ k, k < 1 + (m + 7) / 8 → Bytes (block out (8 * k)) := by
    intro k hk1
    cases k with
    | zero =>
      rw [Nat.mul_zero, e5]
      exact hivb
    | succ k =>
      have e7 : 8 * (k + 1) = 8 + 8 * k := by omega
      rw [e7, e6 k (by omega)]
      exact bytes_encBytes _ _ _
  have hblk : ∀ k, k < 1 + (m + 7) / 8 → block B (8 + 8 * k) = block P1 (8 + 8 * k) := by
    intro k hk1
    have l1 : (block P1 (8 + 8 * k)).length = 8 := block_length (by omega)
    have l2 : (block out (8 * k)).length = 8 := block_length (by omega)
    have l3 : (xorBytes (block P1 (8 + 8 * k)) (block out (8 * k))).length = 8 := by
      rw [length_xorBytes, l1, l2]
      rfl
    rw [b3 k (by omega), decBytes_congr hk, e6 k hk1,
      decBytes_encBytes_of_invertible hc hr hinv l3
        (bytes_xorBytes (bytes_block hPb _) (hOb k hk1)),
      xorBytes_cancel (by rw [l1, l2])]
  refine ⟨out, B, ivr, ?_, e3, b1, ?_, b4⟩
  · rw [e2, paddedLengthEn_natCast]
  · intro j
    by_cases h1 : j < 8
    · rw [if_pos h1]
      have h2 : (block B 0)[j]? = (block out 0)[j]? := by rw [b2]
      rw [block_getElem?, block_getElem?, if_pos h1, if_pos h1, Nat.zero_add] at h2
      have h3 : (block out 0)[j]? = rd.iv[j]? := by rw [e5]
      rw [block_getElem?, if_pos h1, Nat.zero_add] at h3
      rw [h2, h3]
    · rw [if_neg h1]
      by_cases h2 : j < 16 + 8 * ((m + 7) / 8)
      · have h3 : (block B (8 + 8 * ((j - 8) / 8)))[(j - 8) % 8]? =
            (block P1 (8 + 8 * ((j - 8) / 8)))[(j - 8) % 8]? := by
          rw [hblk ((j - 8) / 8) (by omega)]
        have h4 : (j - 8) % 8 < 8 := Nat.mod_lt _ (by decide)
        have h5 : 8 + 8 * ((j - 8) / 8) + (j - 8) % 8 = j := by omega
        rw [block_getElem?, block_getElem?, if_pos h4, if_pos h4, h5] at h3
        rw [h3, p3, if_neg h1]
      · rw [List.getElem?_eq_none (by omega), if_neg (by omega), if_neg h2]

/-- The scan on a buffer that holds a non-empty plaintext at offset 8 followed
by its padding stops at the end of the plaintext. -/
theorem findPaddingEnd_of_layout {B data : List Nat} {m L : Nat} (h1 : 1 ≤ m)
    (h2 : m ≤ data.length) (hL : 8 + m < L) (hB : B.length = L)
    (hlay : ∀ j, 8 ≤ j → B[j]? =
      if j < 8 + m then data[j - 8]?
      else if j < L then some ((List.replicate 8 0 ++ data).getD (m + 7) 0 ^^^ 0xCC)
      else none) :
    findPaddingEnd B (L : Int) = some ((8 + m : Nat) : Int) := by
  have hlast : B.getD (L - 1) 0 = data.getD (m - 1) 0 ^^^ 0xCC := by
    apply getD_of_getElem?
    rw [hlay _ (by omega), if_neg (by omega), if_pos (by omega), pad_source_byte data m h1]
  have hres := findPaddingEnd_of_last_ne (B := B) (L := L) (by omega) (by omega) (7 + m)
    (by omega)
    (by
      rw [hlast]
      have : B.getD (7 + m) 0 = data.getD (m - 1) 0 := by
        apply getD_of_getElem?
        rw [hlay _ (by omega), if_pos (by omega)]
        have : 7 + m - 8 = m - 1 := by omega
        rw [this]
        exact getElem?_eq_some_getD (by omega)
      rw [this]
      exact xor_cc_ne _)
    (by
      intro j h3 h4
      rw [hlast]
      apply getD_of_getElem?
      rw [hlay _ (by omega), if_neg (by omega), if_pos (by omega), pad_source_byte data m h1])
  rw [hres]
  congr 1
  omega

/-- The unkeyed cipher state `initCipher T Cipher.zero 16` has an invertible
block primitive: its last subkey is the seed subkey. -/
theorem initCipher_invertible :
    ∀ blk : List Nat, blk.length = 8 → Bytes blk →
      ∃ e, EncryptBlock blowfishTables (initCipher blowfishTables Cipher.zero 16) blk blk =
          some e ∧
        DecryptBlock (initCipher blowfishTables Cipher.zero 16) e e = some blk := by
  intro blk hl hb
  have hc := initCipher_wf blowfishTables_wf Cipher.zero_wf 16
  have hr := roundOk_init blowfishTables_p_length
  refine ⟨_, EncryptBlock_eq_some hc hr hl, ?_⟩
  rw [DecryptBlock_eq_some hc hr.1 (length_encBytes _ _ hl)]
  congr 1
  exact (decBytes_encBytes_iff blowfishTables_wf.p_words hc rfl hl hb).2
    (initCipher_subkey blowfishTables_p_length)

/-- C17: over a cipher state `c` whose block primitive is invertible
(`DecryptBlock` of `EncryptBlock` of `B` is `B` for every 8-byte block `B`), for
every byte sequence `D` with `len D ≥ 1` and every 8-byte IV, `EnCrypt_CBC D
(len D)` returns a buffer on which `DeCrypt_CBC`, under the returned cipher
state or any state with the same key material, returns exactly `D` and `len D`,
whatever the trailing bytes of `D` are. -/
theorem CBC_round_trip_of_invertible (T : Tables) (c : Cipher) (hc : c.WF) (hr : RoundOk T c)
    (hinv : ∀ blk : List Nat, blk.length = 8 → Bytes blk →
      ∃ e, EncryptBlock T c blk blk = some e ∧ DecryptBlock c e e = some blk)
    (rd : RandRead) (hiv : rd.iv.length = 8) (hivb : Bytes rd.iv)
    (hn : ¬ (rd.n ≠ 8 ∧ rd.err = true)) (D : List Nat) (hD : Bytes D) (h1 : 1 ≤ D.length) :
    ∃ O n c1, EnCrypt_CBC T rd c D (D.length : Int) = some (O, n, c1) ∧
      (∃ c2, DeCrypt_CBC c1 O n = some (D, (D.length : Int), c2)) ∧
      ∀ cd : Cipher, cd.WF → SameKey cd c →
        ∃ c2, DeCrypt_CBC cd O n = some (D, (D.length : Int), c2) := by
  have key : ∀ cd : Cipher, cd.WF → SameKey cd c →
      ∃ O, EnCrypt_CBC T rd c D (D.length : Int) =
          some (O, ((16 + 8 * ((D.length + 7) / 8) : Nat) : Int), { c with IV := rd.iv }) ∧
        ∃ c2, DeCrypt_CBC cd O ((16 + 8 * ((D.length + 7) / 8) : Nat) : Int) =
          some (D, (D.length : Int), c2) := by
    intro cd hcd hk
    obtain ⟨out, B, ivr, a1, a2, a3, a4, a5⟩ := CBC_decrypted_buffer hc hr hinv rd hiv hivb hn
      D hD D.length (Nat.le_refl _) cd hcd hk
    refine ⟨out, a1, { cd with IV := ivr }, ?_⟩
    have hf := @findPaddingEnd_of_layout B D D.length
      (16 + 8 * ((D.length + 7) / 8)) h1 (Nat.le_refl _) (by omega) a3
      (fun j hj => by rw [a4, if_neg (by omega)])
    have hres : (B.drop 8).take (8 + D.length - 8) = D := by
      apply List.ext_getElem?
      intro k
      rw [List.getElem?_take, List.getElem?_drop]
      by_cases hk1 : k < D.length
      · rw [if_pos (by omega), a4, if_neg (by omega), if_pos (by omega)]
        have : 8 + k - 8 = k := by omega
        rw [this]
      · rw [if_neg (by omega), List.getElem?_eq_none (by omega)]
    rw [a5, hf]
    simp only [Option.some_bind, slice_eight, hres]
    rw [if_pos (by omega)]
    simp only [Option.map_some', Option.some.injEq, Prod.mk.injEq, true_and, and_true]
    omega
  obtain ⟨O, g1, g2⟩ := key { c with IV := rd.iv } (hc.with_IV hiv hivb) (sameKey_with_IV c rd.iv)
  refine ⟨O, _, _, g1, g2, ?_⟩
  intro cd hcd hk
  obtain ⟨O1, f1, f2⟩ := key cd hcd hk
  have hOO : O1 = O := by
    have h := f1.symm.trans g1
    simp only [Option.some.injEq, Prod.mk.injEq] at h
    exact h.1
  rw [← hOO]
  exact f2

/-- C17, witness: the unkeyed cipher state made of the copied Blowfish seed
tables, the IV `01 .. 08` and the plaintext `07 cb cb`, which ends in its own
padding marker `0xcb`. -/
theorem CBC_round_trip_of_invertible_witness :
    ∃ O n c1, EnCrypt_CBC blowfishTables ⟨[1, 2, 3, 4, 5, 6, 7, 8], 8, false⟩
        (initCipher blowfishTables Cipher.zero 16) [7, 0xCB, 0xCB]
        (([7, 0xCB, 0xCB] : List Nat).length : Int) = some (O, n, c1) ∧
      (∃ c2, DeCrypt_CBC c1 O n =
        some ([7, 0xCB, 0xCB], (([7, 0xCB, 0xCB] : List Nat).length : Int), c2)) ∧
      ∀ cd : Cipher, cd.WF → SameKey cd (initCipher blowfishTables Cipher.zero 16) →
        ∃ c2, DeCrypt_CBC cd O n =
          some ([7, 0xCB, 0xCB], (([7, 0xCB, 0xCB] : List Nat).length : Int), c2) :=
  CBC_round_trip_of_invertible blowfishTables (initCipher blowfishTables Cipher.zero 16)
    (initCipher_wf blowfishTables_wf Cipher.zero_wf 16) (roundOk_init blowfishTables_p_length)
    initCipher_invertible ⟨[1, 2, 3, 4, 5, 6, 7, 8], 8, false⟩ (by decide) (by decide)
    (by decide) [7, 0xCB, 0xCB] (by decide) (by decide)

/-! ## The empty plaintext, and when `DeCrypt_CBC` returns -/

theorem getD_congr_getElem? {a b : List Nat} {i j : Nat} (h : a[i]? = b[j]?) :
    a.getD i 0 = b.getD j 0 := by
  rw [List.getD_eq_getElem?_getD, List.getD_eq_getElem?_getD, h]

/-- C18: over a cipher state whose block primitive is invertible, `EnCrypt_CBC`
of the empty plaintext returns a 16-byte buffer; `DeCrypt_CBC` of that buffer
returns the empty plaintext with length 0 if and only if the last IV byte is
not `0xCC`, and when the last IV byte is `0xCC` it fails (an index or a slice
bound is out of range) instead of returning. -/
theorem CBC_empty_plaintext (T : Tables) (c : Cipher) (hc : c.WF) (hr : RoundOk T c)
    (hinv : ∀ blk : List Nat, blk.length = 8 → Bytes blk →
      ∃ e, EncryptBlock T c blk blk = some e ∧ DecryptBlock c e e = some blk)
    (rd : RandRead) (hiv : rd.iv.length = 8) (hivb : Bytes rd.iv)
    (hn : ¬ (rd.n ≠ 8 ∧ rd.err = true)) :
    ∃ O n c1, EnCrypt_CBC T rd c [] 0 = some (O, n, c1) ∧ O.length = 16 ∧ n = 16 ∧
      ((∃ c2, DeCrypt_CBC c1 O n = some ([], 0, c2)) ↔ rd.iv.getD 7 0 ≠ 0xCC) ∧
      (rd.iv.getD 7 0 = 0xCC → DeCrypt_CBC c1 O n = none) := by
  obtain ⟨out, B, ivr, a1, a2, a3, a4, a5⟩ := CBC_decrypted_buffer hc hr hinv rd hiv hivb hn
    [] (fun x hx => by cases hx) 0 (Nat.le_refl _) { c with IV := rd.iv }
    (hc.with_IV hiv hivb) (sameKey_with_IV c rd.iv)
  have e16 : 16 + 8 * ((0 + 7) / 8) = 16 := by decide
  rw [e16] at a1 a2 a3 a5
  have hB7 : B.getD 7 0 = rd.iv.getD 7 0 := by
    apply getD_congr_getElem?
    rw [a4, if_pos (by decide)]
  have hBhi : ∀ j, 8 ≤ j → j < 16 → B.getD j 0 = 0xCC := by
    intro j h1 h2
    apply getD_of_getElem?
    rw [a4, if_neg (by omega), if_neg (by omega), if_pos (by omega)]
    rfl
  have hlast : B.getD (16 - 1) 0 = 0xCC := hBhi 15 (by decide) (by decide)
  have hdec : rd.iv.getD 7 0 ≠ 0xCC →
      DeCrypt_CBC { c with IV := rd.iv } out ((16 : Nat) : Int) =
        some ([], 0, { c with IV := ivr }) := by
    intro h7
    have hf := findPaddingEnd_of_last_ne (B := B) (L := 16) (by decide) (by omega) 7
      (by decide) (by rw [hlast, hB7]; exact h7)
      (fun j h1 h2 => by rw [hlast]; exact hBhi j (by omega) h2)
    rw [a5, hf]
    simp only [Option.some_bind]
    rw [slice_eight, if_pos (by omega)]
    rfl
  have hnone : rd.iv.getD 7 0 = 0xCC →
      DeCrypt_CBC { c with IV := rd.iv } out ((16 : Nat) : Int) = none := by
    intro h7
    rcases findPaddingEnd_cases (B := B) (L := 16) (by decide) (by omega) with
      ⟨-, h⟩ | ⟨i, h1, h2, -, h4⟩
    · rw [a5, h]
      rfl
    · have hi : i < 7 := by
        by_contra hge
        rcases Nat.lt_or_ge i 8 with h5 | h5
        · have : i = 7 := by omega
          rw [this, hlast, hB7] at h2
          exact h2 h7
        · rw [hlast] at h2
          exact h2 (hBhi i h5 h1)
      rw [a5, h4]
      simp only [Option.some_bind]
      rw [slice_eight, if_neg (by omega)]
      rfl
  refine ⟨out, ((16 : Nat) : Int), { c with IV := rd.iv }, a1, a2, rfl, ⟨?_, ?_⟩, hnone⟩
  · rintro ⟨c2, h⟩ h7
    rw [hnone h7] at h
    cases h
  · intro h7
    exact ⟨_, hdec h7⟩

/-- C18, witness: the unkeyed cipher state made of the copied Blowfish seed
tables and the IV `01 .. 07 cc`, whose last byte is `0xcc`. -/
theorem CBC_empty_plaintext_witness :
    ∃ O n c1, EnCrypt_CBC blowfishTables ⟨[1, 2, 3, 4, 5, 6, 7, 0xCC], 8, false⟩
        (initCipher blowfishTables Cipher.zero 16) [] 0 = some (O, n, c1) ∧
      O.length = 16 ∧ n = 16 ∧
      ((∃ c2, DeCrypt_CBC c1 O n = some ([], 0, c2)) ↔
        ([1, 2, 3, 4, 5, 6, 7, 0xCC] : List Nat).getD 7 0 ≠ 0xCC) ∧
      (([1, 2, 3, 4, 5, 6, 7, 0xCC] : List Nat).getD 7 0 = 0xCC →
        DeCrypt_CBC c1 O n = none) :=
  CBC_empty_plaintext blowfishTables (initCipher blowfishTables Cipher.zero 16)
    (initCipher_wf blowfishTables_wf Cipher.zero_wf 16) (roundOk_init blowfishTables_p_length)
    initCipher_invertible ⟨[1, 2, 3, 4, 5, 6, 7, 0xCC], 8, false⟩ (by decide) (by decide)
    (by decide)

/-- C19: for a cipher state `c` on which `DecryptBlock` returns and an input
length `n` that is a multiple of 8, `DeCrypt_CBC` fails when `n = 0` or
`n = 8`.  For `n ≥ 16`, with `B` the decrypted buffer (the first 8 input bytes
followed, for each later block, by `DecryptBlock` of that block XOR the block
before it), `DeCrypt_CBC` returns if and only if some byte of `B` at an offset
in `[7, n-2]` differs from `B[n-1]`, and it then returns `B[8..i)` and the
length `i - 8`, where `i - 1` is the largest offset whose byte differs from
`B[n-1]`. -/
theorem DeCrypt_CBC_returns_iff (c : Cipher) (hc : c.WF) (hr : c.round + 1 < 268)
    (data : List Nat) (n : Nat) (h8 : n % 8 = 0) (hle : n ≤ data.length) :
    ((n = 0 ∨ n = 8) → DeCrypt_CBC c data (n : Int) = none) ∧
    (16 ≤ n → ∃ B : List Nat, B.length = n ∧ block B 0 = block data 0 ∧
      (∀ k, 8 + 8 * k + 8 ≤ n →
        ∃ d, DecryptBlock c (block data (8 + 8 * k)) (block data (8 + 8 * k)) = some d ∧
          block B (8 + 8 * k) = xorBytes d (block data (8 * k))) ∧
      ((∃ res m c2, DeCrypt_CBC c data (n : Int) = some (res, m, c2)) ↔
        ∃ j, 7 ≤ j ∧ j + 2 ≤ n ∧ B.getD j 0 ≠ B.getD (n - 1) 0) ∧
      ∀ res m c2, DeCrypt_CBC c data (n : Int) = some (res, m, c2) →
        ∃ i, 8 ≤ i ∧ i < n ∧ B.getD (i - 1) 0 ≠ B.getD (n - 1) 0 ∧
          (∀ j, i ≤ j → j < n → B.getD j 0 = B.getD (n - 1) 0) ∧
          res = (B.drop 8).take (i - 8) ∧ m = (i : Int) - 8) := by
  have hscan : 8 ≤ n → ∃ B : List Nat, B.length = n ∧ block B 0 = block data 0 ∧
      (∀ k, 8 + 8 * k + 8 ≤ n →
        ∃ d, DecryptBlock c (block data (8 + 8 * k)) (block data (8 + 8 * k)) = some d ∧
          block B (8 + 8 * k) = xorBytes d (block data (8 * k))) ∧
      (((∀ j, 7 ≤ j → j < n → B.getD j 0 = B.getD (n - 1) 0) ∧
          DeCrypt_CBC c data (n : Int) = none) ∨
        ∃ i c2, 8 ≤ i ∧ i < n ∧ B.getD (i - 1) 0 ≠ B.getD (n - 1) 0 ∧
          (∀ j, i ≤ j → j < n → B.getD j 0 = B.getD (n - 1) 0) ∧
          DeCrypt_CBC c data (n : Int) = some ((B.drop 8).take (i - 8), (i : Int) - 8, c2)) := by
    intro hpos
    obtain ⟨B, ivr, b1, b2, b3, b4⟩ := DeCrypt_CBC_spec hc hr data n h8 hpos hle
    refine ⟨B, b1, b2, ?_, ?_⟩
    · intro k hk
      exact ⟨_, DecryptBlock_eq_some hc hr (block_length (by omega)), b3 k hk⟩
    · rcases findPaddingEnd_cases (B := B) (L := n) (by omega) (by omega) with
        ⟨h1, h2⟩ | ⟨i, h1, h2, h3, h4⟩
      · left
        refine ⟨fun j _ hj => h1 j hj, ?_⟩
        rw [b4, h2]
        rfl
      · have hin : i ≠ n - 1 := by
          intro h
          rw [h] at h2
          exact h2 rfl
        by_cases h7 : 7 ≤ i
        · right
          refine ⟨i + 1, { c with IV := ivr }, by omega, by omega, ?_, ?_, ?_⟩
          · exact h2
          · intro j h5 h6
            exact h3 j (by omega) h6
          · rw [b4, h4]
            simp only [Option.some_bind]
            rw [slice_eight, if_pos (by omega)]
            rfl
        · left
          constructor
          · intro j h5 h6
            exact h3 j (by omega) h6
          · rw [b4, h4]
            simp only [Option.some_bind]
            rw [slice_eight, if_neg (by omega)]
            rfl
  constructor
  · rintro (h | h)
    · subst h
      rfl
    · obtain ⟨B, b1, -, -, hB⟩ := hscan (by omega)
      rcases hB with ⟨-, h2⟩ | ⟨i, c2, h1, h2, -⟩
      · exact h2
      · omega
  · intro h16
    obtain ⟨B, b1, b2, b3, hB⟩ := hscan (by omega)
    refine ⟨B, b1, b2, b3, ?_, ?_⟩
    · rcases hB with ⟨h1, h2⟩ | ⟨i, c2, h1, h2, h3, h4, h5⟩
      · constructor
        · rintro ⟨res, m, c2, h⟩
          rw [h2] at h
          cases h
        · rintro ⟨j, h3, h4, h5⟩
          exact absurd (h1 j h3 (by omega)) h5
      · constructor
        · intro _
          exact ⟨i - 1, by omega, by omega, h3⟩
        · intro _
          exact ⟨_, _, _, h5⟩
    · intro res m c2 h
      rcases hB with ⟨-, h2⟩ | ⟨i, c3, h1, h2, h3, h4, h5⟩
      · rw [h2] at h
        cases h
      · rw [h5] at h
        simp only [Option.some.injEq, Prod.mk.injEq] at h
        exact ⟨i, h1, h2, h3, h4, h.1.symm, h.2.1.symm⟩

/-- C19, witness: the unkeyed cipher state made of the copied Blowfish seed
tables and the 16-byte input `01 02 .. 10`. -/
theorem DeCrypt_CBC_returns_iff_witness :
    ((16 = 0 ∨ 16 = 8) → DeCrypt_CBC (initCipher blowfishTables Cipher.zero 16)
        [1, 2, 3, 4, 5, 6, 7, 8, 9, 10, 11, 12, 13, 14, 15, 16] ((16 : Nat) : Int) = none) ∧
    (16 ≤ 16 → ∃ B : List Nat, B.length = 16 ∧
      block B 0 = block [1, 2, 3, 4, 5, 6, 7, 8, 9, 10, 11, 12, 13, 14, 15, 16] 0 ∧
      (∀ k, 8 + 8 * k + 8 ≤ 16 →
        ∃ d, DecryptBlock (initCipher blowfishTables Cipher.zero 16)
            (block [1, 2, 3, 4, 5, 6, 7, 8, 9, 10, 11, 12, 13, 14, 15, 16] (8 + 8 * k))
            (block [1, 2, 3, 4, 5, 6, 7, 8, 9, 10, 11, 12, 13, 14, 15, 16] (8 + 8 * k)) =
              some d ∧
          block B (8 + 8 * k) =
            xorBytes d (block [1, 2, 3, 4, 5, 6, 7, 8, 9, 10, 11, 12, 13, 14, 15, 16] (8 * k))) ∧
      ((∃ res m c2, DeCrypt_CBC (initCipher blowfishTables Cipher.zero 16)
          [1, 2, 3, 4, 5, 6, 7, 8, 9, 10, 11, 12, 13, 14, 15, 16] ((16 : Nat) : Int) =
            some (res, m, c2)) ↔
        ∃ j, 7 ≤ j ∧ j + 2 ≤ 16 ∧ B.getD j 0 ≠ B.getD (16 - 1) 0) ∧
      ∀ res m c2, DeCrypt_CBC (initCipher blowfishTables Cipher.zero 16)
          [1, 2, 3, 4, 5, 6, 7, 8, 9, 10, 11, 12, 13, 14, 15, 16] ((16 : Nat) : Int) =
            some (res, m, c2) →
        ∃ i, 8 ≤ i ∧ i < 16 ∧ B.getD (i - 1) 0 ≠ B.getD (16 - 1) 0 ∧
          (∀ j, i ≤ j → j < 16 → B.getD j 0 = B.getD (16 - 1) 0) ∧
          res = (B.drop 8).take (i - 8) ∧ m = (i : Int) - 8) :=
  DeCrypt_CBC_returns_iff (initCipher blowfishTables Cipher.zero 16)
    (initCipher_wf blowfishTables_wf Cipher.zero_wf 16) (by decide)
    [1, 2, 3, 4, 5, 6, 7, 8, 9, 10, 11, 12, 13, 14, 15, 16] 16 (by decide) (by decide)

end Blowcbc
